import Mathlib

/-!
# LZFSE entropy tables, buffer API and extended attributes of linux-apfs-rw

A shallow embedding of `lzfse/lzfse_fse.c` and `lzfse/lzfse_decode.c` (namespace `Lzfse`) and
of the extended attribute functions of `xattr.c` (namespace `Apfs`).

Conventions of the embedding:
* unsigned C values (`uint16_t` frequencies, `uint32_t` counts, array indices) are `Nat`,
  signed `int` values are `Int`;
* every conversion to a narrower type that the source performs is an explicit
  reduction (`u8`, `u16`, `u32`, `i8`, `i16`, `i32`);
* an array argument `a[0..nsymbols)` is a list, `nsymbols` being its length;
* a table that is filled through an advancing pointer (`memcpy(t, &e, ..); t++;`) is the
  list of the writes performed, each with the slot index it goes to.
-/

namespace Lzfse

/-! ## Machine integers -/

/-- Conversion to `uint8_t`. -/
def u8 (x : Int) : Int := x % 256

/-- Conversion to `uint16_t`. -/
def u16 (x : Int) : Int := x % 65536

/-- Conversion to `uint32_t`. -/
def u32 (x : Int) : Int := x % 4294967296

/-- Conversion to `int8_t` (two's complement). -/
def i8 (x : Int) : Int := (x + 128) % 256 - 128

/-- Conversion to `int16_t` (two's complement). -/
def i16 (x : Int) : Int := (x + 32768) % 65536 - 32768

/-- Conversion to `int` (32 bits, two's complement). -/
def i32 (x : Int) : Int := (x + 2147483648) % 4294967296 - 2147483648

/-- Conversion to `size_t` (64 bits). -/
def size_t (x : Int) : Nat := (x % 18446744073709551616).toNat

/-- Leading zeros of the low `bits` bits of `x`: the top bit is tested first. -/
def clz_bits : Nat → Nat → Nat
  | 0, _ => 0
  | bits + 1, x => if x < 2 ^ bits then 1 + clz_bits bits x else 0

/-- The builtin `__builtin_clz` on a 32-bit unsigned value (32 for the undefined input 0). -/
def clz32 (x : Nat) : Nat := clz_bits 32 x

/-- The builtin `__builtin_clz` applied to an `int`, which is first converted to unsigned. -/
def clz (x : Int) : Int := clz32 (u32 x).toNat

/-- The C shift `x << k` of an `int` by an `int` count. A count outside `0..31` is undefined
in C; the count is taken modulo 32 as the shift instructions of the target do. -/
def shl (x k : Int) : Int := x * 2 ^ (k % 32).toNat

/-- The C shift `x >> k` of an `int` by an `int` count (arithmetic shift); the count is taken
modulo 32, see `shl`. -/
def shr (x k : Int) : Int := x / 2 ^ (k % 32).toNat

/-! ## `lzfse_fse.c`: decoder table -/

/-- The record `fse_decoder_entry`: `k` is stored through `(int8_t)`, `symbol` through
`(uint8_t)`, `delta` through `(int16_t)`. -/
structure fse_decoder_entry where
  k : Int
  symbol : Nat
  delta : Int
deriving DecidableEq

/-- The inner loop of `fse_init_decoder_table` (lines 66-85) for symbol `i` of frequency `f`,
the table pointer standing at slot `t`: the `f` writes, in order, with their slots. -/
def fse_init_decoder_table_symbol (nstates n_clz : Int) (i f t : Nat) :
    List (Nat × fse_decoder_entry) :=
  let k : Int := clz f - n_clz
  let j0 : Int := shr (i32 (2 * nstates)) k - f
  (List.range f).map fun j =>
    (t + j,
      if (j : Int) < j0 then
        { symbol := i % 256, k := i8 k, delta := i16 (shl (f + j) k - nstates) }
      else
        { symbol := i % 256, k := i8 (k - 1), delta := i16 (shl (j - j0) (k - 1)) })

/-- The outer loop of `fse_init_decoder_table` (lines 54-86) from symbol index `i` on, with the
running `sum_of_freq` and the table pointer at slot `t`. The result is the value returned and
the writes performed. -/
def fse_init_decoder_table_loop (nstates n_clz : Int) :
    Nat → Int → Nat → List Nat → Int × List (Nat × fse_decoder_entry)
  | _, _, _, [] => (0, [])
  | i, sum_of_freq, t, f :: freq =>
    if f = 0 then
      fse_init_decoder_table_loop nstates n_clz (i + 1) sum_of_freq t freq
    else
      let sum_of_freq := i32 (sum_of_freq + f)
      if sum_of_freq > nstates then
        (-1, [])
      else
        let r := fse_init_decoder_table_loop nstates n_clz (i + 1) sum_of_freq (t + f) freq
        (r.1, fse_init_decoder_table_symbol nstates n_clz i f t ++ r.2)

/-- The function `fse_init_decoder_table(nstates, nsymbols, freq, t)`: the returned status
(0 or -1) and the list of table writes `(slot, entry)` in the order they are performed. -/
def fse_init_decoder_table (nstates : Int) (freq : List Nat) :
    Int × List (Nat × fse_decoder_entry) :=
  fse_init_decoder_table_loop nstates (clz nstates) 0 0 0 freq

/-- The slots written by a run of the table builder, in the order of the writes. -/
def slots_written {α : Type} (writes : List (Nat × α)) : List Nat :=
  writes.map Prod.fst

/-- The slots whose entry has symbol field `sym`, in the order of the writes. -/
def slots_of_symbol (writes : List (Nat × fse_decoder_entry)) (sym : Nat) : List Nat :=
  (writes.filter fun w => w.2.symbol = sym).map Prod.fst

/-- Decoder table completeness as claim C1 words it: status 0, the slots `0..nstates-1` are
written once each, and for every symbol `i` the slots whose symbol field is `i` are the
`freq[i]` consecutive slots that start at the sum of the lower-indexed frequencies. -/
def decoder_table_complete (nstates : Nat) (freq : List Nat) : Prop :=
  (fse_init_decoder_table nstates freq).1 = 0 ∧
  slots_written (fse_init_decoder_table nstates freq).2 = List.range nstates ∧
  ∀ i, i < freq.length →
    slots_of_symbol (fse_init_decoder_table nstates freq).2 i
      = List.range' (freq.take i).sum (freq.getD i 0)

/-! ## `lzfse_fse.c`: value decoder table -/

/-- The record `fse_value_decoder_entry`. It is copied as 8 bytes (`memcpy(t, &e, 8)`):
`vbase` is an `int32_t` (4 bytes), `delta` is stored through `(int16_t)` (2 bytes), and
`value_bits` (a `uint8_t` of the caller) and `total_bits` take one byte each, so that
`total_bits` holds the sum `(uint8_t)k + value_bits` reduced to `uint8_t`. -/
structure fse_value_decoder_entry where
  total_bits : Int
  value_bits : Nat
  delta : Int
  vbase : Int
deriving DecidableEq

/-- The inner loop of `fse_init_value_decoder_table` (lines 116-137) for symbol `i` of
frequency `f`, the table pointer standing at slot `t`. -/
def fse_init_value_decoder_table_symbol (nstates n_clz : Int) (symbol_vbits : Nat → Nat)
    (symbol_vbase : Nat → Int) (i f t : Nat) : List (Nat × fse_value_decoder_entry) :=
  let k : Int := clz f - n_clz
  let j0 : Int := shr (i32 (2 * nstates)) k - f
  (List.range f).map fun j =>
    (t + j,
      if (j : Int) < j0 then
        { value_bits := symbol_vbits i, vbase := symbol_vbase i,
          total_bits := u8 (u8 k + symbol_vbits i),
          delta := i16 (shl (f + j) k - nstates) }
      else
        { value_bits := symbol_vbits i, vbase := symbol_vbase i,
          total_bits := u8 (u8 (k - 1) + symbol_vbits i),
          delta := i16 (shl (j - j0) (k - 1)) })

/-- The outer loop of `fse_init_value_decoder_table` (lines 109-138) from symbol index `i` on,
the table pointer standing at slot `t`. -/
def fse_init_value_decoder_table_loop (nstates n_clz : Int) (symbol_vbits : Nat → Nat)
    (symbol_vbase : Nat → Int) : Nat → Nat → List Nat → List (Nat × fse_value_decoder_entry)
  | _, _, [] => []
  | i, t, f :: freq =>
    if f = 0 then
      fse_init_value_decoder_table_loop nstates n_clz symbol_vbits symbol_vbase (i + 1) t freq
    else
      fse_init_value_decoder_table_symbol nstates n_clz symbol_vbits symbol_vbase i f t ++
        fse_init_value_decoder_table_loop nstates n_clz symbol_vbits symbol_vbase (i + 1)
          (t + f) freq

/-- The function `fse_init_value_decoder_table(nstates, nsymbols, freq, symbol_vbits,
symbol_vbase, t)`: the list of table writes `(slot, entry)` in the order they are performed.
The arrays `symbol_vbits` (of `uint8_t`) and `symbol_vbase` (of `int32_t`) are only indexed,
they are functions of the index. -/
def fse_init_value_decoder_table (nstates : Int) (freq : List Nat) (symbol_vbits : Nat → Nat)
    (symbol_vbase : Nat → Int) : List (Nat × fse_value_decoder_entry) :=
  fse_init_value_decoder_table_loop nstates (clz nstates) symbol_vbits symbol_vbase 0 0 freq

/-- The relation claim C7 states between the two tables: every entry `{symbol, k, delta}` that
the decoder table holds at a slot `p` has at the same slot of the value decoder table an entry
with the same `delta`, the value bits and base of that symbol, and `total_bits = k + vbits`. -/
def value_table_extends_decoder_table (nstates : Int) (freq : List Nat)
    (symbol_vbits : Nat → Nat) (symbol_vbase : Nat → Int) : Prop :=
  ∀ p e, (p, e) ∈ (fse_init_decoder_table nstates freq).2 →
    ∃ v, (p, v) ∈ fse_init_value_decoder_table nstates freq symbol_vbits symbol_vbase ∧
      v.delta = e.delta ∧ v.value_bits = symbol_vbits e.symbol ∧
      v.vbase = symbol_vbase e.symbol ∧ v.total_bits = e.k + symbol_vbits e.symbol

/-! ## `lzfse_fse.c`: encoder table -/

/-- The record `fse_encoder_entry`: the four fields are stored through `(int16_t)`. -/
structure fse_encoder_entry where
  s0 : Int
  k : Int
  delta0 : Int
  delta1 : Int
deriving DecidableEq

/-- The entry that the loop body of `fse_init_encoder_table` (lines 29-34) assigns to a symbol
of nonzero frequency `f`, for the current `offset`. -/
def fse_init_encoder_table_entry (nstates n_clz offset : Int) (f : Nat) : fse_encoder_entry :=
  let k : Int := clz f - n_clz
  { s0 := i16 (shl f k - nstates),
    k := i16 k,
    delta0 := i16 (offset - f + shr nstates k),
    delta1 := i16 (offset - f + shr nstates (k - 1)) }

/-- The loop of `fse_init_encoder_table` (lines 24-36) from symbol index `i` on, with the
current `offset`; the table `t` is indexed by symbol and only the entries of the symbols with
a nonzero frequency are assigned. -/
def fse_init_encoder_table_loop (nstates n_clz : Int) :
    Nat → Int → List Nat → (Nat → fse_encoder_entry) → (Nat → fse_encoder_entry)
  | _, _, [], t => t
  | i, offset, f :: freq, t =>
    if f = 0 then
      fse_init_encoder_table_loop nstates n_clz (i + 1) offset freq t
    else
      fse_init_encoder_table_loop nstates n_clz (i + 1) (i32 (offset + f)) freq
        (Function.update t i (fse_init_encoder_table_entry nstates n_clz offset f))

/-- The value of `offset` in `fse_init_encoder_table` after `d` symbols of `freq` have been
passed, starting from `offset`. -/
def fse_init_encoder_table_offset (offset : Int) : List Nat → Nat → Int
  | _, 0 => offset
  | [], _ + 1 => offset
  | f :: freq, d + 1 =>
    fse_init_encoder_table_offset (if f = 0 then offset else i32 (offset + f)) freq d

/-- The function `fse_init_encoder_table(nstates, nsymbols, freq, t)`: the table after the
call, `t` being the table before the call. -/
def fse_init_encoder_table (nstates : Int) (freq : List Nat) (t : Nat → fse_encoder_entry) :
    Nat → fse_encoder_entry :=
  fse_init_encoder_table_loop nstates (clz nstates) 0 0 freq t

/-- What claim C8 states of the encoder entry of symbol `i`: for a frequency `f` with
`1 ≤ f ≤ nstates` the stored `k` is `clz(f) - clz(nstates)`, it is not negative,
`nstates ≤ (f << k) < 2 * nstates`, the stored `s0` is `(f << k) - nstates` and
`0 ≤ s0 < nstates`; for a zero frequency the entry is the one found before the call. -/
def encoder_entry_shift_and_bias (nstates : Int) (freq : List Nat)
    (t : Nat → fse_encoder_entry) (i : Nat) : Prop :=
  (1 ≤ freq.getD i 0 → (freq.getD i 0 : Int) ≤ nstates →
    (fse_init_encoder_table nstates freq t i).k = clz (freq.getD i 0) - clz nstates ∧
    0 ≤ (fse_init_encoder_table nstates freq t i).k ∧
    nstates ≤ shl (freq.getD i 0) (fse_init_encoder_table nstates freq t i).k ∧
    shl (freq.getD i 0) (fse_init_encoder_table nstates freq t i).k < 2 * nstates ∧
    (fse_init_encoder_table nstates freq t i).s0
      = shl (freq.getD i 0) (fse_init_encoder_table nstates freq t i).k - nstates ∧
    0 ≤ (fse_init_encoder_table nstates freq t i).s0 ∧
    (fse_init_encoder_table nstates freq t i).s0 < nstates) ∧
  (freq.getD i 0 = 0 → fse_init_encoder_table nstates freq t i = t i)

/-! ## `lzfse_fse.c`: frequency normalisation -/

/-- One pass of the inner loop of `fse_adjust_freqs` (lines 148-158) over the symbols, for a
given `shift`: the frequencies and the overrun after the pass. The pass stops at the symbol
that brings the overrun to 0 (`break`). The amount `n` taken from a symbol lies between 0 and
the overrun, or is the overrun itself, so `overrun - n` needs no reduction to `int`. -/
def fse_adjust_freqs_pass (shift : Int) : List Nat → Int → List Nat × Int
  | [], overrun => ([], overrun)
  | f :: freq, overrun =>
    if f > 1 then
      let n : Int := shr ((f : Int) - 1) shift
      let n : Int := if n > overrun then overrun else n
      let f1 : Nat := (u16 ((f : Int) - n)).toNat
      let overrun : Int := overrun - n
      if overrun = 0 then
        (f1 :: freq, overrun)
      else
        let r := fse_adjust_freqs_pass shift freq overrun
        (f1 :: r.1, r.2)
    else
      let r := fse_adjust_freqs_pass shift freq overrun
      (f :: r.1, r.2)

/-- The outer loop `for (shift = 3; overrun != 0; shift--)` of `fse_adjust_freqs`, bounded by
`fuel` passes: `none` when the overrun is still nonzero after `fuel` passes. -/
def fse_adjust_freqs_loop : Nat → Int → List Nat → Int → Option (List Nat)
  | 0, _, freq, overrun => if overrun = 0 then some freq else none
  | fuel + 1, shift, freq, overrun =>
    if overrun = 0 then some freq
    else
      let r := fse_adjust_freqs_pass shift freq overrun
      fse_adjust_freqs_loop fuel (shift - 1) r.1 r.2

/-- The function `fse_adjust_freqs(freq, overrun, nsymbols)` run for at most `fuel` passes:
the frequencies at the return, `none` when the loop has not ended within `fuel` passes. -/
def fse_adjust_freqs (fuel : Nat) (freq : List Nat) (overrun : Int) : Option (List Nat) :=
  fse_adjust_freqs_loop fuel 3 freq overrun

/-- The total `s_count` of `fse_normalize_freq` (lines 176-177), a `uint32_t`. -/
def fse_normalize_freq_s_count (t : List Nat) : Int :=
  t.foldl (fun (s : Int) (x : Nat) => u32 (s + (x : Int))) 0

/-- The rounded frequency `f` of a count `ti` (lines 188-192), computed in `uint32_t`
arithmetic and raised to 1 for a used symbol. -/
def fse_normalize_freq_round (shift highprec_step : Int) (ti : Nat) : Int :=
  let f : Int := shr (u32 (shr (u32 ((ti : Int) * highprec_step)) shift + 1)) 1
  if f = 0 ∧ ti ≠ 0 then 1 else f

/-- The second loop of `fse_normalize_freq` (lines 184-202) from symbol index `i` on: the
frequencies stored (as `uint16_t`), and the final `remaining`, `max_freq`, `max_freq_sym`. -/
def fse_normalize_freq_loop (shift highprec_step : Int) :
    Nat → Int → Int → Nat → List Nat → List Nat × Int × Int × Nat
  | _, remaining, max_freq, max_freq_sym, [] => ([], remaining, max_freq, max_freq_sym)
  | i, remaining, max_freq, max_freq_sym, ti :: t =>
    let f : Int := fse_normalize_freq_round shift highprec_step ti
    let remaining : Int := i32 (remaining - f)
    let r :=
      if f > max_freq then fse_normalize_freq_loop shift highprec_step (i + 1) remaining f i t
      else fse_normalize_freq_loop shift highprec_step (i + 1) remaining max_freq max_freq_sym t
    ((u16 f).toNat :: r.1, r.2)

/-- The function `fse_normalize_freq(nstates, nsymbols, t, freq)`, the adjustment loop being
run for at most `fuel` passes: the array `freq` at the return. The result is `none` when the
adjustment loop has not ended within `fuel` passes, and when `freq[max_freq_sym]` lies outside
the array (`nsymbols = 0`). -/
def fse_normalize_freq (fuel : Nat) (nstates : Int) (t : List Nat) : Option (List Nat) :=
  let s_count : Int := fse_normalize_freq_s_count t
  let shift : Int := clz nstates - 1
  let highprec_step : Int := if s_count = 0 then 0 else u32 (shl 1 31) / s_count
  let r := fse_normalize_freq_loop shift highprec_step 0 nstates 0 0 t
  let freq : List Nat := r.1
  let remaining : Int := r.2.1
  let max_freq : Int := r.2.2.1
  let max_freq_sym : Nat := r.2.2.2
  if i32 (-remaining) < shr max_freq 2 then
    if max_freq_sym < freq.length then
      some (freq.set max_freq_sym (u16 ((freq.getD max_freq_sym 0 : Int) + remaining)).toNat)
    else none
  else
    fse_adjust_freqs fuel freq (i32 (-remaining))

/-- The number of symbols that occur, `t[i] > 0`. -/
def used_symbols (t : List Nat) : Nat :=
  t.countP fun x => 0 < x

/-! ## `lzfse_decode.c`: buffer API -/

/-- Memory: the byte found at each address. -/
abbrev memory : Type := Nat → Nat

/-- The record `lzfse_decoder_state`, declared in `lzfse_internal.h`: the six cursors that
`lzfse_decode_buffer_with_scratch` assigns (addresses), and the remaining bytes of the record
as `rest`. -/
structure lzfse_decoder_state where
  src : Nat
  src_begin : Nat
  src_end : Nat
  dst : Nat
  dst_begin : Nat
  dst_end : Nat
  rest : Nat → Nat

/-- The library call `memset(s, 0x00, sizeof(*s))`: every byte of the record becomes 0,
whatever the record held. -/
def memset_zero (_s : lzfse_decoder_state) : lzfse_decoder_state :=
  { src := 0, src_begin := 0, src_end := 0, dst := 0, dst_begin := 0, dst_end := 0,
    rest := fun _ => 0 }

/-- The parts of `lzfse_internal.h` and `lzfse_decode_base.c` that `lzfse_decode.c` uses and
that are not part of the sources at hand: the two status codes it compares with, and the block
decoder `lzfse_decode`, which from a decoder state and the memory gives a status, the final
state and the final memory. -/
structure lzfse_internal where
  LZFSE_STATUS_OK : Int
  LZFSE_STATUS_DST_FULL : Int
  lzfse_decode : lzfse_decoder_state → memory → Int × lzfse_decoder_state × memory

/-- The state on which `lzfse_decode_buffer_with_scratch` runs the block decoder
(lines 25-34): the zeroed record with the six cursors assigned. -/
def lzfse_decode_initial_state (dst_buffer dst_size src_buffer src_size : Nat)
    (scratch_buffer : lzfse_decoder_state) : lzfse_decoder_state :=
  let s := memset_zero scratch_buffer
  let s := { s with src := src_buffer }
  let s := { s with src_begin := src_buffer }
  let s := { s with src_end := s.src + src_size }
  let s := { s with dst := dst_buffer }
  let s := { s with dst_begin := dst_buffer }
  { s with dst_end := dst_buffer + dst_size }

/-- The function `lzfse_decode_buffer_with_scratch`: the value returned and the memory at the
return. The scratch buffer is given by the record it holds at the call. -/
def lzfse_decode_buffer_with_scratch (I : lzfse_internal)
    (dst_buffer dst_size src_buffer src_size : Nat) (scratch_buffer : lzfse_decoder_state)
    (m : memory) : Nat × memory :=
  let s := lzfse_decode_initial_state dst_buffer dst_size src_buffer src_size scratch_buffer
  let r := I.lzfse_decode s m
  let status := r.1
  if status = I.LZFSE_STATUS_DST_FULL then (dst_size, r.2.2)
  else if status ≠ I.LZFSE_STATUS_OK then (0, r.2.2)
  else (size_t ((r.2.1.dst : Int) - dst_buffer), r.2.2)

/-- The function `lzfse_decode_buffer`: the value returned and the memory at the return.
A scratch buffer is `none` for `NULL` and otherwise the record it holds at the call; `kmalloc`
is the outcome of the allocation the function requests when it is given no scratch buffer,
`none` for `NULL` and otherwise the contents of the fresh block. -/
def lzfse_decode_buffer (I : lzfse_internal) (kmalloc : Option lzfse_decoder_state)
    (dst_buffer dst_size src_buffer src_size : Nat)
    (scratch_buffer : Option lzfse_decoder_state) (m : memory) : Nat × memory :=
  let scratch_buffer : Option lzfse_decoder_state :=
    match scratch_buffer with
    | none => kmalloc
    | some g => some g
  match scratch_buffer with
  | none => (0, m)
  | some g => lzfse_decode_buffer_with_scratch I dst_buffer dst_size src_buffer src_size g m

/-- A toy instance of the missing block decoder, used to run the buffer API on a concrete
call: status codes 0 and -2, and a decoder that reports success after advancing `dst` by 3. -/
def lzfse_internal_example : lzfse_internal :=
  { LZFSE_STATUS_OK := 0
    LZFSE_STATUS_DST_FULL := -2
    lzfse_decode := fun s m => (0, { s with dst := s.dst + 3 }, m) }

/-! ## Auxiliary notions for the proofs -/

/-- How a pass of `fse_adjust_freqs` may change one frequency: it does not grow, a zero stays
zero and a nonzero frequency stays nonzero. -/
def freq_kept (f g : Nat) : Prop :=
  g ≤ f ∧ (f = 0 → g = 0) ∧ (1 ≤ f → 1 ≤ g)

/-- The number of states that can be taken from a histogram without emptying a symbol. -/
def freq_slack (freq : List Nat) : Int :=
  (freq.sum : Int) - (used_symbols freq : Int)

/-! ## Definitions for the decoder table entries -/

/-- The entry that the inner loop of `fse_init_decoder_table` (lines 72-81) builds for the
`j`-th state of symbol `i` of frequency `f`. -/
def fse_init_decoder_table_entry (nstates n_clz : Int) (i f j : Nat) : fse_decoder_entry :=
  let k : Int := clz f - n_clz
  let j0 : Int := shr (i32 (2 * nstates)) k - f
  if (j : Int) < j0 then
    { symbol := i % 256, k := i8 k, delta := i16 (shl (f + j) k - nstates) }
  else
    { symbol := i % 256, k := i8 (k - 1), delta := i16 (shl (j - j0) (k - 1)) }


/-- What an entry of the value decoder table shares with the decoder entry of the same
write: the slot, `delta`, and the state bits inside `total_bits`. -/
def value_entry_matches (v : Nat × fse_value_decoder_entry) (e : Nat × fse_decoder_entry) :
    Prop :=
  v.1 = e.1 ∧ v.2.delta = e.2.delta ∧ v.2.total_bits = u8 (e.2.k + v.2.value_bits)


/-- The next states of a decoder entry: the half-open interval `[delta, delta + 2^k)`. -/
def in_state_interval (e : fse_decoder_entry) (s : Int) : Prop :=
  e.delta ≤ s ∧ s < e.delta + 2 ^ e.k.toNat

/-! ## Definitions for the rounding pass of the normaliser -/

/-- The value of `highprec_step` in `fse_normalize_freq` (lines 179-182). -/
def fse_normalize_freq_highprec_step (t : List Nat) : Int :=
  let s_count : Int := fse_normalize_freq_s_count t
  if s_count = 0 then 0 else u32 (shl 1 31) / s_count

/-- The rounded frequencies of `fse_normalize_freq`: the value of the local `f` (lines 188-192)
for each symbol, before it is stored in `freq`. -/
def fse_normalize_freq_rounded (nstates : Int) (t : List Nat) : List Int :=
  t.map (fse_normalize_freq_round (clz nstates - 1) (fse_normalize_freq_highprec_step t))

/-! ## The block decoder, from the specification

`lzfse_decode` is called by `lzfse_decode.c` and defined in `lzfse_decode_base.c`, which is
not part of the sources at hand. What follows is its behaviour as sections 4.3, 4.4 and 7 of
the specification describe it, on a compressed stream that is already split into blocks: the
byte layout of the container is left open by the specification (section 9). The destination
is the list of the bytes written so far, and `cap` is the room between `dst_begin` and
`dst_end`. -/

/-- Modelled from the spec: the three outcomes of the missing `lzfse_decode`: done,
destination exhausted ("a first-class status distinct from failure"), and the single
decode-failure status. -/
inductive lzfse_status where
  | ok
  | dst_full
  | error
deriving DecidableEq

/-- Modelled from the spec: sequencing inside the missing `lzfse_decode`: the next operation
runs on the destination left by the previous one when that one is done; a destination-full or
failure outcome stops the decoding with the bytes committed so far. -/
def lzfse_then (r : lzfse_status × List Nat) (next : List Nat → lzfse_status × List Nat) :
    lzfse_status × List Nat :=
  match r.1 with
  | lzfse_status.ok => next r.2
  | _ => r

/-- Modelled from the spec: the literal copy of the missing `lzfse_decode` (a raw block, or
the `L` literal bytes of a triple): the bytes are written one at a time and the copy stops
with destination-full when the destination has no room for the next byte. -/
def lzfse_copy_literals (cap : Nat) : List Nat → List Nat → lzfse_status × List Nat
  | [], out => (lzfse_status.ok, out)
  | b :: bs, out =>
    if out.length < cap then lzfse_copy_literals cap bs (out ++ [b])
    else (lzfse_status.dst_full, out)

/-- Modelled from the spec: the match copy of the missing `lzfse_decode`: `M` bytes are
copied from the destination position `current - D` to the current position, advancing byte by
byte (so that a distance smaller than the length repeats the run), and the copy stops with
destination-full when the destination has no room for the next byte. -/
def lzfse_copy_match (cap D : Nat) : Nat → List Nat → lzfse_status × List Nat
  | 0, out => (lzfse_status.ok, out)
  | M + 1, out =>
    if out.length < cap then
      lzfse_copy_match cap D M (out ++ [out.getD (out.length - D) 0])
    else (lzfse_status.dst_full, out)

/-- Modelled from the spec: the execution of one `(L, M, D)` operation by the missing
`lzfse_decode`, the `L` literal bytes being given: the literals are copied, then the match;
a match whose distance is 0 or reaches before the start of the destination is a failure. -/
def lzfse_execute_lmd (cap : Nat) (literals : List Nat) (M D : Nat) (out : List Nat) :
    lzfse_status × List Nat :=
  lzfse_then (lzfse_copy_literals cap literals out) fun out =>
    if M = 0 then (lzfse_status.ok, out)
    else if D = 0 ∨ out.length < D then (lzfse_status.error, out)
    else lzfse_copy_match cap D M out

/-- Modelled from the spec: the triples `(L, M, D)` of an entropy-coded block in the missing
`lzfse_decode`: each takes its `L` literal bytes from the block's literal stream; a literal
stream that is too short is a failure. -/
def lzfse_decode_triples (cap : Nat) :
    List (Nat × Nat × Nat) → List Nat → List Nat → lzfse_status × List Nat
  | [], _, out => (lzfse_status.ok, out)
  | (L, M, D) :: triples, literals, out =>
    if literals.length < L then (lzfse_status.error, out)
    else
      lzfse_then (lzfse_execute_lmd cap (literals.take L) M D out) fun out =>
        lzfse_decode_triples cap triples (literals.drop L) out

/-- Modelled from the spec: the opcodes of a fallback-format block in the missing
`lzfse_decode` (section 4.4), up to its end-of-stream opcode: each gives a literal run, a
match, or both, and the distance 0 stands for the distance of the previous match `d_prev`. -/
def lzfse_decode_fallback (cap : Nat) :
    List (List Nat × Nat × Nat) → Nat → List Nat → lzfse_status × List Nat
  | [], _, out => (lzfse_status.ok, out)
  | (literals, M, D) :: ops, d_prev, out =>
    lzfse_then (lzfse_execute_lmd cap literals M (if D = 0 then d_prev else D) out) fun out =>
      lzfse_decode_fallback cap ops (if D = 0 then d_prev else D) out

/-- Modelled from the spec: the blocks of the compressed container read by the missing
`lzfse_decode`, by their leading tag: a raw block with its bytes, an entropy-coded block (of
either variant) with its decoded literal stream and triples, a fallback-format block with its
opcodes, the end-of-stream marker, and `invalid` for what the decoder rejects (an unknown
tag, a frequency table that overflows the state count, a truncated block). -/
inductive lzfse_block where
  | raw (bytes : List Nat)
  | entropy_coded (literals : List Nat) (triples : List (Nat × Nat × Nat))
  | fallback (ops : List (List Nat × Nat × Nat))
  | end_of_stream
  | invalid

/-- Modelled from the spec: one block processed by the missing `lzfse_decode`, to completion
or until the destination is exhausted. -/
def lzfse_decode_block (cap : Nat) (b : lzfse_block) (out : List Nat) :
    lzfse_status × List Nat :=
  match b with
  | lzfse_block.raw bytes => lzfse_copy_literals cap bytes out
  | lzfse_block.entropy_coded literals triples => lzfse_decode_triples cap triples literals out
  | lzfse_block.fallback ops => lzfse_decode_fallback cap ops 0 out
  | lzfse_block.end_of_stream => (lzfse_status.ok, out)
  | lzfse_block.invalid => (lzfse_status.error, out)

/-- Modelled from the spec: the state machine of the missing `lzfse_decode` over the blocks
of the stream: the end-of-stream marker ends the decoding successfully whatever follows it,
and a stream that ends without the marker is truncated, a failure. -/
def lzfse_decode_blocks (cap : Nat) : List lzfse_block → List Nat → lzfse_status × List Nat
  | [], out => (lzfse_status.error, out)
  | lzfse_block.end_of_stream :: _, out => (lzfse_status.ok, out)
  | b :: blocks, out =>
    lzfse_then (lzfse_decode_block cap b out) fun out => lzfse_decode_blocks cap blocks out

/-- The bytes that the memory holds at the addresses `a, a + 1, ..., a + n - 1`. -/
def memory_bytes (m : memory) (a n : Nat) : List Nat :=
  (List.range n).map fun k => m (a + k)

/-- Modelled from the spec: the missing `lzfse_decode` on the decoder state of
`lzfse_decode.c`: the source bytes between `src` and `src_end` are split into blocks by
`container` (the layout that the specification leaves open), the blocks are decoded into the
room between `dst` and `dst_end`, the bytes produced are stored from `dst` on and `dst` is
advanced past them; the outcome is reported by the status codes `OK`, `DST_FULL` and `ERROR`
of `lzfse_internal.h`. -/
def lzfse_decode_from_spec (container : List Nat → List lzfse_block) (OK DST_FULL ERROR : Int)
    (s : lzfse_decoder_state) (m : memory) : Int × lzfse_decoder_state × memory :=
  let r := lzfse_decode_blocks (s.dst_end - s.dst)
    (container (memory_bytes m s.src (s.src_end - s.src))) []
  let status : Int :=
    match r.1 with
    | lzfse_status.ok => OK
    | lzfse_status.dst_full => DST_FULL
    | lzfse_status.error => ERROR
  (status, { s with dst := s.dst + r.2.length },
    fun a => if s.dst ≤ a ∧ a < s.dst + r.2.length then r.2.getD (a - s.dst) 0 else m a)

/-- Modelled from the spec: the parts of `lzfse_internal.h` and `lzfse_decode_base.c` that
`lzfse_decode.c` uses, with the block decoder of the specification. -/
def lzfse_internal_from_spec (container : List Nat → List lzfse_block)
    (OK DST_FULL ERROR : Int) : lzfse_internal :=
  { LZFSE_STATUS_OK := OK
    LZFSE_STATUS_DST_FULL := DST_FULL
    lzfse_decode := lzfse_decode_from_spec container OK DST_FULL ERROR }

/-- How the outcome `r'` of a decoding step with room `c'` follows from the outcome `r` of
the same step with more room: the same outcome when `r` fits in `c'`, and otherwise
destination-full with the first `c'` bytes of `r`. -/
def lzfse_truncated (c' : Nat) (r r' : lzfse_status × List Nat) : Prop :=
  r' = if r.2.length ≤ c' then r else (lzfse_status.dst_full, r.2.take c')
end Lzfse

/-! # `xattr.c`: extended attributes

The functions of `xattr.c` use constants, record layouts and B-tree operations that are
declared in headers and files outside the sources at hand. The constants are the fields of
`apfs_headers`, the on-disk record a query points to is given by the values of its fields, and
the outcomes of the B-tree operations and of the allocations of one call are the fields of
`apfs_collaborators`. -/

namespace Apfs

/-- The constants that `xattr.c` takes from headers outside the sources at hand: the sizes of
three on-disk records, the flag `APFS_XATTR_DATA_STREAM`, the size limit
`APFS_XATTR_MAX_EMBEDDED_SIZE`, the flags `XATTR_CREATE` and `XATTR_REPLACE`, and the error
numbers. -/
structure apfs_headers where
  sizeof_apfs_xattr_key : Nat
  sizeof_apfs_xattr_val : Nat
  sizeof_apfs_xattr_dstream : Nat
  APFS_XATTR_DATA_STREAM : Nat
  APFS_XATTR_MAX_EMBEDDED_SIZE : Nat
  XATTR_CREATE : Int
  XATTR_REPLACE : Int
  EFSCORRUPTED : Int
  ERANGE : Int
  ENOMEM : Int
  ENODATA : Int
  EEXIST : Int
  EOPNOTSUPP : Int

/-- What `apfs_xattr_from_query` reads through a `struct apfs_query`: the `int` fields
`key_len` and `len`, and the on-disk key and value found at `key_off` and `off`, by the
values of their fields (`name_len`, `flags` and `xdata_len` after `le16_to_cpu`, `name` and
`xdata` as the bytes at each index). -/
structure apfs_query where
  key_len : Int
  len : Int
  name_len : Nat
  name : Nat → Nat
  flags : Nat
  xdata_len : Nat
  xdata : Nat → Nat

/-- The record `struct apfs_xattr`: the two pointers are given by the bytes they point to. -/
structure apfs_xattr where
  name : Nat → Nat
  name_len : Int
  xdata : Nat → Nat
  xdata_len : Int
  has_dstream : Bool

/-- The function `apfs_xattr_from_query(query, xattr)` (lines 22-57): the value returned and
the record `*xattr` at the return, `xattr` being the record before the call. The differences
are converted to `int`; `has_dstream` is assigned before the two checks that read it. -/
def apfs_xattr_from_query (H : apfs_headers) (query : apfs_query) (xattr : apfs_xattr) :
    Int × apfs_xattr :=
  let datalen : Int := Lzfse.i32 (query.len - H.sizeof_apfs_xattr_val)
  let namelen : Int := Lzfse.i32 (query.key_len - H.sizeof_apfs_xattr_key)
  if namelen < 1 ∨ datalen < 0 then (-H.EFSCORRUPTED, xattr)
  else if namelen ≠ query.name_len then (-H.EFSCORRUPTED, xattr)
  else if query.name (namelen - 1).toNat ≠ 0 then (-H.EFSCORRUPTED, xattr)
  else
    let xattr : apfs_xattr :=
      { xattr with has_dstream := decide (query.flags &&& H.APFS_XATTR_DATA_STREAM ≠ 0) }
    if xattr.has_dstream = true ∧ Lzfse.size_t datalen ≠ H.sizeof_apfs_xattr_dstream then
      (-H.EFSCORRUPTED, xattr)
    else if xattr.has_dstream = false ∧ datalen ≠ query.xdata_len then
      (-H.EFSCORRUPTED, xattr)
    else
      (0, { xattr with
            name := query.name, name_len := namelen - 1,
            xdata := query.xdata, xdata_len := datalen })

/-- The library call `memcpy(dst, src, n)` on two regions that do not overlap: the first `n`
bytes of `dst` become those of `src`. -/
def memcpy (dst src : Nat → Nat) (n : Nat) : Nat → Nat :=
  fun k => if k < n then src k else dst k

/-- The function `apfs_xattr_inline_read(parent, xattr, buffer, size, only_whole)`
(lines 183-200): the value returned and the buffer at the return, `none` being `NULL`. The
comparisons `length > size` convert `length` to `size_t`, the assignment `length = size`
converts `size` to `int`, and `memcpy` takes `length` as a `size_t`. The inode `parent` is
not used. -/
def apfs_xattr_inline_read (H : apfs_headers) (xattr : apfs_xattr)
    (buffer : Option (Nat → Nat)) (size : Nat) (only_whole : Bool) :
    Int × Option (Nat → Nat) :=
  let length : Int := xattr.xdata_len
  match buffer with
  | none => (length, none)
  | some buf =>
    if only_whole = true then
      if Lzfse.size_t length > size then (-H.ERANGE, some buf)
      else (length, some (memcpy buf xattr.xdata (Lzfse.size_t length)))
    else
      let length : Int := if Lzfse.size_t length > size then Lzfse.i32 size else length
      (length, some (memcpy buf xattr.xdata (Lzfse.size_t length)))

/-- The B-tree operations that `apfs_xattr_set` performs, in a trace of one call: the lookup
`apfs_btree_query`, and the three modifications with the lengths they are given. -/
inductive apfs_btree_op where
  | query
  | insert (key_len val_len : Int)
  | replace (key_len val_len : Int)
  | remove
deriving DecidableEq

/-- The collaborators of one call of `apfs_xattr_set`, defined outside the sources at hand:
whether `apfs_alloc_query` and the two calls of `kmalloc` give memory, the value returned by
`apfs_btree_query` and the record the query then points to, the values returned by
`apfs_btree_insert`, `apfs_btree_replace` and `apfs_btree_remove`, and the contents of the
uninitialised local record of `apfs_delete_xattr`. Each is called at most once in a call. -/
structure apfs_collaborators where
  apfs_alloc_query : Bool
  apfs_btree_query : Int
  query : apfs_query
  kmalloc_key : Bool
  kmalloc_val : Bool
  apfs_btree_insert : Int
  apfs_btree_replace : Int
  apfs_btree_remove : Int
  xattr : apfs_xattr

/-- The function `apfs_delete_xattr(query)` (lines 303-316): the value returned and the
modifications performed. -/
def apfs_delete_xattr (H : apfs_headers) (E : apfs_collaborators) (query : apfs_query) :
    Int × List apfs_btree_op :=
  let r := apfs_xattr_from_query H query E.xattr
  let err : Int := r.1
  if err ≠ 0 then (err, [])
  else if r.2.has_dstream = true then (-H.EOPNOTSUPP, [])
  else (E.apfs_btree_remove, [apfs_btree_op.remove])

/-- The value returned by `apfs_build_xattr_key(name, ino, key_p)` (lines 326-343), `name`
being the bytes of the string before its terminator: the length of the key, or `-ENOMEM`. -/
def apfs_build_xattr_key (H : apfs_headers) (E : apfs_collaborators) (name : List Nat) : Int :=
  let namelen : Int := Lzfse.u16 ((name.length : Int) + 1)
  let key_len : Int := Lzfse.i32 (H.sizeof_apfs_xattr_key + namelen)
  if E.kmalloc_key = false then -H.ENOMEM else key_len

/-- The value returned by `apfs_build_xattr_val(value, size, val_p)` (lines 353-369): the
length of the value, or `-ENOMEM`. -/
def apfs_build_xattr_val (H : apfs_headers) (E : apfs_collaborators) (size : Nat) : Int :=
  let val_len : Int := Lzfse.i32 (H.sizeof_apfs_xattr_val + size)
  if E.kmalloc_val = false then -H.ENOMEM else val_len

/-- The function `apfs_xattr_set(inode, name, value, size, flags)` (lines 381-444): the value
returned and the B-tree operations performed, in order. `value` is `none` for `NULL`. -/
def apfs_xattr_set (H : apfs_headers) (E : apfs_collaborators) (name : List Nat)
    (value : Option (Nat → Nat)) (size : Nat) (flags : Int) : Int × List apfs_btree_op :=
  if size > H.APFS_XATTR_MAX_EMBEDDED_SIZE then (-H.ERANGE, [])
  else if E.apfs_alloc_query = false then (-H.ENOMEM, [])
  else
    let ret : Int := E.apfs_btree_query
    let build : Int × List apfs_btree_op :=
      let key_len : Int := apfs_build_xattr_key H E name
      if key_len < 0 then (key_len, [apfs_btree_op.query])
      else
        let val_len : Int := apfs_build_xattr_val H E size
        if val_len < 0 then (val_len, [apfs_btree_op.query])
        else if ret ≠ 0 then
          (E.apfs_btree_insert, [apfs_btree_op.query, apfs_btree_op.insert key_len val_len])
        else
          (E.apfs_btree_replace, [apfs_btree_op.query, apfs_btree_op.replace key_len val_len])
    if ret ≠ 0 then
      if ret ≠ -H.ENODATA then (ret, [apfs_btree_op.query])
      else if Int.land flags H.XATTR_REPLACE ≠ 0 then (ret, [apfs_btree_op.query])
      else build
    else if Int.land flags H.XATTR_CREATE ≠ 0 then (-H.EEXIST, [apfs_btree_op.query])
    else if value.isNone = true then
      let r := apfs_delete_xattr H E E.query
      (r.1, apfs_btree_op.query :: r.2)
    else build

/-- An instance of the constants: the record sizes 10, 4 and 48, the flag bit 1, the limit
3804, `XATTR_CREATE = 1`, `XATTR_REPLACE = 2` and the error numbers of Linux. -/
def apfs_headers_example : apfs_headers :=
  { sizeof_apfs_xattr_key := 10
    sizeof_apfs_xattr_val := 4
    sizeof_apfs_xattr_dstream := 48
    APFS_XATTR_DATA_STREAM := 1
    APFS_XATTR_MAX_EMBEDDED_SIZE := 3804
    XATTR_CREATE := 1
    XATTR_REPLACE := 2
    EFSCORRUPTED := 117
    ERANGE := 34
    ENOMEM := 12
    ENODATA := 61
    EEXIST := 17
    EOPNOTSUPP := 95 }

/-- An on-disk record with the name `"ab"` and the three value bytes `7, 8, 9` stored
inline. -/
def apfs_query_example : apfs_query :=
  { key_len := 13
    len := 7
    name_len := 3
    name := fun k => if k = 0 then 97 else if k = 1 then 98 else 0
    flags := 2
    xdata_len := 3
    xdata := fun k => if k = 0 then 7 else if k = 1 then 8 else if k = 2 then 9 else 0 }

/-- An on-disk record with the name `"ab"` whose value is kept in a data stream. -/
def apfs_query_dstream_example : apfs_query :=
  { key_len := 13
    len := 52
    name_len := 3
    name := fun k => if k = 0 then 97 else if k = 1 then 98 else 0
    flags := 1
    xdata_len := 0
    xdata := fun _ => 0 }

/-- A record `struct apfs_xattr` with every field zero. -/
def apfs_xattr_zero : apfs_xattr :=
  { name := fun _ => 0, name_len := 0, xdata := fun _ => 0, xdata_len := 0,
    has_dstream := false }

/-- Collaborators of a call in which every allocation succeeds, the lookup finds the record
`apfs_query_example`, and every B-tree operation returns 0. -/
def apfs_collaborators_example : apfs_collaborators :=
  { apfs_alloc_query := true
    apfs_btree_query := 0
    query := apfs_query_example
    kmalloc_key := true
    kmalloc_val := true
    apfs_btree_insert := 0
    apfs_btree_replace := 0
    apfs_btree_remove := 0
    xattr := apfs_xattr_zero }

end Apfs

/-! # Theorems -/

namespace Lzfse


/-! ## Machine integer facts -/

theorem i32_of_range {x : Int} (h0 : -2147483648 ≤ x) (h1 : x < 2147483648) : i32 x = x := by
  unfold i32; omega

/-! ## Decoder table -/

theorem slots_written_symbol (nstates n_clz : Int) (i f t : Nat) :
    slots_written (fse_init_decoder_table_symbol nstates n_clz i f t) = List.range' t f := by
  simp [slots_written, fse_init_decoder_table_symbol, List.range'_eq_map_range, Function.comp_def]

theorem symbol_of_symbol_writes (nstates n_clz : Int) (i f t : Nat) :
    ∀ w ∈ fse_init_decoder_table_symbol nstates n_clz i f t, w.2.symbol = i % 256 := by
  intro w hw
  simp only [fse_init_decoder_table_symbol, List.mem_map] at hw
  obtain ⟨j, -, rfl⟩ := hw
  dsimp only
  split <;> rfl

theorem slots_of_symbol_symbol_self (nstates n_clz : Int) (i f t : Nat) :
    slots_of_symbol (fse_init_decoder_table_symbol nstates n_clz i f t) (i % 256)
      = List.range' t f := by
  have h : (fse_init_decoder_table_symbol nstates n_clz i f t).filter
      (fun w => w.2.symbol = i % 256) = fse_init_decoder_table_symbol nstates n_clz i f t := by
    rw [List.filter_eq_self]
    intro w hw
    simpa using symbol_of_symbol_writes nstates n_clz i f t w hw
  unfold slots_of_symbol
  rw [h]
  exact slots_written_symbol nstates n_clz i f t

theorem slots_of_symbol_symbol_other (nstates n_clz : Int) (i f t c : Nat) (hc : c ≠ i % 256) :
    slots_of_symbol (fse_init_decoder_table_symbol nstates n_clz i f t) c = [] := by
  have h : (fse_init_decoder_table_symbol nstates n_clz i f t).filter
      (fun w => w.2.symbol = c) = [] := by
    rw [List.filter_eq_nil_iff]
    intro w hw
    have := symbol_of_symbol_writes nstates n_clz i f t w hw
    simp [this]; omega
  unfold slots_of_symbol
  rw [h]; rfl

theorem slots_of_symbol_append (a b : List (Nat × fse_decoder_entry)) (c : Nat) :
    slots_of_symbol (a ++ b) c = slots_of_symbol a c ++ slots_of_symbol b c := by
  simp [slots_of_symbol]

theorem slots_written_append {α : Type} (a b : List (Nat × α)) :
    slots_written (a ++ b) = slots_written a ++ slots_written b := by
  simp [slots_written]

/-- The status returned by the table loop: failure exactly when the running sum passes
`nstates`, provided the sum stays in the range of `int`. -/
theorem decoder_loop_status (nstates : Int) (n_clz : Int) (hN : nstates + 65535 < 2147483648) :
    ∀ (freq : List Nat) (i : Nat) (s : Int) (t : Nat), (∀ f ∈ freq, f < 65536) →
      0 ≤ s → s ≤ nstates →
      (fse_init_decoder_table_loop nstates n_clz i s t freq).1
        = if nstates < s + (freq.sum : Nat) then -1 else 0 := by
  intro freq
  induction freq with
  | nil =>
    intro i s t _ h0 h1
    simp [fse_init_decoder_table_loop]
    omega
  | cons f freq ih =>
    intro i s t hf h0 h1
    have hf0 : f < 65536 := hf f (List.mem_cons_self _ _)
    have hf1 : ∀ g ∈ freq, g < 65536 := fun g hg => hf g (List.mem_cons_of_mem _ hg)
    unfold fse_init_decoder_table_loop
    by_cases hz : f = 0
    · subst hz
      simp only [if_true]
      rw [ih (i + 1) s t hf1 h0 h1]
      simp
    · simp only [hz, if_false]
      have hw : i32 (s + (f : Int)) = s + f := i32_of_range (by omega) (by omega)
      rw [hw]
      by_cases hgt : s + (f : Int) > nstates
      · simp only [hgt, if_true]
        rw [if_pos]
        simp only [List.sum_cons, Nat.cast_add]
        omega
      · simp only [hgt, if_false]
        rw [ih (i + 1) (s + f) (t + f) hf1 (by omega) (by omega)]
        simp only [List.sum_cons, Nat.cast_add, add_assoc]

/-- On a histogram whose sum fits, the slots written are consecutive from the start. -/
theorem decoder_loop_slots (nstates : Int) (n_clz : Int) (hN : nstates < 2147483648) :
    ∀ (freq : List Nat) (i : Nat) (s : Int) (t : Nat),
      0 ≤ s → s + (freq.sum : Nat) ≤ nstates →
      (fse_init_decoder_table_loop nstates n_clz i s t freq).1 = 0 ∧
      slots_written (fse_init_decoder_table_loop nstates n_clz i s t freq).2
        = List.range' t freq.sum := by
  intro freq
  induction freq with
  | nil =>
    intro i s t _ _
    simp [fse_init_decoder_table_loop, slots_written]
  | cons f freq ih =>
    intro i s t h0 h1
    simp only [List.sum_cons, Nat.cast_add] at h1
    unfold fse_init_decoder_table_loop
    by_cases hz : f = 0
    · subst hz
      simp only [if_true, List.sum_cons, zero_add]
      exact ih (i + 1) s t h0 (by omega)
    · simp only [hz, if_false]
      have hw : i32 (s + (f : Int)) = s + f := i32_of_range (by omega) (by omega)
      rw [hw]
      have hgt : ¬ (s + (f : Int) > nstates) := by omega
      simp only [hgt, if_false]
      obtain ⟨ih1, ih2⟩ := ih (i + 1) (s + f) (t + f) (by omega) (by omega)
      refine ⟨ih1, ?_⟩
      rw [slots_written_append, slots_written_symbol, ih2, List.sum_cons,
        List.range'_append_1, add_comm]

/-- On a histogram whose sum fits and whose symbol indices stay below 256, the slots carrying
symbol `c` are the run of symbol `c`. -/
theorem decoder_loop_symbol_slots (nstates : Int) (n_clz : Int) (hN : nstates < 2147483648) :
    ∀ (freq : List Nat) (i : Nat) (s : Int) (t : Nat) (c : Nat),
      0 ≤ s → s + (freq.sum : Nat) ≤ nstates → i + freq.length ≤ 256 →
      slots_of_symbol (fse_init_decoder_table_loop nstates n_clz i s t freq).2 c
        = if c < i then [] else List.range' (t + (freq.take (c - i)).sum) (freq.getD (c - i) 0) := by
  intro freq
  induction freq with
  | nil =>
    intro i s t c _ _ _
    simp [fse_init_decoder_table_loop, slots_of_symbol]
  | cons f freq ih =>
    intro i s t c h0 h1 hlen
    simp only [List.sum_cons, Nat.cast_add] at h1
    simp only [List.length_cons] at hlen
    unfold fse_init_decoder_table_loop
    by_cases hz : f = 0
    · subst hz
      simp only [if_true]
      rw [ih (i + 1) s t c h0 (by omega) (by omega)]
      by_cases hci : c < i
      · simp [hci, show c < i + 1 by omega]
      · by_cases hce : c = i
        · subst hce; simp
        · obtain ⟨d, hd⟩ : ∃ d, c - i = d + 1 := ⟨c - i - 1, by omega⟩
          have hd2 : c - (i + 1) = d := by omega
          simp [hci, show ¬ c < i + 1 by omega, hd, hd2]
    · simp only [hz, if_false]
      have hw : i32 (s + (f : Int)) = s + f := i32_of_range (by omega) (by omega)
      rw [hw]
      have hgt : ¬ (s + (f : Int) > nstates) := by omega
      simp only [hgt, if_false]
      rw [slots_of_symbol_append, ih (i + 1) (s + f) (t + f) c (by omega) (by omega) (by omega)]
      have hi : i % 256 = i := Nat.mod_eq_of_lt (by omega)
      by_cases hci : c < i
      · rw [slots_of_symbol_symbol_other _ _ _ _ _ _ (by omega)]
        simp [hci, show c < i + 1 by omega]
      · by_cases hce : c = i
        · subst hce
          have := slots_of_symbol_symbol_self nstates n_clz c f t
          rw [hi] at this
          rw [this]
          simp
        · rw [slots_of_symbol_symbol_other _ _ _ _ _ _ (by omega)]
          obtain ⟨d, hd⟩ : ∃ d, c - i = d + 1 := ⟨c - i - 1, by omega⟩
          have hd2 : c - (i + 1) = d := by omega
          simp [hci, show ¬ c < i + 1 by omega, hd, hd2, add_assoc]


/-! ## Leading zeros -/

theorem clz_bits_antitone (bits : Nat) : ∀ {x y : Nat}, x ≤ y → clz_bits bits y ≤ clz_bits bits x := by
  induction bits with
  | zero => intro x y _; simp [clz_bits]
  | succ b ih =>
    intro x y hxy
    unfold clz_bits
    by_cases hy : y < 2 ^ b
    · have hx : x < 2 ^ b := lt_of_le_of_lt hxy hy
      simp only [hy, hx, if_true]
      have := ih hxy
      omega
    · simp [hy]

theorem clz_bits_le (bits x : Nat) : clz_bits bits x ≤ bits := by
  induction bits with
  | zero => simp [clz_bits]
  | succ b ih =>
    unfold clz_bits
    split <;> omega

theorem clz_bits_of_log (bits : Nat) : ∀ (x m : Nat), 2 ^ m ≤ x → x < 2 ^ (m + 1) → m < bits →
    clz_bits bits x = bits - 1 - m := by
  induction bits with
  | zero => intro x m _ _ h; omega
  | succ b ih =>
    intro x m h1 h2 hm
    unfold clz_bits
    by_cases hx : x < 2 ^ b
    · have hmb : m < b := by
        by_contra hc
        have : 2 ^ b ≤ 2 ^ m := Nat.pow_le_pow_right (by decide) (by omega)
        omega
      simp only [hx, if_true]
      rw [ih x m h1 h2 hmb]
      omega
    · have hmb : m = b := by
        by_contra hc
        have : 2 ^ (m + 1) ≤ 2 ^ b := Nat.pow_le_pow_right (by decide) (by omega)
        omega
      simp only [hx, if_false]
      omega

theorem clz_of_nat (f : Nat) (hf : f < 4294967296) : clz (f : Int) = (clz32 f : Int) := by
  unfold clz u32
  have : ((f : Int) % 4294967296).toNat = f := by omega
  rw [this]

theorem clz32_antitone {x y : Nat} (h : x ≤ y) : clz32 y ≤ clz32 x :=
  clz_bits_antitone 32 h

theorem clz32_le_31 {f : Nat} (hf : 1 ≤ f) : clz32 f ≤ 31 := by
  have := clz32_antitone hf
  have h1 : clz32 1 = 31 := by decide
  omega

theorem clz32_ge_16 {f : Nat} (hf : f < 65536) : 16 ≤ clz32 f := by
  have := clz32_antitone (show f ≤ 65535 by omega)
  have h1 : clz32 65535 = 16 := by decide
  omega

theorem clz32_le_1 {x : Nat} (hx : 1073741824 ≤ x) : clz32 x ≤ 1 := by
  have := clz32_antitone hx
  have h1 : clz32 1073741824 = 1 := by decide
  omega

theorem clz32_of_log {x m : Nat} (h1 : 2 ^ m ≤ x) (h2 : x < 2 ^ (m + 1)) (hm : m < 32) :
    clz32 x = 31 - m :=
  clz_bits_of_log 32 x m h1 h2 hm

theorem clz32_two_pow {n : Nat} (hn : n < 32) : clz32 (2 ^ n) = 31 - n :=
  clz32_of_log le_rfl (Nat.pow_lt_pow_right (by decide) (by omega)) hn

/-- The shift `k = clz(f) - clz(nstates)` of a symbol of a valid histogram: it lies in
`0..31`, and it is at least 1 whenever some `j < f` is not below the threshold `j0`. -/
theorem decoder_shift_range (nstates : Int) (f : Nat) (hN : nstates < 2147483648)
    (hf1 : 1 ≤ f) (hf : f < 65536) (hfN : (f : Int) ≤ nstates) :
    0 ≤ clz f - clz nstates ∧ clz f - clz nstates ≤ 31 ∧
    ∀ j : Nat, j < f →
      ¬ ((j : Int) < shr (i32 (2 * nstates)) (clz f - clz nstates) - f) →
      1 ≤ clz f - clz nstates := by
  obtain ⟨N, rfl⟩ : ∃ N : Nat, nstates = N := ⟨nstates.toNat, by omega⟩
  have hN' : N < 2147483648 := by exact_mod_cast hN
  have hfN' : f ≤ N := by exact_mod_cast hfN
  rw [clz_of_nat f (by omega), clz_of_nat N (by omega)]
  have hmono := clz32_antitone hfN'
  have h31 := clz32_le_31 hf1
  refine ⟨by omega, by omega, ?_⟩
  intro j hj hnot
  by_contra hk
  have hk0 : (clz32 f : Int) - clz32 N = 0 := by omega
  rw [hk0] at hnot
  have hsmall : N < 1073741824 := by
    by_contra hc
    have h16 := clz32_ge_16 hf
    have h1 := clz32_le_1 (show 1073741824 ≤ N by omega)
    omega
  have h2 : i32 (2 * (N : Int)) = 2 * N := i32_of_range (by omega) (by omega)
  rw [h2] at hnot
  simp only [shr] at hnot
  norm_num at hnot
  omega


/-! ## Value decoder table against decoder table -/

theorem value_symbol_extends (nstates : Int) (symbol_vbits : Nat → Nat) (symbol_vbase : Nat → Int)
    (i f t : Nat) (hN : nstates < 2147483648) (hf1 : 1 ≤ f) (hf : f < 65536)
    (hfN : (f : Int) ≤ nstates) :
    ∀ p e, (p, e) ∈ fse_init_decoder_table_symbol nstates (clz nstates) i f t →
      ∃ v, (p, v) ∈ fse_init_value_decoder_table_symbol nstates (clz nstates) symbol_vbits
          symbol_vbase i f t ∧
        e.symbol = i % 256 ∧
        v.delta = e.delta ∧ v.value_bits = symbol_vbits i ∧
        v.vbase = symbol_vbase i ∧
        v.total_bits = u8 (e.k + symbol_vbits i) ∧ 0 ≤ e.k ∧ e.k ≤ 31 := by
  intro p e hpe
  obtain ⟨hk0, hk31, hk1⟩ := decoder_shift_range nstates f hN hf1 hf hfN
  simp only [fse_init_decoder_table_symbol, List.mem_map, List.mem_range] at hpe
  obtain ⟨j, hj, hje⟩ := hpe
  by_cases hlt : (j : Int) < shr (i32 (2 * nstates)) (clz f - clz nstates) - f
  · simp only [hlt, if_true, Prod.mk.injEq] at hje
    obtain ⟨rfl, rfl⟩ := hje
    refine ⟨{ value_bits := symbol_vbits i, vbase := symbol_vbase i,
              total_bits := u8 (u8 (clz f - clz nstates) + symbol_vbits i),
              delta := i16 (shl (f + j) (clz f - clz nstates) - nstates) }, ?_, ?_⟩
    · simp only [fse_init_value_decoder_table_symbol, List.mem_map, List.mem_range]
      exact ⟨j, hj, by simp only [hlt, if_true]⟩
    · simp only [true_and]
      refine ⟨?_, ?_, ?_⟩
      · unfold u8 i8; omega
      · unfold i8; omega
      · unfold i8; omega
  · have hk := hk1 j hj hlt
    simp only [hlt, if_false, Prod.mk.injEq] at hje
    obtain ⟨rfl, rfl⟩ := hje
    refine ⟨{ value_bits := symbol_vbits i, vbase := symbol_vbase i,
              total_bits := u8 (u8 (clz f - clz nstates - 1) + symbol_vbits i),
              delta := i16 (shl (j - (shr (i32 (2 * nstates)) (clz f - clz nstates) - f))
                (clz f - clz nstates - 1)) }, ?_, ?_⟩
    · simp only [fse_init_value_decoder_table_symbol, List.mem_map, List.mem_range]
      exact ⟨j, hj, by simp only [hlt, if_false]⟩
    · simp only [true_and]
      refine ⟨?_, ?_, ?_⟩
      · unfold u8 i8; omega
      · unfold i8; omega
      · unfold i8; omega

theorem value_loop_extends (nstates : Int) (symbol_vbits : Nat → Nat) (symbol_vbase : Nat → Int)
    (hN : nstates < 2147483648) :
    ∀ (freq : List Nat) (i : Nat) (s : Int) (t : Nat), (∀ f ∈ freq, f < 65536) →
      0 ≤ s → s + (freq.sum : Nat) ≤ nstates →
      ∀ p e, (p, e) ∈ (fse_init_decoder_table_loop nstates (clz nstates) i s t freq).2 →
        ∃ c v, i ≤ c ∧ c < i + freq.length ∧
          (p, v) ∈ fse_init_value_decoder_table_loop nstates (clz nstates) symbol_vbits
            symbol_vbase i t freq ∧
          e.symbol = c % 256 ∧
          v.delta = e.delta ∧ v.value_bits = symbol_vbits c ∧
          v.vbase = symbol_vbase c ∧
          v.total_bits = u8 (e.k + symbol_vbits c) ∧ 0 ≤ e.k ∧ e.k ≤ 31 := by
  intro freq
  induction freq with
  | nil =>
    intro i s t _ _ _ p e hpe
    simp [fse_init_decoder_table_loop] at hpe
  | cons f freq ih =>
    intro i s t hf h0 h1 p e hpe
    have hf0 : f < 65536 := hf f (List.mem_cons_self _ _)
    have hf1 : ∀ g ∈ freq, g < 65536 := fun g hg => hf g (List.mem_cons_of_mem _ hg)
    simp only [List.sum_cons, Nat.cast_add] at h1
    unfold fse_init_decoder_table_loop at hpe
    unfold fse_init_value_decoder_table_loop
    by_cases hz : f = 0
    · subst hz
      simp only [if_true] at hpe ⊢
      obtain ⟨c, v, hc1, hc2, hrest⟩ := ih (i + 1) s t hf1 h0 (by omega) p e hpe
      exact ⟨c, v, by omega, by simp only [List.length_cons]; omega, hrest⟩
    · simp only [hz, if_false] at hpe ⊢
      have hw : i32 (s + (f : Int)) = s + f := i32_of_range (by omega) (by omega)
      rw [hw] at hpe
      have hgt : ¬ (s + (f : Int) > nstates) := by omega
      simp only [hgt, if_false, List.mem_append] at hpe
      rcases hpe with hpe | hpe
      · obtain ⟨v, hv, hrest⟩ := value_symbol_extends nstates symbol_vbits symbol_vbase i f t hN
          (by omega) hf0 (by omega) p e hpe
        exact ⟨i, v, le_rfl, by simp only [List.length_cons]; omega,
          List.mem_append_left _ hv, hrest⟩
      · obtain ⟨c, v, hc1, hc2, hv, hrest⟩ := ih (i + 1) (s + f) (t + f) hf1 (by omega)
          (by omega) p e hpe
        exact ⟨c, v, by omega, by simp only [List.length_cons]; omega,
          List.mem_append_right _ hv, hrest⟩

/-! ## Encoder table -/

theorem encoder_loop_at (nstates n_clz : Int) :
    ∀ (freq : List Nat) (i : Nat) (offset : Int) (t : Nat → fse_encoder_entry) (c : Nat),
      fse_init_encoder_table_loop nstates n_clz i offset freq t c
        = if c < i ∨ freq.getD (c - i) 0 = 0 then t c
          else fse_init_encoder_table_entry nstates n_clz
            (fse_init_encoder_table_offset offset freq (c - i)) (freq.getD (c - i) 0) := by
  intro freq
  induction freq with
  | nil =>
    intro i offset t c
    simp [fse_init_encoder_table_loop]
  | cons f freq ih =>
    intro i offset t c
    unfold fse_init_encoder_table_loop
    by_cases hz : f = 0
    · subst hz
      simp only [if_true]
      rw [ih]
      by_cases hci : c < i
      · simp [hci, show c < i + 1 by omega]
      · by_cases hce : c = i
        · subst hce; simp
        · obtain ⟨d, hd⟩ : ∃ d, c - i = d + 1 := ⟨c - i - 1, by omega⟩
          have hd2 : c - (i + 1) = d := by omega
          simp [hci, show ¬ c < i + 1 by omega, hd, hd2, fse_init_encoder_table_offset]
    · simp only [hz, if_false]
      rw [ih]
      by_cases hci : c < i
      · simp [hci, show c < i + 1 by omega, Function.update, show c ≠ i by omega]
      · by_cases hce : c = i
        · subst hce
          simp [hz, fse_init_encoder_table_offset]
        · obtain ⟨d, hd⟩ : ∃ d, c - i = d + 1 := ⟨c - i - 1, by omega⟩
          have hd2 : c - (i + 1) = d := by omega
          simp [hci, show ¬ c < i + 1 by omega, hd, hd2, fse_init_encoder_table_offset, hz,
            Function.update, hce]


/-! ## Shifts -/

theorem shr_nonneg {x : Int} (k : Int) (hx : 0 ≤ x) : 0 ≤ shr x k := by
  unfold shr
  exact Int.ediv_nonneg hx (by positivity)

theorem shr_le_self {x : Int} (k : Int) (hx : 0 ≤ x) : shr x k ≤ x := by
  unfold shr
  exact Int.ediv_le_self _ hx

theorem shr_zero (x : Int) : shr x 0 = x := by
  unfold shr
  simp

theorem shr_mono {x y : Int} (k : Int) (h : x ≤ y) : shr x k ≤ shr y k := by
  unfold shr
  exact Int.ediv_le_ediv (by positivity) h

/-! ## The adjustment loop -/

theorem freq_kept_refl (f : Nat) : freq_kept f f :=
  ⟨le_rfl, fun h => h, fun h => h⟩

theorem freq_kept_trans {f g h : Nat} (h1 : freq_kept f g) (h2 : freq_kept g h) :
    freq_kept f h :=
  ⟨le_trans h2.1 h1.1, fun hz => h2.2.1 (h1.2.1 hz), fun hp => h2.2.2 (h1.2.2 hp)⟩

theorem forall₂_freq_kept_refl (freq : List Nat) : List.Forall₂ freq_kept freq freq := by
  induction freq with
  | nil => exact List.Forall₂.nil
  | cons f freq ih => exact List.Forall₂.cons (freq_kept_refl f) ih

theorem forall₂_freq_kept_trans {a b c : List Nat} (h1 : List.Forall₂ freq_kept a b)
    (h2 : List.Forall₂ freq_kept b c) : List.Forall₂ freq_kept a c := by
  induction h1 generalizing c with
  | nil => cases h2; exact List.Forall₂.nil
  | cons hab _ ih =>
    cases h2 with
    | cons hbc hrest => exact List.Forall₂.cons (freq_kept_trans hab hbc) (ih hrest)

theorem used_symbols_cons (x : Nat) (l : List Nat) :
    used_symbols (x :: l) = used_symbols l + (if 0 < x then 1 else 0) := by
  unfold used_symbols
  rw [List.countP_cons]
  simp

theorem forall₂_freq_kept_used {a b : List Nat} (h : List.Forall₂ freq_kept a b) :
    used_symbols b = used_symbols a := by
  induction h with
  | nil => rfl
  | @cons x y l1 l2 hab _ ih =>
    rw [used_symbols_cons, used_symbols_cons, ih]
    obtain ⟨_, h0, h1⟩ := hab
    by_cases hx : 0 < x
    · have hy : 0 < y := h1 hx
      simp [hx, hy]
    · have hy : ¬ 0 < y := by have := h0 (by omega); omega
      simp [hx, hy]

theorem forall₂_freq_kept_bound {a b : List Nat} (h : List.Forall₂ freq_kept a b) (B : Nat)
    (ha : ∀ f ∈ a, f < B) : ∀ g ∈ b, g < B := by
  induction h with
  | nil => intro g hg; cases hg
  | cons hab _ ih =>
    intro g hg
    rcases List.mem_cons.1 hg with rfl | hg
    · exact lt_of_le_of_lt hab.1 (ha _ (List.mem_cons_self _ _))
    · exact ih (fun f hf => ha f (List.mem_cons_of_mem _ hf)) g hg

theorem forall₂_freq_kept_getD {a b : List Nat} (h : List.Forall₂ freq_kept a b) (j : Nat) :
    freq_kept (a.getD j 0) (b.getD j 0) := by
  induction h generalizing j with
  | nil => simpa using freq_kept_refl 0
  | cons hab _ ih =>
    cases j with
    | zero => simpa using hab
    | succ j => simpa using ih j

/-- One pass of the adjustment loop on `uint16_t` frequencies with a nonnegative overrun:
frequencies are kept in the sense of `freq_kept`, the overrun decreases by what the
frequencies lose, and it stays nonnegative. -/
theorem adjust_pass_spec (shift : Int) :
    ∀ (freq : List Nat) (overrun : Int), (∀ f ∈ freq, f < 65536) → 0 ≤ overrun →
      List.Forall₂ freq_kept freq (fse_adjust_freqs_pass shift freq overrun).1 ∧
      0 ≤ (fse_adjust_freqs_pass shift freq overrun).2 ∧
      (fse_adjust_freqs_pass shift freq overrun).2 ≤ overrun ∧
      (((fse_adjust_freqs_pass shift freq overrun).1.sum : Nat) : Int)
        = (freq.sum : Nat) - (overrun - (fse_adjust_freqs_pass shift freq overrun).2) := by
  intro freq
  induction freq with
  | nil =>
    intro overrun _ h0
    simp [fse_adjust_freqs_pass, h0]
  | cons f freq ih =>
    intro overrun hf h0
    have hf0 : f < 65536 := hf f (List.mem_cons_self _ _)
    have hf1 : ∀ g ∈ freq, g < 65536 := fun g hg => hf g (List.mem_cons_of_mem _ hg)
    unfold fse_adjust_freqs_pass
    by_cases hgt : f > 1
    · simp only [hgt, if_true]
      have hn0 : 0 ≤ shr ((f : Int) - 1) shift := shr_nonneg _ (by omega)
      have hn1 : shr ((f : Int) - 1) shift ≤ (f : Int) - 1 := shr_le_self _ (by omega)
      generalize shr ((f : Int) - 1) shift = n0 at hn0 hn1
      have hn : 0 ≤ (if n0 > overrun then overrun else n0) ∧
          (if n0 > overrun then overrun else n0) ≤ n0 ∧
          (if n0 > overrun then overrun else n0) ≤ overrun := by
        split <;> omega
      generalize (if n0 > overrun then overrun else n0) = n at hn
      obtain ⟨hna, hnb, hnc⟩ := hn
      have hu : ((u16 ((f : Int) - n)).toNat : Int) = (f : Int) - n := by
        unfold u16; omega
      have hk : freq_kept f (u16 ((f : Int) - n)).toNat := by
        refine ⟨by omega, by omega, by omega⟩
      by_cases hov : overrun - n = 0
      · simp only [hov, if_true]
        refine ⟨List.Forall₂.cons hk (forall₂_freq_kept_refl freq), le_rfl, h0, ?_⟩
        simp only [List.sum_cons, Nat.cast_add, hu]
        omega
      · simp only [hov, if_false]
        obtain ⟨i1, i2, i3, i4⟩ := ih (overrun - n) hf1 (by omega)
        refine ⟨List.Forall₂.cons hk i1, i2, by omega, ?_⟩
        simp only [List.sum_cons, Nat.cast_add, hu, i4]
        omega
    · simp only [hgt, if_false]
      obtain ⟨i1, i2, i3, i4⟩ := ih overrun hf1 h0
      refine ⟨List.Forall₂.cons (freq_kept_refl f) i1, i2, i3, ?_⟩
      simp only [List.sum_cons, Nat.cast_add, i4]
      omega

/-- The pass with `shift = 0` either brings the overrun to 0 or leaves no frequency above 1. -/
theorem adjust_pass_zero_spec :
    ∀ (freq : List Nat) (overrun : Int), (∀ f ∈ freq, f < 65536) → 0 ≤ overrun →
      (fse_adjust_freqs_pass 0 freq overrun).2 = 0 ∨
      ∀ g ∈ (fse_adjust_freqs_pass 0 freq overrun).1, g ≤ 1 := by
  intro freq
  induction freq with
  | nil =>
    intro overrun _ _
    right
    simp [fse_adjust_freqs_pass]
  | cons f freq ih =>
    intro overrun hf h0
    have hf0 : f < 65536 := hf f (List.mem_cons_self _ _)
    have hf1 : ∀ g ∈ freq, g < 65536 := fun g hg => hf g (List.mem_cons_of_mem _ hg)
    unfold fse_adjust_freqs_pass
    by_cases hgt : f > 1
    · simp only [hgt, if_true, shr_zero]
      by_cases hc : (f : Int) - 1 > overrun
      · simp only [hc, if_true, sub_self]
        left; trivial
      · simp only [hc, if_false]
        by_cases hov : overrun - ((f : Int) - 1) = 0
        · simp only [hov, if_true]
          left; trivial
        · simp only [hov, if_false]
          rcases ih (overrun - ((f : Int) - 1)) hf1 (by omega) with h | h
          · left; exact h
          · right
            intro g hg
            rcases List.mem_cons.1 hg with rfl | hg
            · unfold u16; omega
            · exact h g hg
    · simp only [hgt, if_false]
      rcases ih overrun hf1 h0 with h | h
      · left; exact h
      · right
        intro g hg
        rcases List.mem_cons.1 hg with rfl | hg
        · omega
        · exact h g hg

theorem sum_eq_used_of_le_one (freq : List Nat) (h : ∀ g ∈ freq, g ≤ 1) :
    freq.sum = used_symbols freq := by
  induction freq with
  | nil => rfl
  | cons f freq ih =>
    have hf := h f (List.mem_cons_self _ _)
    have ih := ih (fun g hg => h g (List.mem_cons_of_mem _ hg))
    rw [used_symbols_cons, List.sum_cons, ih]
    by_cases h0 : 0 < f
    · simp only [h0, if_true]; omega
    · simp only [h0, if_false]; omega

theorem freq_slack_eq_zero_of_le_one (freq : List Nat) (h : ∀ g ∈ freq, g ≤ 1) :
    freq_slack freq = 0 := by
  unfold freq_slack
  rw [sum_eq_used_of_le_one freq h]
  omega


theorem adjust_loop_zero (fuel : Nat) (shift : Int) (freq : List Nat) :
    fse_adjust_freqs_loop fuel shift freq 0 = some freq := by
  cases fuel <;> simp [fse_adjust_freqs_loop]

theorem adjust_pass_slack (shift : Int) (freq : List Nat) (overrun : Int)
    (hf : ∀ f ∈ freq, f < 65536) (h0 : 0 ≤ overrun) :
    freq_slack (fse_adjust_freqs_pass shift freq overrun).1
      = freq_slack freq - (overrun - (fse_adjust_freqs_pass shift freq overrun).2) := by
  obtain ⟨h1, _, _, h4⟩ := adjust_pass_spec shift freq overrun hf h0
  unfold freq_slack
  rw [forall₂_freq_kept_used h1, h4]
  omega

/-- The adjustment loop entered with `shift = s ≤ 3`, at least `s + 1` passes of fuel, and an
overrun between 0 and the slack of the histogram: it ends, having removed exactly the overrun
and emptied no symbol. -/
theorem adjust_loop_spec : ∀ (s fuel : Nat), s + 1 ≤ fuel → ∀ (freq : List Nat) (overrun : Int),
    (∀ f ∈ freq, f < 65536) → 0 ≤ overrun → overrun ≤ freq_slack freq →
    ∃ out, fse_adjust_freqs_loop fuel (s : Int) freq overrun = some out ∧
      List.Forall₂ freq_kept freq out ∧
      ((out.sum : Nat) : Int) = (freq.sum : Nat) - overrun := by
  intro s
  induction s with
  | zero =>
    intro fuel hfuel freq overrun hf h0 hs
    obtain ⟨fuel, rfl⟩ : ∃ k, fuel = k + 1 := ⟨fuel - 1, by omega⟩
    unfold fse_adjust_freqs_loop
    by_cases hz : overrun = 0
    · subst hz
      exact ⟨freq, by simp, forall₂_freq_kept_refl freq, by simp⟩
    · simp only [hz, if_false]
      obtain ⟨h1, h2, h3, h4⟩ := adjust_pass_spec 0 freq overrun hf h0
      have hsl := adjust_pass_slack 0 freq overrun hf h0
      have hzero : (fse_adjust_freqs_pass 0 freq overrun).2 = 0 := by
        rcases adjust_pass_zero_spec freq overrun hf h0 with h | h
        · exact h
        · have := freq_slack_eq_zero_of_le_one _ h
          omega
      refine ⟨(fse_adjust_freqs_pass 0 freq overrun).1, ?_, h1, ?_⟩
      · simp only [Nat.cast_zero]
        rw [hzero]
        exact adjust_loop_zero _ _ _
      · rw [h4, hzero]; omega
  | succ s ih =>
    intro fuel hfuel freq overrun hf h0 hs
    obtain ⟨fuel, rfl⟩ : ∃ k, fuel = k + 1 := ⟨fuel - 1, by omega⟩
    unfold fse_adjust_freqs_loop
    by_cases hz : overrun = 0
    · subst hz
      exact ⟨freq, by simp, forall₂_freq_kept_refl freq, by simp⟩
    · simp only [hz, if_false]
      obtain ⟨h1, h2, h3, h4⟩ := adjust_pass_spec ((s + 1 : Nat) : Int) freq overrun hf h0
      have hsl := adjust_pass_slack ((s + 1 : Nat) : Int) freq overrun hf h0
      have hcast : (((s + 1 : Nat) : Int) - 1) = (s : Int) := by omega
      rw [hcast]
      obtain ⟨out, ho1, ho2, ho3⟩ := ih fuel (by omega) _ _
        (forall₂_freq_kept_bound h1 65536 hf) h2 (by omega)
      exact ⟨out, ho1, forall₂_freq_kept_trans h1 ho2, by rw [ho3, h4]; omega⟩

theorem adjust_freqs_spec (fuel : Nat) (hfuel : 4 ≤ fuel) (freq : List Nat) (overrun : Int)
    (hf : ∀ f ∈ freq, f < 65536) (h0 : 0 ≤ overrun) (hs : overrun ≤ freq_slack freq) :
    ∃ out, fse_adjust_freqs fuel freq overrun = some out ∧
      List.Forall₂ freq_kept freq out ∧
      ((out.sum : Nat) : Int) = (freq.sum : Nat) - overrun :=
  adjust_loop_spec 3 fuel (by omega) freq overrun hf h0 hs

/-! ## The rounding loop of the normaliser -/

theorem i32_sub_i32 (a b : Int) : i32 (i32 a - b) = i32 (a - b) := by
  unfold i32; omega

theorem s_count_foldl (t : List Nat) : ∀ a : Int,
    List.foldl (fun s x => u32 (s + ((x : Nat) : Int))) (u32 a) t = u32 (a + (t.sum : Nat)) := by
  induction t with
  | nil => intro a; simp
  | cons x t ih =>
    intro a
    simp only [List.foldl_cons, List.sum_cons, Nat.cast_add]
    have : u32 (u32 a + (x : Int)) = u32 (a + x) := by unfold u32; omega
    rw [this, ih (a + x)]
    congr 1; omega

theorem s_count_eq (t : List Nat) (hT : t.sum < 4294967296) :
    fse_normalize_freq_s_count t = (t.sum : Nat) := by
  unfold fse_normalize_freq_s_count
  have h := s_count_foldl t 0
  have h0 : u32 0 = 0 := by decide
  rw [h0] at h
  rw [h]
  unfold u32; omega

theorem shr_two_pow_31 (n : Nat) (hn : n ≤ 30) :
    shr 2147483648 (30 - (n : Int)) = 2 * 2 ^ n := by
  unfold shr
  have hc : ((30 - (n : Int)) % 32).toNat = 30 - n := by omega
  rw [hc]
  have hsplit : (2147483648 : Int) = (2 * 2 ^ n) * 2 ^ (30 - n) := by
    have h1 : (2 : Int) * 2 ^ n * 2 ^ (30 - n) = 2 * 2 ^ (n + (30 - n)) := by
      rw [pow_add]; ring
    have h2 : n + (30 - n) = 30 := by omega
    rw [h1, h2]; norm_num
  rw [hsplit]
  exact Int.mul_ediv_cancel _ (by positivity)

/-- The rounded frequency of a count: between 0 and `2^n`, 0 for an unused symbol and at
least 1 for a used one, when the scaled count `ti * highprec_step` is at most `2^31`. -/
theorem round_spec (n : Nat) (hn : n ≤ 30) (step : Int) (ti : Nat) (hstep : 0 ≤ step)
    (hx : (ti : Int) * step ≤ 2147483648) :
    0 ≤ fse_normalize_freq_round (30 - (n : Int)) step ti ∧
    fse_normalize_freq_round (30 - (n : Int)) step ti ≤ 2 ^ n ∧
    (ti = 0 → fse_normalize_freq_round (30 - (n : Int)) step ti = 0) ∧
    (ti ≠ 0 → 1 ≤ fse_normalize_freq_round (30 - (n : Int)) step ti) := by
  have hx0 : 0 ≤ (ti : Int) * step := mul_nonneg (by omega) hstep
  have hpn : (2 : Int) ^ n ≤ 2 ^ 30 := pow_le_pow_right₀ (by norm_num) hn
  have hpn0 : (0 : Int) < 2 ^ n := by positivity
  norm_num at hpn
  unfold fse_normalize_freq_round
  have hu : u32 ((ti : Int) * step) = (ti : Int) * step := by unfold u32; omega
  rw [hu]
  have hy0 : 0 ≤ shr ((ti : Int) * step) (30 - (n : Int)) := shr_nonneg _ hx0
  have hy1 : shr ((ti : Int) * step) (30 - (n : Int)) ≤ 2 * 2 ^ n := by
    rw [← shr_two_pow_31 n hn]
    exact shr_mono _ hx
  have hyz : ti = 0 → shr ((ti : Int) * step) (30 - (n : Int)) = 0 := by
    intro h; subst h; simp [shr]
  generalize shr ((ti : Int) * step) (30 - (n : Int)) = y at hy0 hy1 hyz
  have hu2 : u32 (y + 1) = y + 1 := by unfold u32; omega
  rw [hu2]
  have hs1 : shr (y + 1) 1 = (y + 1) / 2 := by simp [shr]
  rw [hs1]
  dsimp only
  refine ⟨?_, ?_, ?_, ?_⟩
  · split <;> omega
  · split <;> omega
  · intro h
    have := hyz h
    subst this
    simp [h]
  · intro h
    split <;> omega


/-- The rounding loop of `fse_normalize_freq`: the stored frequencies are the rounded ones
reduced to `uint16_t`, `remaining` has lost their sum, `max_freq` bounds them all, and
`max_freq_sym` is either untouched (with `max_freq`) or the index of a symbol whose rounded
frequency is the new `max_freq`. -/
theorem normalize_loop_spec (shift step : Int) :
    ∀ (t : List Nat) (i : Nat) (rem mf : Int) (ms : Nat), i32 rem = rem →
      ∀ r, fse_normalize_freq_loop shift step i rem mf ms t = r →
        r.1 = t.map (fun ti => (u16 (fse_normalize_freq_round shift step ti)).toNat) ∧
        r.2.1 = i32 (rem - (t.map (fse_normalize_freq_round shift step)).sum) ∧
        mf ≤ r.2.2.1 ∧
        (∀ ti ∈ t, fse_normalize_freq_round shift step ti ≤ r.2.2.1) ∧
        ((r.2.2.1 = mf ∧ r.2.2.2 = ms) ∨
          (mf < r.2.2.1 ∧ i ≤ r.2.2.2 ∧ r.2.2.2 < i + t.length ∧
            fse_normalize_freq_round shift step (t.getD (r.2.2.2 - i) 0) = r.2.2.1)) := by
  intro t
  induction t with
  | nil =>
    intro i rem mf ms hrem r hr
    subst hr
    simp [fse_normalize_freq_loop, hrem]
  | cons ti t ih =>
    intro i rem mf ms _ r hr
    have hidem : ∀ x : Int, i32 (i32 x) = i32 x := by intro x; unfold i32; omega
    unfold fse_normalize_freq_loop at hr
    subst hr
    by_cases hgt : fse_normalize_freq_round shift step ti > mf
    · simp only [hgt, if_true]
      obtain ⟨h1, h2, h3, h4, h5⟩ := ih (i + 1)
        (i32 (rem - fse_normalize_freq_round shift step ti))
        (fse_normalize_freq_round shift step ti) i (hidem _) _ rfl
      refine ⟨?_, ?_, by omega, ?_, ?_⟩
      · simp only [List.map_cons, h1]
      · rw [h2, i32_sub_i32, List.map_cons, List.sum_cons]
        congr 1; omega
      · intro x hx
        rcases List.mem_cons.1 hx with rfl | hx
        · exact h3
        · exact h4 x hx
      · right
        rcases h5 with ⟨h5a, h5b⟩ | ⟨h5a, h5b, h5c, h5d⟩
        · rw [h5b, h5a]
          refine ⟨hgt, le_rfl, by simp, by simp⟩
        · refine ⟨by omega, by omega, by simp only [List.length_cons]; omega, ?_⟩
          generalize (fse_normalize_freq_loop shift step (i + 1)
              (i32 (rem - fse_normalize_freq_round shift step ti))
              (fse_normalize_freq_round shift step ti) i t) = L at h5b h5c h5d ⊢
          obtain ⟨d, hd⟩ : ∃ d, L.2.2.2 - i = d + 1 := ⟨L.2.2.2 - i - 1, by omega⟩
          have hd2 : L.2.2.2 - (i + 1) = d := by omega
          rw [hd2] at h5d
          rw [hd, List.getD_cons_succ]
          exact h5d
    · simp only [hgt, if_false]
      obtain ⟨h1, h2, h3, h4, h5⟩ := ih (i + 1)
        (i32 (rem - fse_normalize_freq_round shift step ti)) mf ms (hidem _) _ rfl
      refine ⟨?_, ?_, h3, ?_, ?_⟩
      · simp only [List.map_cons, h1]
      · rw [h2, i32_sub_i32, List.map_cons, List.sum_cons]
        congr 1; omega
      · intro x hx
        rcases List.mem_cons.1 hx with rfl | hx
        · omega
        · exact h4 x hx
      · rcases h5 with h5 | ⟨h5a, h5b, h5c, h5d⟩
        · left; exact h5
        · right
          refine ⟨h5a, by omega, by simp only [List.length_cons]; omega, ?_⟩
          generalize (fse_normalize_freq_loop shift step (i + 1)
              (i32 (rem - fse_normalize_freq_round shift step ti)) mf ms t) = L
            at h5b h5c h5d ⊢
          obtain ⟨d, hd⟩ : ∃ d, L.2.2.2 - i = d + 1 := ⟨L.2.2.2 - i - 1, by omega⟩
          have hd2 : L.2.2.2 - (i + 1) = d := by omega
          rw [hd2] at h5d
          rw [hd, List.getD_cons_succ]
          exact h5d


/-! ## List facts used by the normaliser -/

theorem getD_set_nat (l : List Nat) (i j v : Nat) (h : i < l.length) :
    (l.set i v).getD j 0 = if j = i then v else l.getD j 0 := by
  simp only [List.getD_eq_getElem?_getD, List.getElem?_set]
  by_cases hij : i = j
  · subst hij; simp [h]
  · have hji : ¬ j = i := fun hc => hij hc.symm
    simp [hij, hji]

theorem sum_set_nat : ∀ (l : List Nat) (i v : Nat), i < l.length →
    (((l.set i v).sum : Nat) : Int) = (l.sum : Nat) - (l.getD i 0 : Nat) + (v : Nat) := by
  intro l
  induction l with
  | nil => intro i v h; simp at h
  | cons x l ih =>
    intro i v h
    cases i with
    | zero =>
      simp only [List.set_cons_zero, List.sum_cons, List.getD_cons_zero, Nat.cast_add]
      omega
    | succ i =>
      simp only [List.set_cons_succ, List.sum_cons, List.getD_cons_succ, Nat.cast_add]
      have := ih i v (by simpa using h)
      omega

theorem getD_map_toNat (g : Nat → Int) (hg : g 0 = 0) : ∀ (t : List Nat) (j : Nat),
    (t.map fun ti => (g ti).toNat).getD j 0 = (g (t.getD j 0)).toNat := by
  intro t
  induction t with
  | nil => intro j; simp [hg]
  | cons x t ih =>
    intro j
    cases j with
    | zero => simp
    | succ j => simpa using ih j

theorem sum_map_toNat (g : Nat → Int) : ∀ (t : List Nat), (∀ ti ∈ t, 0 ≤ g ti) →
    (((t.map fun ti => (g ti).toNat).sum : Nat) : Int) = (t.map g).sum := by
  intro t
  induction t with
  | nil => intro _; simp
  | cons x t ih =>
    intro h
    have hx := h x (List.mem_cons_self _ _)
    have := ih (fun y hy => h y (List.mem_cons_of_mem _ hy))
    simp only [List.map_cons, List.sum_cons, Nat.cast_add, this]
    omega

theorem used_map_toNat (g : Nat → Int) : ∀ (t : List Nat),
    (∀ ti ∈ t, (ti = 0 → g ti = 0) ∧ (ti ≠ 0 → 1 ≤ g ti)) →
    used_symbols (t.map fun ti => (g ti).toNat) = used_symbols t := by
  intro t
  induction t with
  | nil => intro _; rfl
  | cons x t ih =>
    intro h
    obtain ⟨h0, h1⟩ := h x (List.mem_cons_self _ _)
    have := ih (fun y hy => h y (List.mem_cons_of_mem _ hy))
    rw [List.map_cons, used_symbols_cons, used_symbols_cons, this]
    by_cases hx : x = 0
    · have := h0 hx
      subst hx
      simp [this]
    · have := h1 hx
      have h2 : 0 < (g x).toNat := by omega
      have h3 : 0 < x := by omega
      simp [h2, h3]

theorem sum_map_le_used (g : Nat → Int) (P : Int) : ∀ (t : List Nat),
    (∀ ti ∈ t, 0 ≤ g ti ∧ g ti ≤ P ∧ (ti = 0 → g ti = 0)) →
    0 ≤ (t.map g).sum ∧ (t.map g).sum ≤ (used_symbols t : Int) * P := by
  intro t
  induction t with
  | nil => intro _; simp [used_symbols]
  | cons x t ih =>
    intro h
    obtain ⟨h0, h1, h2⟩ := h x (List.mem_cons_self _ _)
    obtain ⟨i0, i1⟩ := ih (fun y hy => h y (List.mem_cons_of_mem _ hy))
    rw [List.map_cons, List.sum_cons, used_symbols_cons]
    refine ⟨by omega, ?_⟩
    by_cases hx : 0 < x
    · simp only [hx, if_true, Nat.cast_add, Nat.cast_one, add_mul, one_mul]
      omega
    · have := h2 (by omega)
      simp only [hx, if_false, Nat.cast_add, Nat.cast_zero, add_zero]
      omega

theorem exists_used_of_sum_ne_zero : ∀ (t : List Nat), t.sum ≠ 0 → ∃ ti ∈ t, ti ≠ 0 := by
  intro t
  induction t with
  | nil => intro h; simp at h
  | cons x t ih =>
    intro h
    by_cases hx : x = 0
    · subst hx
      obtain ⟨y, hy, hy0⟩ := ih (by simpa using h)
      exact ⟨y, List.mem_cons_of_mem _ hy, hy0⟩
    · exact ⟨x, List.mem_cons_self _ _, hx⟩

theorem clz_two_pow (n : Nat) (hn : n ≤ 30) : clz ((2 : Int) ^ n) = 31 - (n : Int) := by
  have h : ((2 : Int) ^ n) = ((2 ^ n : Nat) : Int) := by push_cast; rfl
  have hp : 2 ^ n ≤ 2 ^ 30 := Nat.pow_le_pow_right (by decide) hn
  rw [h, clz_of_nat _ (by omega), clz32_two_pow (by omega)]
  omega

/-- The fixed-point step of the normaliser: it is not negative and no scaled count
`t[i] * highprec_step` exceeds `2^31`, when the total does not wrap. -/
theorem highprec_step_spec (t : List Nat) :
    0 ≤ (if ((t.sum : Nat) : Int) = 0 then (0 : Int) else 2147483648 / ((t.sum : Nat) : Int)) ∧
    ∀ ti, ti ∈ t ∨ ti = 0 →
      (ti : Int) * (if ((t.sum : Nat) : Int) = 0 then (0 : Int)
        else 2147483648 / ((t.sum : Nat) : Int)) ≤ 2147483648 := by
  by_cases hT : ((t.sum : Nat) : Int) = 0
  · simp [hT]
  · simp only [hT, if_false]
    have hpos : (0 : Int) < (t.sum : Nat) := by omega
    have hstep : (0 : Int) ≤ 2147483648 / ((t.sum : Nat) : Int) :=
      Int.ediv_nonneg (by norm_num) (le_of_lt hpos)
    refine ⟨hstep, ?_⟩
    intro ti hti
    have hle : (ti : Int) ≤ (t.sum : Nat) := by
      rcases hti with hti | hti
      · exact_mod_cast List.le_sum_of_mem hti
      · subst hti; simpa using le_of_lt hpos
    calc (ti : Int) * (2147483648 / ((t.sum : Nat) : Int))
        ≤ ((t.sum : Nat) : Int) * (2147483648 / ((t.sum : Nat) : Int)) :=
          mul_le_mul_of_nonneg_right hle hstep
      _ ≤ 2147483648 := Int.mul_ediv_self_le hT


/-- The normaliser on its intended domain: `nstates = 2^n` with `n ≤ 15`, a nonempty
histogram whose total fits 32 bits and that uses at most `nstates` symbols. With at least four
passes of fuel it returns a histogram that sums to `nstates`, keeps every used symbol, and
gives an unused symbol a state only when no symbol is used at all (symbol 0 then gets all). -/
theorem normalize_spec (n : Nat) (hn : n ≤ 15) (t : List Nat) (fuel : Nat) (hfuel : 4 ≤ fuel)
    (ht : t ≠ []) (hT : t.sum < 4294967296) (hused : used_symbols t ≤ 2 ^ n) :
    ∃ freq, fse_normalize_freq fuel (2 ^ n) t = some freq ∧ freq.length = t.length ∧
      freq.sum = 2 ^ n ∧
      (∀ j, t.getD j 0 ≠ 0 → 1 ≤ freq.getD j 0) ∧
      (t.sum ≠ 0 → ∀ j, t.getD j 0 = 0 → freq.getD j 0 = 0) ∧
      (t.sum = 0 → freq.getD 0 0 = 2 ^ n ∧ ∀ j, j ≠ 0 → freq.getD j 0 = 0) := by
  have hshift : clz ((2 : Int) ^ n) - 1 = 30 - (n : Int) := by
    rw [clz_two_pow n (by omega)]; omega
  have hsc := s_count_eq t hT
  have hshl : u32 (shl 1 31) = 2147483648 := by decide
  have hP : (2 : Int) ^ n ≤ 32768 := by
    have := pow_le_pow_right₀ (show (1 : Int) ≤ 2 by norm_num) hn
    norm_num at this
    exact this
  have hP0 : (0 : Int) < 2 ^ n := by positivity
  have hcastP : (((2 ^ n : Nat)) : Int) = (2 : Int) ^ n := by push_cast; rfl
  have husedI : (used_symbols t : Int) ≤ (2 : Int) ^ n := by
    rw [← hcastP]; exact_mod_cast hused
  unfold fse_normalize_freq
  simp only [hshift, hsc, hshl]
  obtain ⟨hstep0, hstepx⟩ := highprec_step_spec t
  generalize (if ((t.sum : Nat) : Int) = 0 then (0 : Int)
    else 2147483648 / ((t.sum : Nat) : Int)) = step at hstep0 hstepx ⊢
  have hround : ∀ ti, ti ∈ t ∨ ti = 0 →
      0 ≤ fse_normalize_freq_round (30 - (n : Int)) step ti ∧
      fse_normalize_freq_round (30 - (n : Int)) step ti ≤ 2 ^ n ∧
      (ti = 0 → fse_normalize_freq_round (30 - (n : Int)) step ti = 0) ∧
      (ti ≠ 0 → 1 ≤ fse_normalize_freq_round (30 - (n : Int)) step ti) :=
    fun ti hti => round_spec n (by omega) step ti hstep0 (hstepx ti hti)
  have hloop := normalize_loop_spec (30 - (n : Int)) step t 0 (2 ^ n) 0 0
    (i32_of_range (by omega) (by omega)) _ rfl
  have hu16 : (t.map fun ti => (u16 (fse_normalize_freq_round (30 - (n : Int)) step ti)).toNat)
      = t.map fun ti => (fse_normalize_freq_round (30 - (n : Int)) step ti).toNat := by
    apply List.map_congr_left
    intro ti hti
    have h1 := (hround ti (Or.inl hti)).1
    have h2 := (hround ti (Or.inl hti)).2.1
    unfold u16; omega
  rw [hu16] at hloop
  generalize fse_normalize_freq_loop (30 - (n : Int)) step 0 (2 ^ n) 0 0 t = L at hloop ⊢
  generalize fse_normalize_freq_round (30 - (n : Int)) step = g at hloop hround
  obtain ⟨freq0, rem, mx, ms⟩ := L
  simp only at hloop ⊢
  obtain ⟨hfreq, hrem, hmax0, hmaxle, hcase⟩ := hloop
  have hg0 : g 0 = 0 := (hround 0 (Or.inr rfl)).2.2.1 rfl
  have hR := sum_map_le_used g (2 ^ n) t
    (fun ti hti => ⟨(hround ti (Or.inl hti)).1, (hround ti (Or.inl hti)).2.1,
      (hround ti (Or.inl hti)).2.2.1⟩)
  have hsumfreq : ((freq0.sum : Nat) : Int) = (t.map g).sum := by
    rw [hfreq]
    exact sum_map_toNat g t (fun ti hti => (hround ti (Or.inl hti)).1)
  have husedfreq : used_symbols freq0 = used_symbols t := by
    rw [hfreq]
    exact used_map_toNat g t (fun ti hti =>
      ⟨(hround ti (Or.inl hti)).2.2.1, (hround ti (Or.inl hti)).2.2.2⟩)
  have hgetD : ∀ j, freq0.getD j 0 = (g (t.getD j 0)).toNat := by
    intro j; rw [hfreq]; exact getD_map_toNat g hg0 t j
  have hlen : freq0.length = t.length := by rw [hfreq, List.length_map]
  have hbound : ∀ f ∈ freq0, f < 65536 := by
    intro f hf
    rw [hfreq, List.mem_map] at hf
    obtain ⟨ti, hti, rfl⟩ := hf
    have := (hround ti (Or.inl hti)).2.1
    omega
  have htpos : 0 < t.length := List.length_pos.2 ht
  have hmem : ∀ j, j < t.length → t.getD j 0 ∈ t := by
    intro j hj
    rw [List.getD_eq_getElem _ _ hj]
    exact List.getElem_mem hj
  have hms : ms < t.length ∧ g (t.getD ms 0) = mx := by
    rcases hcase with ⟨hm, hs⟩ | ⟨-, -, hs, hgm⟩
    · subst hs
      refine ⟨htpos, ?_⟩
      have h1 := hmaxle _ (hmem 0 htpos)
      have h2 := (hround _ (Or.inl (hmem 0 htpos))).1
      omega
    · simp only [Nat.sub_zero, zero_add] at hgm hs
      exact ⟨hs, hgm⟩
  obtain ⟨hms1, hms2⟩ := hms
  have hmaxR : mx ≤ (t.map g).sum := by
    rw [← hms2]
    exact List.single_le_sum (fun x hx => by
      rw [List.mem_map] at hx
      obtain ⟨ti, hti, rfl⟩ := hx
      exact (hround ti (Or.inl hti)).1) _ (List.mem_map_of_mem g (hmem ms hms1))
  generalize (t.map g).sum = R at hR hsumfreq hmaxR hrem
  obtain ⟨hR0, hR1⟩ := hR
  have hRb : R ≤ 1073741824 := by
    have h1 : (used_symbols t : Int) * 2 ^ n ≤ 2 ^ n * 2 ^ n :=
      mul_le_mul_of_nonneg_right husedI (le_of_lt hP0)
    have h2 : (2 : Int) ^ n * 2 ^ n ≤ 32768 * 32768 :=
      mul_le_mul hP hP (le_of_lt hP0) (by norm_num)
    omega
  have hrem2 : rem = 2 ^ n - R := by
    rw [hrem]; exact i32_of_range (by omega) (by omega)
  have hneg : i32 (-rem) = R - 2 ^ n := by
    rw [hrem2]
    have : -((2 : Int) ^ n - R) = R - 2 ^ n := by ring
    rw [this]
    exact i32_of_range (by omega) (by omega)
  have hshr : shr mx 2 = mx / 4 := by simp [shr]
  have hmsval : ((freq0.getD ms 0 : Nat) : Int) = mx := by
    rw [hgetD ms, hms2]; omega
  have hzero_all : t.sum = 0 → ∀ ti ∈ t, ti = 0 := by
    intro h ti hti
    have := List.le_sum_of_mem hti
    omega
  rw [hneg, hshr]
  by_cases hbr : R - 2 ^ n < mx / 4
  · simp only [hbr, if_true, hlen, hms1]
    have hv : ((u16 (((freq0.getD ms 0 : Nat) : Int) + rem)).toNat : Int) = mx + 2 ^ n - R := by
      rw [hmsval, hrem2]
      unfold u16; omega
    refine ⟨_, rfl, by rw [List.length_set, hlen], ?_, ?_, ?_, ?_⟩
    · have hs := sum_set_nat freq0 ms (u16 (((freq0.getD ms 0 : Nat) : Int) + rem)).toNat
        (by omega)
      have : (((freq0.set ms (u16 (((freq0.getD ms 0 : Nat) : Int) + rem)).toNat).sum : Nat)
          : Int) = ((2 ^ n : Nat) : Int) := by rw [hcastP]; omega
      exact_mod_cast this
    · intro j hj
      rw [getD_set_nat _ _ _ _ (by omega)]
      by_cases hjm : j = ms
      · simp only [hjm, if_true]
        omega
      · simp only [hjm, if_false]
        rw [hgetD j]
        have hjlt : j < t.length := by
          by_contra hc
          rw [List.getD_eq_default _ _ (by omega)] at hj
          exact hj rfl
        have := (hround _ (Or.inl (hmem j hjlt))).2.2.2 hj
        omega
    · intro hTne j hj
      rw [getD_set_nat _ _ _ _ (by omega)]
      by_cases hjm : j = ms
      · exfalso
        subst hjm
        rw [hj, hg0] at hms2
        obtain ⟨ti, hti, hti0⟩ := exists_used_of_sum_ne_zero t hTne
        have h1 := (hround ti (Or.inl hti)).2.2.2 hti0
        have h2 := hmaxle ti hti
        omega
      · simp only [hjm, if_false]
        rw [hgetD j, hj, hg0]
        rfl
    · intro hTz
      have hall := hzero_all hTz
      have hmx : mx = 0 := by
        rw [← hms2, hall _ (hmem ms hms1), hg0]
      have hms0 : ms = 0 := by
        rcases hcase with ⟨-, hs⟩ | ⟨hlt, -⟩
        · exact hs
        · omega
      have hRz : R = 0 := by
        have : (used_symbols t : Int) = 0 := by
          have : used_symbols t = 0 := by
            unfold used_symbols
            rw [List.countP_eq_zero]
            intro x hx
            have := hall x hx
            simp [this]
          simp [this]
        rw [this] at hR1
        omega
      constructor
      · rw [getD_set_nat _ _ _ _ (by omega)]
        simp only [hms0, if_true]
        have : ((u16 (((freq0.getD ms 0 : Nat) : Int) + rem)).toNat : Int)
            = ((2 ^ n : Nat) : Int) := by rw [hv, hcastP]; omega
        rw [hms0] at this
        exact_mod_cast this
      · intro j hj
        rw [getD_set_nat _ _ _ _ (by omega)]
        have hjm : ¬ j = ms := by omega
        simp only [hjm, if_false]
        rw [hgetD j]
        by_cases hjlt : j < t.length
        · rw [hall _ (hmem j hjlt), hg0]; rfl
        · rw [List.getD_eq_default _ _ (by omega), hg0]; rfl
  · simp only [hbr, if_false]
    have hmx4 : 0 ≤ mx / 4 := Int.ediv_nonneg hmax0 (by norm_num)
    have hslack : R - 2 ^ n ≤ freq_slack freq0 := by
      unfold freq_slack
      rw [hsumfreq, husedfreq]
      omega
    obtain ⟨out, ho1, ho2, ho3⟩ := adjust_freqs_spec fuel hfuel freq0 (R - 2 ^ n) hbound
      (by omega) hslack
    have hTne : t.sum ≠ 0 := by
      intro hTz
      have hall := hzero_all hTz
      have : used_symbols t = 0 := by
        unfold used_symbols
        rw [List.countP_eq_zero]
        intro x hx
        have := hall x hx
        simp [this]
      have : (used_symbols t : Int) = 0 := by simp [this]
      rw [this] at hR1
      omega
    refine ⟨out, ho1, by rw [← ho2.length_eq, hlen], ?_, ?_, ?_, ?_⟩
    · have : ((out.sum : Nat) : Int) = ((2 ^ n : Nat) : Int) := by
        rw [ho3, hsumfreq, hcastP]; omega
      exact_mod_cast this
    · intro j hj
      have hk := forall₂_freq_kept_getD ho2 j
      apply hk.2.2
      rw [hgetD j]
      have hjlt : j < t.length := by
        by_contra hc
        rw [List.getD_eq_default _ _ (by omega)] at hj
        exact hj rfl
      have := (hround _ (Or.inl (hmem j hjlt))).2.2.2 hj
      omega
    · intro _ j hj
      have hk := forall₂_freq_kept_getD ho2 j
      apply hk.2.1
      rw [hgetD j, hj, hg0]
      rfl
    · intro hTz
      exact absurd hTz hTne


/-! ## Runs of the adjustment loop that never end -/

theorem adjust_pass_stuck (shift : Int) : ∀ (freq : List Nat) (overrun : Int),
    (∀ f ∈ freq, f ≤ 1) → fse_adjust_freqs_pass shift freq overrun = (freq, overrun) := by
  intro freq
  induction freq with
  | nil => intro overrun _; rfl
  | cons f freq ih =>
    intro overrun h
    have hf := h f (List.mem_cons_self _ _)
    unfold fse_adjust_freqs_pass
    have hgt : ¬ f > 1 := by omega
    simp only [hgt, if_false]
    rw [ih overrun (fun g hg => h g (List.mem_cons_of_mem _ hg))]

/-- When no frequency exceeds 1 and the overrun is not 0, no number of passes ends the loop of
`fse_adjust_freqs`. -/
theorem adjust_loop_stuck (freq : List Nat) (overrun : Int) (h : ∀ f ∈ freq, f ≤ 1)
    (hov : overrun ≠ 0) : ∀ (fuel : Nat) (shift : Int),
    fse_adjust_freqs_loop fuel shift freq overrun = none := by
  intro fuel
  induction fuel with
  | zero => intro shift; simp [fse_adjust_freqs_loop, hov]
  | succ fuel ih =>
    intro shift
    unfold fse_adjust_freqs_loop
    simp only [hov, if_false]
    rw [adjust_pass_stuck shift freq overrun h]
    exact ih (shift - 1)


/-! ## Unused symbols, on every input -/

/-- The rounded frequency for any shift and step: not negative, 0 for a zero count and at
least 1 for a nonzero count. -/
theorem round_general (shift step : Int) (ti : Nat) :
    0 ≤ fse_normalize_freq_round shift step ti ∧
    (ti = 0 → fse_normalize_freq_round shift step ti = 0) ∧
    (ti ≠ 0 → 1 ≤ fse_normalize_freq_round shift step ti) := by
  unfold fse_normalize_freq_round
  have h0 : 0 ≤ shr (u32 (shr (u32 ((ti : Int) * step)) shift + 1)) 1 :=
    shr_nonneg _ (by unfold u32; omega)
  have hz : ti = 0 → shr (u32 (shr (u32 ((ti : Int) * step)) shift + 1)) 1 = 0 := by
    intro h
    subst h
    simp [shr, u32]
  generalize shr (u32 (shr (u32 ((ti : Int) * step)) shift + 1)) 1 = f at h0 hz
  dsimp only
  refine ⟨?_, ?_, ?_⟩
  · split <;> omega
  · intro h
    have := hz h
    subst this
    simp [h]
  · intro h
    split <;> omega

theorem adjust_pass_zero_kept (shift : Int) : ∀ (freq : List Nat) (overrun : Int) (i : Nat),
    freq.getD i 0 = 0 → (fse_adjust_freqs_pass shift freq overrun).1.getD i 0 = 0 := by
  intro freq
  induction freq with
  | nil => intro overrun i _; simp [fse_adjust_freqs_pass]
  | cons f freq ih =>
    intro overrun i hi
    unfold fse_adjust_freqs_pass
    by_cases hgt : f > 1
    · simp only [hgt, if_true]
      cases i with
      | zero => simp at hi; omega
      | succ j =>
        simp only [List.getD_cons_succ] at hi
        generalize (if shr ((f : Int) - 1) shift > overrun then overrun
          else shr ((f : Int) - 1) shift) = nn
        by_cases hov : overrun - nn = 0
        · simp only [hov, if_true, List.getD_cons_succ]
          exact hi
        · simp only [hov, if_false, List.getD_cons_succ]
          exact ih _ j hi
    · simp only [hgt, if_false]
      cases i with
      | zero => simpa using hi
      | succ j =>
        simp only [List.getD_cons_succ] at hi
        simpa using ih _ j hi

theorem adjust_loop_zero_kept : ∀ (fuel : Nat) (shift : Int) (freq : List Nat) (overrun : Int)
    (out : List Nat), fse_adjust_freqs_loop fuel shift freq overrun = some out →
    ∀ i, freq.getD i 0 = 0 → out.getD i 0 = 0 := by
  intro fuel
  induction fuel with
  | zero =>
    intro shift freq overrun out h i hi
    unfold fse_adjust_freqs_loop at h
    split at h
    · cases h; exact hi
    · cases h
  | succ fuel ih =>
    intro shift freq overrun out h i hi
    unfold fse_adjust_freqs_loop at h
    split at h
    · cases h; exact hi
    · exact ih _ _ _ _ h i (adjust_pass_zero_kept shift freq overrun i hi)

/-- Whenever `fse_normalize_freq` returns on a histogram with some nonzero count, for any
`nstates` that is an `int`, every symbol with a zero count has frequency 0 in the output. -/
theorem normalize_unused_partial (nstates : Int) (hN0 : -2147483648 ≤ nstates)
    (hN1 : nstates < 2147483648) (t : List Nat) (fuel : Nat) (freq : List Nat)
    (h : fse_normalize_freq fuel nstates t = some freq) (hex : ∃ ti ∈ t, ti ≠ 0) :
    ∀ i, t.getD i 0 = 0 → freq.getD i 0 = 0 := by
  intro i hi
  simp only [fse_normalize_freq] at h
  generalize (clz nstates - 1) = shift at h
  generalize (if fse_normalize_freq_s_count t = 0 then (0 : Int)
    else u32 (shl 1 31) / fse_normalize_freq_s_count t) = step at h
  have hloop := normalize_loop_spec shift step t 0 nstates 0 0
    (i32_of_range hN0 hN1) _ rfl
  generalize fse_normalize_freq_loop shift step 0 nstates 0 0 t = L at hloop h
  obtain ⟨freq0, rem, mx, ms⟩ := L
  simp only at hloop h
  obtain ⟨hfreq, -, -, hmaxle, hcase⟩ := hloop
  have hg0 : (u16 (fse_normalize_freq_round shift step 0)).toNat = 0 := by
    rw [(round_general shift step 0).2.1 rfl]; rfl
  have hget : ∀ j, freq0.getD j 0
      = (u16 (fse_normalize_freq_round shift step (t.getD j 0))).toNat := by
    intro j
    rw [hfreq]
    have := List.getD_map t 0 (n := j)
      (fun ti => (u16 (fse_normalize_freq_round shift step ti)).toNat)
    simp only [hg0] at this
    exact this
  have hzero : freq0.getD i 0 = 0 := by rw [hget i, hi, hg0]
  obtain ⟨tu, htu, htu0⟩ := hex
  have hmxpos : 1 ≤ mx := le_trans ((round_general shift step tu).2.2 htu0) (hmaxle tu htu)
  have hms : ms < t.length ∧ fse_normalize_freq_round shift step (t.getD ms 0) = mx := by
    rcases hcase with ⟨hm, -⟩ | ⟨-, -, hs, hgm⟩
    · omega
    · simp only [Nat.sub_zero, zero_add] at hgm hs
      exact ⟨hs, hgm⟩
  have hlen : freq0.length = t.length := by rw [hfreq, List.length_map]
  have hne : i ≠ ms := by
    intro hc
    subst hc
    have := (round_general shift step (t.getD i 0)).2.1 hi
    omega
  split at h
  · split at h
    · cases h
      rw [getD_set_nat _ _ _ _ (by omega), if_neg hne]
      exact hzero
    · cases h
  · exact adjust_loop_zero_kept _ _ _ _ _ h i hzero


/-! ## The adjustment loop that cannot end -/

theorem used_symbols_le_sum (freq : List Nat) : used_symbols freq ≤ freq.sum := by
  induction freq with
  | nil => simp [used_symbols]
  | cons f freq ih =>
    rw [used_symbols_cons, List.sum_cons]
    split <;> omega

theorem freq_slack_nonneg (freq : List Nat) : 0 ≤ freq_slack freq := by
  unfold freq_slack
  have := used_symbols_le_sum freq
  omega

/-- When the overrun exceeds what the histogram can give without emptying a symbol, no number
of passes ends the loop of `fse_adjust_freqs`. -/
theorem adjust_loop_diverges : ∀ (fuel : Nat) (shift : Int) (freq : List Nat) (overrun : Int),
    (∀ f ∈ freq, f < 65536) → 0 ≤ overrun → freq_slack freq < overrun →
    fse_adjust_freqs_loop fuel shift freq overrun = none := by
  intro fuel
  induction fuel with
  | zero =>
    intro shift freq overrun _ _ hs
    have := freq_slack_nonneg freq
    have hne : overrun ≠ 0 := by omega
    simp [fse_adjust_freqs_loop, hne]
  | succ fuel ih =>
    intro shift freq overrun hf h0 hs
    have := freq_slack_nonneg freq
    have hne : overrun ≠ 0 := by omega
    unfold fse_adjust_freqs_loop
    simp only [hne, if_false]
    obtain ⟨h1, h2, h3, -⟩ := adjust_pass_spec shift freq overrun hf h0
    have hsl := adjust_pass_slack shift freq overrun hf h0
    exact ih _ _ _ (forall₂_freq_kept_bound h1 65536 hf) h2 (by omega)

/-! ## The decoder table on a histogram that may overflow -/

/-- The outer loop of `fse_init_decoder_table` stops at the first symbol `m` whose running sum
exceeds `nstates`: its writes and status are those of the run on the `m` symbols before it. -/
theorem decoder_loop_prefix (nstates n_clz : Int) (hN : nstates + 65535 < 2147483648) :
    ∀ (freq : List Nat) (i : Nat) (s : Int) (t : Nat), (∀ f ∈ freq, f < 65536) →
      0 ≤ s → s ≤ nstates →
      ∃ m, m ≤ freq.length ∧ s + ((freq.take m).sum : Nat) ≤ nstates ∧
        (m < freq.length → nstates < s + ((freq.take (m + 1)).sum : Nat)) ∧
        (fse_init_decoder_table_loop nstates n_clz i s t freq).2
          = (fse_init_decoder_table_loop nstates n_clz i s t (freq.take m)).2 ∧
        (fse_init_decoder_table_loop nstates n_clz i s t (freq.take m)).1 = 0 ∧
        (fse_init_decoder_table_loop nstates n_clz i s t freq).1
          = if m < freq.length then -1 else 0 := by
  intro freq
  induction freq with
  | nil =>
    intro i s t _ h0 h1
    exact ⟨0, le_rfl, by simpa using h1, by simp, rfl, rfl, by simp [fse_init_decoder_table_loop]⟩
  | cons f freq ih =>
    intro i s t hf h0 h1
    have hf0 : f < 65536 := hf f (List.mem_cons_self _ _)
    have hf1 : ∀ g ∈ freq, g < 65536 := fun g hg => hf g (List.mem_cons_of_mem _ hg)
    by_cases hz : f = 0
    · subst hz
      obtain ⟨m, hm1, hm2, hm3, hm4, hm5, hm6⟩ := ih (i + 1) s t hf1 h0 h1
      refine ⟨m + 1, by simp only [List.length_cons]; omega, ?_, ?_, ?_, ?_, ?_⟩
      · simpa using hm2
      · intro hlt
        have := hm3 (by simpa using hlt)
        simpa using this
      · simp only [List.take_succ_cons]
        unfold fse_init_decoder_table_loop
        simpa using hm4
      · simp only [List.take_succ_cons]
        unfold fse_init_decoder_table_loop
        simpa using hm5
      · unfold fse_init_decoder_table_loop
        simp only [if_true, List.length_cons, Nat.add_lt_add_iff_right]
        exact hm6
    · have hw : i32 (s + (f : Int)) = s + f := i32_of_range (by omega) (by omega)
      by_cases hgt : s + (f : Int) > nstates
      · refine ⟨0, by simp, by simpa using h1, ?_, ?_, rfl, ?_⟩
        · intro _
          simp only [zero_add, List.take_succ_cons, List.take_zero, List.sum_cons,
            List.sum_nil, add_zero]
          omega
        · unfold fse_init_decoder_table_loop
          simp only [hz, if_false, hw, hgt, if_true, List.take_zero]
        · unfold fse_init_decoder_table_loop
          simp only [hz, if_false, hw, hgt, if_true, List.length_cons, Nat.zero_lt_succ]
      · obtain ⟨m, hm1, hm2, hm3, hm4, hm5, hm6⟩ :=
          ih (i + 1) (s + f) (t + f) hf1 (by omega) (by omega)
        refine ⟨m + 1, by simp only [List.length_cons]; omega, ?_, ?_, ?_, ?_, ?_⟩
        · simp only [List.take_succ_cons, List.sum_cons, Nat.cast_add]
          omega
        · intro hlt
          have := hm3 (by simpa using hlt)
          simp only [List.take_succ_cons, List.sum_cons, Nat.cast_add] at this ⊢
          omega
        · simp only [List.take_succ_cons]
          unfold fse_init_decoder_table_loop
          simp only [hz, if_false, hw, hgt]
          rw [hm4]
        · simp only [List.take_succ_cons]
          unfold fse_init_decoder_table_loop
          simp only [hz, if_false, hw, hgt]
          exact hm5
        · unfold fse_init_decoder_table_loop
          simp only [hz, if_false, hw, hgt, List.length_cons, Nat.add_lt_add_iff_right]
          exact hm6


/-! ## Shifts and conversions on natural numbers -/

theorem shl_nat (x k : Nat) (hk : k < 32) : shl (x : Int) (k : Int) = ((x * 2 ^ k : Nat) : Int) := by
  unfold shl
  have : ((k : Int) % 32).toNat = k := by omega
  rw [this]; push_cast; rfl

theorem shr_nat (x k : Nat) (hk : k < 32) : shr (x : Int) (k : Int) = ((x / 2 ^ k : Nat) : Int) := by
  unfold shr
  have : ((k : Int) % 32).toNat = k := by omega
  rw [this]; push_cast; rfl

theorem i8_nat (x : Nat) (h : x < 128) : i8 (x : Int) = x := by
  unfold i8; omega

theorem i16_nat (x : Nat) (h : x < 32768) : i16 (x : Int) = x := by
  unfold i16; omega

theorem two_pow_split {m n : Nat} (h : m ≤ n) : 2 ^ n = 2 ^ m * 2 ^ (n - m) := by
  have hadd : m + (n - m) = n := by omega
  rw [← Nat.pow_add, hadd]

theorem log2_le_of_le_two_pow {f n : Nat} (hf0 : f ≠ 0) (hfN : f ≤ 2 ^ n) : f.log2 ≤ n := by
  by_contra hc
  have h1 : 2 ^ (n + 1) ≤ 2 ^ f.log2 := Nat.pow_le_pow_right (by decide) (by omega)
  have h2 : 2 ^ (n + 1) = 2 * 2 ^ n := by ring
  have h3 : 2 ^ f.log2 ≤ f := Nat.log2_self_le hf0
  omega

/-- The shift and threshold of a symbol of frequency `f` for `2^n` states, `n ≤ 15`, with
`m` the position of the highest set bit of `f`: `k = n - m` and `j0 = 2^(m+1) - f`. -/
theorem decoder_shift_threshold (n : Nat) (hn : n ≤ 15) (f : Nat) (hf0 : f ≠ 0)
    (hfN : f ≤ 2 ^ n) :
    clz (f : Int) - clz ((2 : Int) ^ n) = ((n - f.log2 : Nat) : Int) ∧
    shr (i32 (2 * (2 : Int) ^ n)) ((n - f.log2 : Nat) : Int) - (f : Int)
      = ((2 ^ (f.log2 + 1) : Nat) : Int) - (f : Int) := by
  have hmn := log2_le_of_le_two_pow hf0 hfN
  have hm1 : 2 ^ f.log2 ≤ f := Nat.log2_self_le hf0
  have hm2 : f < 2 ^ (f.log2 + 1) := Nat.lt_log2_self
  have hpn : 2 ^ n ≤ 2 ^ 15 := Nat.pow_le_pow_right (by decide) hn
  have hcf : clz (f : Int) = ((31 - f.log2 : Nat) : Int) := by
    rw [clz_of_nat f (by omega), clz32_of_log hm1 hm2 (by omega)]
  have hcn : clz ((2 : Int) ^ n) = ((31 - n : Nat) : Int) := by
    rw [clz_two_pow n (by omega)]; omega
  refine ⟨by rw [hcf, hcn]; omega, ?_⟩
  have hcast : (2 * (2 : Int) ^ n) = ((2 * 2 ^ n : Nat) : Int) := by push_cast; rfl
  rw [hcast, i32_of_range (by omega) (by omega), shr_nat _ _ (by omega)]
  have hdiv : 2 * 2 ^ n / 2 ^ (n - f.log2) = 2 ^ (f.log2 + 1) := by
    have h1 : 2 * 2 ^ n = 2 ^ (f.log2 + 1) * 2 ^ (n - f.log2) := by
      rw [Nat.pow_succ, Nat.mul_comm (2 ^ f.log2) 2, Nat.mul_assoc, ← two_pow_split hmn]
    rw [h1]
    exact Nat.mul_div_cancel _ (Nat.pow_pos (by decide))
  rw [hdiv]

/-- The decoder entry of a state `j` below the threshold: it reads `k = n - m` bits and its
`delta` is `(f + j) * 2^k - 2^n`, which is not negative. -/
theorem decoder_entry_low (n : Nat) (hn : n ≤ 15) (i f j : Nat) (hf0 : f ≠ 0)
    (hfN : f ≤ 2 ^ n) (hj : f + j < 2 ^ (f.log2 + 1)) :
    2 ^ n ≤ (f + j) * 2 ^ (n - f.log2) ∧
    (f + j) * 2 ^ (n - f.log2) + 2 ^ (n - f.log2) ≤ 2 * 2 ^ n ∧
    fse_init_decoder_table_entry (2 ^ n) (clz (2 ^ n)) i f j
      = { k := ((n - f.log2 : Nat) : Int), symbol := i % 256,
          delta := (((f + j) * 2 ^ (n - f.log2) - 2 ^ n : Nat) : Int) } := by
  have hmn := log2_le_of_le_two_pow hf0 hfN
  have hm1 : 2 ^ f.log2 ≤ f := Nat.log2_self_le hf0
  have hpn : 2 ^ n ≤ 2 ^ 15 := Nat.pow_le_pow_right (by decide) hn
  have hpos : 0 < 2 ^ (n - f.log2) := Nat.pow_pos (by decide)
  have hlo : 2 ^ n ≤ (f + j) * 2 ^ (n - f.log2) := by
    calc 2 ^ n = 2 ^ f.log2 * 2 ^ (n - f.log2) := two_pow_split hmn
      _ ≤ (f + j) * 2 ^ (n - f.log2) := Nat.mul_le_mul_right _ (by omega)
  have hhi : (f + j) * 2 ^ (n - f.log2) + 2 ^ (n - f.log2) ≤ 2 * 2 ^ n := by
    have h2 : 2 ^ (f.log2 + 1) * 2 ^ (n - f.log2) = 2 * 2 ^ n := by
      rw [Nat.pow_succ, Nat.mul_comm (2 ^ f.log2) 2, Nat.mul_assoc, ← two_pow_split hmn]
    have h3 : (f + j + 1) * 2 ^ (n - f.log2) ≤ 2 ^ (f.log2 + 1) * 2 ^ (n - f.log2) :=
      Nat.mul_le_mul_right _ hj
    rw [Nat.add_mul (f + j) 1, Nat.one_mul, h2] at h3
    exact h3
  refine ⟨hlo, hhi, ?_⟩
  obtain ⟨hk, hj0⟩ := decoder_shift_threshold n hn f hf0 hfN
  unfold fse_init_decoder_table_entry
  simp only [hk, hj0]
  have hcond : (j : Int) < ((2 ^ (f.log2 + 1) : Nat) : Int) - (f : Int) := by omega
  rw [if_pos hcond]
  have hsum : ((f : Int) + (j : Int)) = ((f + j : Nat) : Int) := by push_cast; rfl
  have hN : ((2 : Int) ^ n) = ((2 ^ n : Nat) : Int) := by push_cast; rfl
  rw [hsum, shl_nat _ _ (by omega), i8_nat _ (by omega), hN]
  have hd : i16 ((((f + j) * 2 ^ (n - f.log2) : Nat) : Int) - ((2 ^ n : Nat) : Int))
      = ((((f + j) * 2 ^ (n - f.log2) - 2 ^ n : Nat)) : Int) := by
    unfold i16; omega
  rw [hd]

/-- The decoder entry of a state `j` at or above the threshold: the shift `k = n - m` is at
least 1, the entry reads `k - 1` bits and its `delta` is `(f + j - 2^(m+1)) * 2^(k-1)`. -/
theorem decoder_entry_high (n : Nat) (hn : n ≤ 15) (i f j : Nat) (hf0 : f ≠ 0)
    (hfN : f ≤ 2 ^ n) (hj : 2 ^ (f.log2 + 1) ≤ f + j) (hjf : j < f) :
    f.log2 < n ∧
    (f + j - 2 ^ (f.log2 + 1)) * 2 ^ (n - f.log2 - 1) + 2 ^ (n - f.log2 - 1) + 2 ^ n
      ≤ f * 2 ^ (n - f.log2) ∧
    f * 2 ^ (n - f.log2) < 2 * 2 ^ n ∧
    fse_init_decoder_table_entry (2 ^ n) (clz (2 ^ n)) i f j
      = { k := ((n - f.log2 - 1 : Nat) : Int), symbol := i % 256,
          delta := (((f + j - 2 ^ (f.log2 + 1)) * 2 ^ (n - f.log2 - 1) : Nat) : Int) } := by
  have hmn := log2_le_of_le_two_pow hf0 hfN
  have hm1 : 2 ^ f.log2 ≤ f := Nat.log2_self_le hf0
  have hm2 : f < 2 ^ (f.log2 + 1) := Nat.lt_log2_self
  have hpn : 2 ^ n ≤ 2 ^ 15 := Nat.pow_le_pow_right (by decide) hn
  have hsucc : 2 ^ (f.log2 + 1) = 2 * 2 ^ f.log2 := by rw [Nat.pow_succ, Nat.mul_comm]
  have hlt : f.log2 < n := by
    by_contra hc
    have hmn' : f.log2 = n := by omega
    rw [hmn'] at hm1 hsucc hj
    omega
  have hK : n - f.log2 = (n - f.log2 - 1) + 1 := by omega
  have hP : 2 ^ (n - f.log2) = 2 * 2 ^ (n - f.log2 - 1) := by
    conv_lhs => rw [hK]
    rw [Nat.pow_succ, Nat.mul_comm]
  have hN : 2 ^ n = 2 ^ (f.log2 + 1) * 2 ^ (n - f.log2 - 1) := by
    have := two_pow_split (show f.log2 + 1 ≤ n by omega)
    have h2 : n - (f.log2 + 1) = n - f.log2 - 1 := by omega
    rw [h2] at this
    exact this
  have hbound : (f + j - 2 ^ (f.log2 + 1) + 1) * 2 ^ (n - f.log2 - 1) + 2 ^ n
      ≤ f * 2 ^ (n - f.log2) := by
    have h1 : (f + j - 2 ^ (f.log2 + 1) + 1) + 2 ^ (f.log2 + 1) ≤ 2 * f := by omega
    calc (f + j - 2 ^ (f.log2 + 1) + 1) * 2 ^ (n - f.log2 - 1) + 2 ^ n
        = ((f + j - 2 ^ (f.log2 + 1) + 1) + 2 ^ (f.log2 + 1)) * 2 ^ (n - f.log2 - 1) := by
          rw [Nat.add_mul _ (2 ^ (f.log2 + 1)), ← hN]
      _ ≤ (2 * f) * 2 ^ (n - f.log2 - 1) := Nat.mul_le_mul_right _ h1
      _ = f * 2 ^ (n - f.log2) := by rw [hP]; ring
  have hfhi : f * 2 ^ (n - f.log2) < 2 * 2 ^ n := by
    have h2 : 2 ^ (f.log2 + 1) * 2 ^ (n - f.log2) = 2 * 2 ^ n := by
      rw [Nat.pow_succ, Nat.mul_comm (2 ^ f.log2) 2, Nat.mul_assoc, ← two_pow_split hmn]
    exact lt_of_lt_of_eq (Nat.mul_lt_mul_of_pos_right hm2 (Nat.pow_pos (by decide))) h2
  rw [Nat.add_mul _ 1, Nat.one_mul] at hbound
  refine ⟨hlt, hbound, hfhi, ?_⟩
  obtain ⟨hk, hj0⟩ := decoder_shift_threshold n hn f hf0 hfN
  unfold fse_init_decoder_table_entry
  simp only [hk, hj0]
  have hcond : ¬ (j : Int) < ((2 ^ (f.log2 + 1) : Nat) : Int) - (f : Int) := by omega
  rw [if_neg hcond]
  have hk1 : (((n - f.log2 : Nat) : Int) - 1) = ((n - f.log2 - 1 : Nat) : Int) := by omega
  have hjj : ((j : Int) - (((2 ^ (f.log2 + 1) : Nat) : Int) - (f : Int)))
      = ((f + j - 2 ^ (f.log2 + 1) : Nat) : Int) := by omega
  rw [hk1, hjj, shl_nat _ _ (by omega), i8_nat _ (by omega)]
  have hd : ((f + j - 2 ^ (f.log2 + 1)) * 2 ^ (n - f.log2 - 1)) < 32768 := by
    omega
  rw [i16_nat _ hd]


/-! ## The entries of the decoder table -/

theorem decoder_symbol_mem (nstates n_clz : Int) (i f t : Nat) (w : Nat × fse_decoder_entry) :
    w ∈ fse_init_decoder_table_symbol nstates n_clz i f t ↔
      ∃ j, j < f ∧ w = (t + j, fse_init_decoder_table_entry nstates n_clz i f j) := by
  unfold fse_init_decoder_table_symbol fse_init_decoder_table_entry
  simp only [List.mem_map, List.mem_range]
  constructor
  · rintro ⟨j, hj, rfl⟩
    exact ⟨j, hj, rfl⟩
  · rintro ⟨j, hj, rfl⟩
    exact ⟨j, hj, rfl⟩

/-- The writes of the decoder table loop on a histogram that fits: the write `j` of symbol `d`
goes to the slot `t + freq[0] + ... + freq[d-1] + j` and holds the entry of that state. -/
theorem decoder_loop_mem (nstates n_clz : Int) (hN : nstates < 2147483648) :
    ∀ (freq : List Nat) (i : Nat) (s : Int) (t : Nat), 0 ≤ s →
      s + (freq.sum : Nat) ≤ nstates →
      ∀ w, w ∈ (fse_init_decoder_table_loop nstates n_clz i s t freq).2 ↔
        ∃ d j, d < freq.length ∧ j < freq.getD d 0 ∧
          w = (t + (freq.take d).sum + j,
            fse_init_decoder_table_entry nstates n_clz (i + d) (freq.getD d 0) j) := by
  intro freq
  induction freq with
  | nil =>
    intro i s t _ _ w
    simp [fse_init_decoder_table_loop]
  | cons f freq ih =>
    intro i s t hs hsum w
    have hsum2 : s + (f : Int) + (freq.sum : Nat) ≤ nstates := by
      have : ((f :: freq).sum : Nat) = f + freq.sum := List.sum_cons
      rw [this, Nat.cast_add] at hsum; omega
    unfold fse_init_decoder_table_loop
    by_cases hf : f = 0
    · rw [if_pos hf]
      subst hf
      rw [ih (i + 1) s t hs (by simpa using hsum2)]
      constructor
      · rintro ⟨d, j, hd, hj, rfl⟩
        refine ⟨d + 1, j, by simpa using hd, by simpa using hj, ?_⟩
        simp only [List.take_succ_cons, List.sum_cons, List.getD_cons_succ, Nat.zero_add]
        rw [Nat.add_assoc i 1 d, Nat.add_comm 1 d]
      · rintro ⟨d, j, hd, hj, rfl⟩
        cases d with
        | zero => simp at hj
        | succ d =>
          refine ⟨d, j, by simpa using hd, by simpa using hj, ?_⟩
          simp only [List.take_succ_cons, List.sum_cons, List.getD_cons_succ, Nat.zero_add]
          rw [Nat.add_assoc i 1 d, Nat.add_comm 1 d]
    · rw [if_neg hf]
      have hi : i32 (s + (f : Int)) = s + f := i32_of_range (by omega) (by omega)
      have hgt : ¬ (i32 (s + (f : Int)) > nstates) := by rw [hi]; omega
      simp only [hgt, if_false, List.mem_append, decoder_symbol_mem]
      rw [hi, ih (i + 1) (s + f) (t + f) (by omega) hsum2]
      constructor
      · rintro (⟨j, hj, rfl⟩ | ⟨d, j, hd, hj, rfl⟩)
        · exact ⟨0, j, by simp, by simpa using hj, by simp⟩
        · refine ⟨d + 1, j, by simpa using hd, by simpa using hj, ?_⟩
          simp only [List.take_succ_cons, List.sum_cons, List.getD_cons_succ]
          rw [Nat.add_assoc i 1 d, Nat.add_comm 1 d, Nat.add_assoc t f]
      · rintro ⟨d, j, hd, hj, rfl⟩
        cases d with
        | zero =>
          left
          exact ⟨j, by simpa using hj, by simp⟩
        | succ d =>
          right
          refine ⟨d, j, by simpa using hd, by simpa using hj, ?_⟩
          simp only [List.take_succ_cons, List.sum_cons, List.getD_cons_succ]
          rw [Nat.add_assoc i 1 d, Nat.add_comm 1 d, Nat.add_assoc t f]

/-- The writes of `fse_init_decoder_table` on a histogram that fits. -/
theorem decoder_table_mem (nstates : Int) (hN : nstates < 2147483648) (freq : List Nat)
    (hsum : ((freq.sum : Nat) : Int) ≤ nstates) (w : Nat × fse_decoder_entry) :
    w ∈ (fse_init_decoder_table nstates freq).2 ↔
      ∃ d j, d < freq.length ∧ j < freq.getD d 0 ∧
        w = ((freq.take d).sum + j,
          fse_init_decoder_table_entry nstates (clz nstates) d (freq.getD d 0) j) := by
  unfold fse_init_decoder_table
  rw [decoder_loop_mem nstates (clz nstates) hN freq 0 0 0 le_rfl (by omega)]
  simp only [Nat.zero_add]

theorem getD_le_sum : ∀ (freq : List Nat) (d : Nat), freq.getD d 0 ≤ freq.sum
  | [], d => by simp
  | f :: freq, 0 => by simp
  | f :: freq, d + 1 => by
    have := getD_le_sum freq d
    simp only [List.getD_cons_succ, List.sum_cons]
    omega

theorem take_sum_add_getD_le : ∀ (freq : List Nat) (d : Nat),
    (freq.take d).sum + freq.getD d 0 ≤ freq.sum
  | [], d => by simp
  | f :: freq, 0 => by simp
  | f :: freq, d + 1 => by
    have := take_sum_add_getD_le freq d
    simp only [List.take_succ_cons, List.getD_cons_succ, List.sum_cons]
    omega


/-! ## The next states of a decoder entry -/

theorem two_pow_cast (k : Nat) : ((2 : Int) ^ k) = ((2 ^ k : Nat) : Int) := by
  push_cast; rfl

/-- Every next state `delta + b` of the entry of state `j` of a symbol of frequency `f` lies
in `[0, 2^n)`, for `2^n` states with `n ≤ 15`. -/
theorem decoder_entry_range (n : Nat) (hn : n ≤ 15) (i f j : Nat) (hf0 : f ≠ 0)
    (hfN : f ≤ 2 ^ n) (hjf : j < f) :
    0 ≤ (fse_init_decoder_table_entry (2 ^ n) (clz (2 ^ n)) i f j).k ∧
    (fse_init_decoder_table_entry (2 ^ n) (clz (2 ^ n)) i f j).k ≤ 15 ∧
    (fse_init_decoder_table_entry (2 ^ n) (clz (2 ^ n)) i f j).symbol = i % 256 ∧
    ∀ b : Int, 0 ≤ b →
      b < 2 ^ (fse_init_decoder_table_entry (2 ^ n) (clz (2 ^ n)) i f j).k.toNat →
      0 ≤ (fse_init_decoder_table_entry (2 ^ n) (clz (2 ^ n)) i f j).delta + b ∧
      (fse_init_decoder_table_entry (2 ^ n) (clz (2 ^ n)) i f j).delta + b < 2 ^ n := by
  by_cases hj : f + j < 2 ^ (f.log2 + 1)
  · obtain ⟨h1, h2, he⟩ := decoder_entry_low n hn i f j hf0 hfN hj
    rw [he]
    refine ⟨by simp, by simp only []; omega, rfl, ?_⟩
    intro b hb0 hb
    simp only [Int.toNat_ofNat] at hb
    rw [two_pow_cast] at hb
    rw [two_pow_cast n]
    simp only []
    omega
  · obtain ⟨h0, h1, h2, he⟩ := decoder_entry_high n hn i f j hf0 hfN (by omega) hjf
    rw [he]
    refine ⟨by simp, by simp only []; omega, rfl, ?_⟩
    intro b hb0 hb
    simp only [Int.toNat_ofNat] at hb
    rw [two_pow_cast] at hb
    rw [two_pow_cast n]
    simp only []
    omega

/-! ## The value decoder table, slot by slot -/

theorem value_symbol_matches (nstates n_clz : Int) (symbol_vbits : Nat → Nat)
    (symbol_vbase : Nat → Int) (i f t : Nat) :
    List.Forall₂ value_entry_matches
      (fse_init_value_decoder_table_symbol nstates n_clz symbol_vbits symbol_vbase i f t)
      (fse_init_decoder_table_symbol nstates n_clz i f t) := by
  unfold fse_init_value_decoder_table_symbol fse_init_decoder_table_symbol
  simp only [List.forall₂_map_left_iff, List.forall₂_map_right_iff]
  apply List.forall₂_same.2
  intro j _
  unfold value_entry_matches
  refine ⟨rfl, ?_, ?_⟩
  · split <;> rfl
  · split
    · simp only []
      unfold u8 i8; omega
    · simp only []
      unfold u8 i8; omega

theorem value_loop_matches (nstates n_clz : Int) (symbol_vbits : Nat → Nat)
    (symbol_vbase : Nat → Int) (hN : nstates < 2147483648) :
    ∀ (freq : List Nat) (i : Nat) (s : Int) (t : Nat), 0 ≤ s →
      s + (freq.sum : Nat) ≤ nstates →
      List.Forall₂ value_entry_matches
        (fse_init_value_decoder_table_loop nstates n_clz symbol_vbits symbol_vbase i t freq)
        (fse_init_decoder_table_loop nstates n_clz i s t freq).2 := by
  intro freq
  induction freq with
  | nil =>
    intro i s t _ _
    simp [fse_init_value_decoder_table_loop, fse_init_decoder_table_loop]
  | cons f freq ih =>
    intro i s t hs hsum
    have hsum2 : s + (f : Int) + (freq.sum : Nat) ≤ nstates := by
      have : ((f :: freq).sum : Nat) = f + freq.sum := List.sum_cons
      rw [this, Nat.cast_add] at hsum; omega
    unfold fse_init_value_decoder_table_loop fse_init_decoder_table_loop
    by_cases hf : f = 0
    · rw [if_pos hf, if_pos hf]
      subst hf
      exact ih (i + 1) s t hs (by simpa using hsum2)
    · rw [if_neg hf, if_neg hf]
      have hi : i32 (s + (f : Int)) = s + f := i32_of_range (by omega) (by omega)
      have hgt : ¬ (i32 (s + (f : Int)) > nstates) := by rw [hi]; omega
      simp only [hgt, if_false]
      rw [hi]
      exact List.rel_append (value_symbol_matches nstates n_clz symbol_vbits symbol_vbase i f t)
        (ih (i + 1) (s + f) (t + f) (by omega) hsum2)

theorem forall₂_mem_left {α β : Type} {R : α → β → Prop} {l1 : List α} {l2 : List β}
    (h : List.Forall₂ R l1 l2) : ∀ a ∈ l1, ∃ b ∈ l2, R a b := by
  induction h with
  | nil => intro a ha; simp at ha
  | @cons x y l1 l2 hxy _ ih =>
    intro a ha
    rcases List.mem_cons.1 ha with rfl | ha
    · exact ⟨y, List.mem_cons_self _ _, hxy⟩
    · obtain ⟨b, hb, hab⟩ := ih a ha
      exact ⟨b, List.mem_cons_of_mem _ hb, hab⟩


/-! ## The encoder entry in closed form -/

theorem encoder_offset_sum : ∀ (freq : List Nat) (o : Int) (d : Nat), 0 ≤ o →
    o + (freq.sum : Nat) < 2147483648 →
    fse_init_encoder_table_offset o freq d = o + ((freq.take d).sum : Nat)
  | _, o, 0, _, _ => by simp [fse_init_encoder_table_offset]
  | [], o, d + 1, _, _ => by simp [fse_init_encoder_table_offset]
  | f :: freq, o, d + 1, h0, h1 => by
    have hs : ((f :: freq).sum : Nat) = f + freq.sum := List.sum_cons
    rw [hs, Nat.cast_add] at h1
    have ht : (((f :: freq).take (d + 1)).sum : Nat) = f + (freq.take d).sum := by
      simp only [List.take_succ_cons, List.sum_cons]
    rw [ht, Nat.cast_add]
    unfold fse_init_encoder_table_offset
    by_cases hf : f = 0
    · subst hf
      rw [if_pos rfl, encoder_offset_sum freq o d h0 (by omega)]
      omega
    · rw [if_neg hf]
      have hi : i32 (o + (f : Int)) = o + f := i32_of_range (by omega) (by omega)
      rw [hi, encoder_offset_sum freq (o + f) d (by omega) (by omega)]
      omega

/-- The encoder entry of a symbol of frequency `f` at offset `o`, for `2^n` states with
`n ≤ 15`, `m` being the position of the highest set bit of `f`: `k = n - m`,
`s0 = f * 2^k - 2^n`, `delta0 = o - f + 2^m`, and `delta1 = o - f + 2^(m+1)` when `f` is not
a power of two. -/
theorem encoder_entry_closed (n : Nat) (hn : n ≤ 15) (o f : Nat) (hf0 : f ≠ 0)
    (hoN : o + f ≤ 2 ^ n) :
    (fse_init_encoder_table_entry (2 ^ n) (clz (2 ^ n)) (o : Int) f).k
      = ((n - f.log2 : Nat) : Int) ∧
    (fse_init_encoder_table_entry (2 ^ n) (clz (2 ^ n)) (o : Int) f).s0
      = ((f * 2 ^ (n - f.log2) - 2 ^ n : Nat) : Int) ∧
    2 ^ n ≤ f * 2 ^ (n - f.log2) ∧
    (fse_init_encoder_table_entry (2 ^ n) (clz (2 ^ n)) (o : Int) f).delta0
      = (o : Int) - (f : Int) + ((2 ^ f.log2 : Nat) : Int) ∧
    (2 ^ f.log2 < f →
      (fse_init_encoder_table_entry (2 ^ n) (clz (2 ^ n)) (o : Int) f).delta1
        = (o : Int) - (f : Int) + ((2 ^ (f.log2 + 1) : Nat) : Int)) := by
  have hfN : f ≤ 2 ^ n := by omega
  have hmn := log2_le_of_le_two_pow hf0 hfN
  have hm1 : 2 ^ f.log2 ≤ f := Nat.log2_self_le hf0
  have hm2 : f < 2 ^ (f.log2 + 1) := Nat.lt_log2_self
  have hpn : 2 ^ n ≤ 2 ^ 15 := Nat.pow_le_pow_right (by decide) hn
  have hsucc : 2 ^ (f.log2 + 1) = 2 * 2 ^ f.log2 := by rw [Nat.pow_succ, Nat.mul_comm]
  have hpos : 0 < 2 ^ (n - f.log2) := Nat.pow_pos (by decide)
  have hsplit := two_pow_split hmn
  have hlo : 2 ^ n ≤ f * 2 ^ (n - f.log2) := by
    rw [hsplit]; exact Nat.mul_le_mul_right _ hm1
  have hhi : f * 2 ^ (n - f.log2) < 2 * 2 ^ n := by
    have h2 : 2 ^ (f.log2 + 1) * 2 ^ (n - f.log2) = 2 * 2 ^ n := by
      rw [Nat.pow_succ, Nat.mul_comm (2 ^ f.log2) 2, Nat.mul_assoc, ← hsplit]
    exact lt_of_lt_of_eq (Nat.mul_lt_mul_of_pos_right hm2 hpos) h2
  have hk := (decoder_shift_threshold n hn f hf0 hfN).1
  have hdiv0 : 2 ^ n / 2 ^ (n - f.log2) = 2 ^ f.log2 := by
    conv_lhs => rw [hsplit]
    exact Nat.mul_div_cancel _ hpos
  unfold fse_init_encoder_table_entry
  simp only [hk]
  rw [two_pow_cast n]
  refine ⟨?_, ?_, hlo, ?_, ?_⟩
  · exact i16_nat _ (by omega)
  · rw [shl_nat _ _ (by omega)]
    unfold i16; omega
  · rw [shr_nat _ _ (by omega), hdiv0]
    unfold i16; omega
  · intro hlt
    have hmlt : f.log2 < n := by
      by_contra hc
      have hmn' : f.log2 = n := by omega
      rw [hmn'] at hlt
      omega
    have hk1 : (((n - f.log2 : Nat) : Int) - 1) = ((n - f.log2 - 1 : Nat) : Int) := by omega
    have hN : 2 ^ n = 2 ^ (f.log2 + 1) * 2 ^ (n - f.log2 - 1) := by
      have := two_pow_split (show f.log2 + 1 ≤ n by omega)
      have h2 : n - (f.log2 + 1) = n - f.log2 - 1 := by omega
      rw [h2] at this
      exact this
    have hdiv1 : 2 ^ n / 2 ^ (n - f.log2 - 1) = 2 ^ (f.log2 + 1) := by
      conv_lhs => rw [hN]
      exact Nat.mul_div_cancel _ (Nat.pow_pos (by decide))
    rw [hk1, shr_nat _ _ (by omega), hdiv1]
    unfold i16; omega

/-- The encoder entry of symbol `d` of a histogram that sums to at most `2^n`: it is the
entry built at the offset `freq[0] + ... + freq[d-1]`. -/
theorem encoder_table_at (n : Nat) (hn : n ≤ 15) (freq : List Nat) (hsum : freq.sum ≤ 2 ^ n)
    (t : Nat → fse_encoder_entry) (d : Nat) (hd : freq.getD d 0 ≠ 0) :
    fse_init_encoder_table (2 ^ n) freq t d
      = fse_init_encoder_table_entry (2 ^ n) (clz (2 ^ n)) (((freq.take d).sum : Nat) : Int)
          (freq.getD d 0) := by
  have hpn : 2 ^ n ≤ 2 ^ 15 := Nat.pow_le_pow_right (by decide) hn
  unfold fse_init_encoder_table
  have hc : ¬ (d < 0 ∨ freq.getD (d - 0) 0 = 0) := by
    rintro (h | h)
    · omega
    · exact hd h
  rw [encoder_loop_at, if_neg hc, Nat.sub_zero,
    encoder_offset_sum freq 0 d le_rfl (by omega), Int.zero_add]


/-! ## The encoder entry maps the next states of a decoder entry back to its slot -/

theorem nat_div_of_bounds (q p b : Nat) (hb : b < p) : (q * p + b) / p = q :=
  Nat.div_eq_of_lt_le (by omega) (by rw [Nat.succ_mul]; omega)

theorem encoder_inverts_entry (n : Nat) (hn : n ≤ 15) (i o f j : Nat) (hf0 : f ≠ 0)
    (hoN : o + f ≤ 2 ^ n) (hjf : j < f) (b : Int) (hb0 : 0 ≤ b)
    (hb : b < 2 ^ (fse_init_decoder_table_entry (2 ^ n) (clz (2 ^ n)) i f j).k.toNat) :
    ((fse_init_encoder_table_entry (2 ^ n) (clz (2 ^ n)) (o : Int) f).s0
        ≤ (fse_init_decoder_table_entry (2 ^ n) (clz (2 ^ n)) i f j).delta + b ↔
      (fse_init_decoder_table_entry (2 ^ n) (clz (2 ^ n)) i f j).k
        = (fse_init_encoder_table_entry (2 ^ n) (clz (2 ^ n)) (o : Int) f).k) ∧
    ((fse_init_encoder_table_entry (2 ^ n) (clz (2 ^ n)) (o : Int) f).s0
        ≤ (fse_init_decoder_table_entry (2 ^ n) (clz (2 ^ n)) i f j).delta + b →
      (fse_init_encoder_table_entry (2 ^ n) (clz (2 ^ n)) (o : Int) f).delta0
        + shr ((fse_init_decoder_table_entry (2 ^ n) (clz (2 ^ n)) i f j).delta + b)
            (fse_init_encoder_table_entry (2 ^ n) (clz (2 ^ n)) (o : Int) f).k
        = ((o + j : Nat) : Int)) ∧
    ((fse_init_decoder_table_entry (2 ^ n) (clz (2 ^ n)) i f j).delta + b
        < (fse_init_encoder_table_entry (2 ^ n) (clz (2 ^ n)) (o : Int) f).s0 →
      (fse_init_encoder_table_entry (2 ^ n) (clz (2 ^ n)) (o : Int) f).delta1
        + shr ((fse_init_decoder_table_entry (2 ^ n) (clz (2 ^ n)) i f j).delta + b)
            ((fse_init_encoder_table_entry (2 ^ n) (clz (2 ^ n)) (o : Int) f).k - 1)
        = ((o + j : Nat) : Int)) := by
  have hfN : f ≤ 2 ^ n := by omega
  have hmn := log2_le_of_le_two_pow hf0 hfN
  have hm1 : 2 ^ f.log2 ≤ f := Nat.log2_self_le hf0
  have hsucc : 2 ^ (f.log2 + 1) = 2 * 2 ^ f.log2 := by rw [Nat.pow_succ, Nat.mul_comm]
  obtain ⟨hek, hes0, hlo, hed0, hed1⟩ := encoder_entry_closed n hn o f hf0 hoN
  obtain ⟨bn, rfl⟩ : ∃ bn : Nat, b = bn := ⟨b.toNat, by omega⟩
  by_cases hj : f + j < 2 ^ (f.log2 + 1)
  · obtain ⟨h1, h2, he⟩ := decoder_entry_low n hn i f j hf0 hfN hj
    rw [he] at hb ⊢
    simp only [Int.toNat_ofNat] at hb
    rw [two_pow_cast] at hb
    have hmono : f * 2 ^ (n - f.log2) ≤ (f + j) * 2 ^ (n - f.log2) :=
      Nat.mul_le_mul_right _ (by omega)
    simp only []
    rw [hek, hes0, hed0]
    have hs : ((((f + j) * 2 ^ (n - f.log2) - 2 ^ n : Nat) : Int) + (bn : Int))
        = (((f + j - 2 ^ f.log2) * 2 ^ (n - f.log2) + bn : Nat) : Int) := by
      rw [Nat.sub_mul, ← two_pow_split hmn]; push_cast; rfl
    refine ⟨⟨fun _ => rfl, fun _ => by omega⟩, fun _ => ?_, fun hlt => by omega⟩
    rw [hs, shr_nat _ _ (by omega), nat_div_of_bounds _ _ _ (by omega)]
    omega
  · obtain ⟨h0, h1, h2, he⟩ := decoder_entry_high n hn i f j hf0 hfN (by omega) hjf
    rw [he] at hb ⊢
    simp only [Int.toNat_ofNat] at hb
    rw [two_pow_cast] at hb
    simp only []
    rw [hek, hes0, hed1 (by omega)]
    have hk1 : (((n - f.log2 : Nat) : Int) - 1) = ((n - f.log2 - 1 : Nat) : Int) := by omega
    have hs : ((((f + j - 2 ^ (f.log2 + 1)) * 2 ^ (n - f.log2 - 1) : Nat) : Int) + (bn : Int))
        = (((f + j - 2 ^ (f.log2 + 1)) * 2 ^ (n - f.log2 - 1) + bn : Nat) : Int) := by
      push_cast; rfl
    refine ⟨⟨fun hle => by omega, fun heq => by omega⟩, fun hle => by omega, fun _ => ?_⟩
    rw [hk1, hs, shr_nat _ _ (by omega), nat_div_of_bounds _ _ _ (by omega)]
    omega


/-! ## The intervals of next states of one symbol -/

/-- Every state below `2^n` is a next state of some entry of a symbol of frequency `f`. -/
theorem decoder_entry_covers (n : Nat) (hn : n ≤ 15) (i f : Nat) (hf0 : f ≠ 0)
    (hfN : f ≤ 2 ^ n) (s : Nat) (hs : s < 2 ^ n) :
    ∃ j, j < f ∧
      in_state_interval (fse_init_decoder_table_entry (2 ^ n) (clz (2 ^ n)) i f j) (s : Int) := by
  have hmn := log2_le_of_le_two_pow hf0 hfN
  have hm1 : 2 ^ f.log2 ≤ f := Nat.log2_self_le hf0
  have hm2 : f < 2 ^ (f.log2 + 1) := Nat.lt_log2_self
  have hsucc : 2 ^ (f.log2 + 1) = 2 * 2 ^ f.log2 := by rw [Nat.pow_succ, Nat.mul_comm]
  have hpos : 0 < 2 ^ (n - f.log2) := Nat.pow_pos (by decide)
  have hsplit := two_pow_split hmn
  have h2N : 2 ^ (f.log2 + 1) * 2 ^ (n - f.log2) = 2 * 2 ^ n := by
    rw [Nat.pow_succ, Nat.mul_comm (2 ^ f.log2) 2, Nat.mul_assoc, ← hsplit]
  by_cases hc : f * 2 ^ (n - f.log2) ≤ s + 2 ^ n
  · have hq1 : f ≤ (s + 2 ^ n) / 2 ^ (n - f.log2) := (Nat.le_div_iff_mul_le hpos).2 hc
    have hq2 : (s + 2 ^ n) / 2 ^ (n - f.log2) < 2 ^ (f.log2 + 1) :=
      (Nat.div_lt_iff_lt_mul hpos).2 (by rw [h2N]; omega)
    have hq3 := Nat.div_mul_le_self (s + 2 ^ n) (2 ^ (n - f.log2))
    have hq4 := Nat.lt_div_mul_add (a := s + 2 ^ n) hpos
    generalize (s + 2 ^ n) / 2 ^ (n - f.log2) = q at hq1 hq2 hq3 hq4
    have hfj : f + (q - f) = q := by omega
    obtain ⟨h1, h2, he⟩ := decoder_entry_low n hn i f (q - f) hf0 hfN (by omega)
    refine ⟨q - f, by omega, ?_⟩
    unfold in_state_interval
    rw [he]
    simp only [Int.toNat_ofNat]
    rw [two_pow_cast, hfj]
    rw [hfj] at h1 h2
    omega
  · have hlt : f.log2 < n := by
      by_contra hcc
      have hmn' : n - f.log2 = 0 := by omega
      rw [hmn', Nat.pow_zero, Nat.mul_one] at hc
      omega
    have hpos1 : 0 < 2 ^ (n - f.log2 - 1) := Nat.pow_pos (by decide)
    have hK : n - f.log2 = (n - f.log2 - 1) + 1 := by omega
    have hP : 2 ^ (n - f.log2) = 2 * 2 ^ (n - f.log2 - 1) := by
      conv_lhs => rw [hK]
      rw [Nat.pow_succ, Nat.mul_comm]
    have hN : 2 ^ n = 2 ^ (f.log2 + 1) * 2 ^ (n - f.log2 - 1) := by
      have := two_pow_split (show f.log2 + 1 ≤ n by omega)
      have h2 : n - (f.log2 + 1) = n - f.log2 - 1 := by omega
      rw [h2] at this
      exact this
    have hfP : f * 2 ^ (n - f.log2) = (2 * f) * 2 ^ (n - f.log2 - 1) := by
      rw [hP]; ring
    have hq1 : s / 2 ^ (n - f.log2 - 1) < 2 * f - 2 ^ (f.log2 + 1) := by
      apply (Nat.div_lt_iff_lt_mul hpos1).2
      rw [Nat.sub_mul, ← hN, ← hfP]
      omega
    have hq3 := Nat.div_mul_le_self s (2 ^ (n - f.log2 - 1))
    have hq4 := Nat.lt_div_mul_add (a := s) hpos1
    generalize s / 2 ^ (n - f.log2 - 1) = q at hq1 hq3 hq4
    have hfj : f + (q + 2 ^ (f.log2 + 1) - f) - 2 ^ (f.log2 + 1) = q := by omega
    obtain ⟨-, h1, h2, he⟩ := decoder_entry_high n hn i f (q + 2 ^ (f.log2 + 1) - f) hf0 hfN
      (by omega) (by omega)
    refine ⟨q + 2 ^ (f.log2 + 1) - f, by omega, ?_⟩
    unfold in_state_interval
    rw [he]
    simp only [Int.toNat_ofNat]
    rw [two_pow_cast, hfj]
    omega

/-- Two entries of one symbol that share a next state are the same entry. -/
theorem decoder_entry_disjoint (n : Nat) (hn : n ≤ 15) (i f : Nat) (hf0 : f ≠ 0)
    (hfN : f ≤ 2 ^ n) (j1 j2 : Nat) (h1 : j1 < f) (h2 : j2 < f) (s : Int)
    (hs1 : in_state_interval (fse_init_decoder_table_entry (2 ^ n) (clz (2 ^ n)) i f j1) s)
    (hs2 : in_state_interval (fse_init_decoder_table_entry (2 ^ n) (clz (2 ^ n)) i f j2) s) :
    j1 = j2 := by
  unfold in_state_interval at hs1 hs2
  have e1 := encoder_inverts_entry n hn i 0 f j1 hf0 (by omega) h1
    (s - (fse_init_decoder_table_entry (2 ^ n) (clz (2 ^ n)) i f j1).delta) (by omega) (by omega)
  have e2 := encoder_inverts_entry n hn i 0 f j2 hf0 (by omega) h2
    (s - (fse_init_decoder_table_entry (2 ^ n) (clz (2 ^ n)) i f j2).delta) (by omega) (by omega)
  have hd1 : (fse_init_decoder_table_entry (2 ^ n) (clz (2 ^ n)) i f j1).delta
      + (s - (fse_init_decoder_table_entry (2 ^ n) (clz (2 ^ n)) i f j1).delta) = s := by omega
  have hd2 : (fse_init_decoder_table_entry (2 ^ n) (clz (2 ^ n)) i f j2).delta
      + (s - (fse_init_decoder_table_entry (2 ^ n) (clz (2 ^ n)) i f j2).delta) = s := by omega
  rw [hd1] at e1
  rw [hd2] at e2
  by_cases hc : (fse_init_encoder_table_entry (2 ^ n) (clz (2 ^ n)) ((0 : Nat) : Int) f).s0 ≤ s
  · have a1 := e1.2.1 hc
    have a2 := e2.2.1 hc
    omega
  · have a1 := e1.2.2 (by omega)
    have a2 := e2.2.2 (by omega)
    omega


/-! ## The symbol that the rounding loop remembers -/

/-- The index `max_freq_sym` at the end of the rounding loop is the first one that attains
`max_freq`: every symbol passed before it has a smaller rounded frequency. -/
theorem normalize_loop_lowest (shift step : Int) :
    ∀ (t : List Nat) (i : Nat) (rem mf : Int) (ms : Nat),
      ((fse_normalize_freq_loop shift step i rem mf ms t).2.2.1 = mf ∧
        (fse_normalize_freq_loop shift step i rem mf ms t).2.2.2 = ms) ∨
      (mf < (fse_normalize_freq_loop shift step i rem mf ms t).2.2.1 ∧
        i ≤ (fse_normalize_freq_loop shift step i rem mf ms t).2.2.2 ∧
        ∀ d, d < (fse_normalize_freq_loop shift step i rem mf ms t).2.2.2 - i →
          fse_normalize_freq_round shift step (t.getD d 0)
            < (fse_normalize_freq_loop shift step i rem mf ms t).2.2.1) := by
  intro t
  induction t with
  | nil =>
    intro i rem mf ms
    left
    simp [fse_normalize_freq_loop]
  | cons ti t ih =>
    intro i rem mf ms
    unfold fse_normalize_freq_loop
    by_cases hgt : fse_normalize_freq_round shift step ti > mf
    · simp only [hgt, if_true]
      right
      rcases ih (i + 1) (i32 (rem - fse_normalize_freq_round shift step ti))
        (fse_normalize_freq_round shift step ti) i with ⟨h1, h2⟩ | ⟨h1, h2, h3⟩
      · rw [h1, h2]
        refine ⟨hgt, le_rfl, ?_⟩
        intro d hd
        omega
      · refine ⟨by omega, by omega, ?_⟩
        intro d hd
        cases d with
        | zero => simpa using h1
        | succ d =>
          simp only [List.getD_cons_succ]
          exact h3 d (by omega)
    · simp only [hgt, if_false]
      rcases ih (i + 1) (i32 (rem - fse_normalize_freq_round shift step ti)) mf ms with
        ⟨h1, h2⟩ | ⟨h1, h2, h3⟩
      · left
        exact ⟨h1, h2⟩
      · right
        refine ⟨h1, by omega, ?_⟩
        intro d hd
        cases d with
        | zero =>
          simp only [List.getD_cons_zero]
          omega
        | succ d =>
          simp only [List.getD_cons_succ]
          exact h3 d (by omega)

theorem getD_map_int (g : Nat → Int) (hg : g 0 = 0) : ∀ (t : List Nat) (j : Nat),
    (t.map g).getD j 0 = g (t.getD j 0)
  | [], j => by simp [hg]
  | x :: t, 0 => by simp
  | x :: t, j + 1 => by
    simp only [List.map_cons, List.getD_cons_succ]
    exact getD_map_int g hg t j


/-! ## Decoding into less room -/

theorem lzfse_then_extends (out : List Nat) (r : lzfse_status × List Nat)
    (next : List Nat → lzfse_status × List Nat) (hr : out <+: r.2)
    (hn : ∀ o, o <+: (next o).2) : out <+: (lzfse_then r next).2 := by
  unfold lzfse_then
  split
  · exact hr.trans (hn _)
  · exact hr

theorem lzfse_then_truncated (c' : Nat) (r r' : lzfse_status × List Nat)
    (next next' : List Nat → lzfse_status × List Nat) (hr : lzfse_truncated c' r r')
    (hp : ∀ o, o <+: (next o).2)
    (hn : ∀ o, o.length ≤ c' → lzfse_truncated c' (next o) (next' o)) :
    lzfse_truncated c' (lzfse_then r next) (lzfse_then r' next') := by
  obtain ⟨s, o⟩ := r
  unfold lzfse_truncated at hr ⊢
  simp only at hr
  by_cases hle : o.length ≤ c'
  · rw [if_pos hle] at hr
    subst hr
    unfold lzfse_then
    cases s with
    | ok => exact hn o hle
    | dst_full => simp only [if_pos hle]
    | error => simp only [if_pos hle]
  · rw [if_neg hle] at hr
    subst hr
    have h2 : lzfse_then (lzfse_status.dst_full, List.take c' o) next'
        = (lzfse_status.dst_full, List.take c' o) := rfl
    rw [h2]
    cases s with
    | ok =>
      have h1 : lzfse_then (lzfse_status.ok, o) next = next o := rfl
      rw [h1]
      obtain ⟨t, ht⟩ := hp o
      have hlen : ¬ (next o).2.length ≤ c' := by
        rw [← ht, List.length_append]; omega
      rw [if_neg hlen, ← ht, List.take_append_of_le_length (by omega)]
    | dst_full =>
      have h1 : lzfse_then (lzfse_status.dst_full, o) next = (lzfse_status.dst_full, o) := rfl
      rw [h1, if_neg hle]
    | error =>
      have h1 : lzfse_then (lzfse_status.error, o) next = (lzfse_status.error, o) := rfl
      rw [h1, if_neg hle]

theorem lzfse_truncated_refl (c' : Nat) (s : lzfse_status) (o : List Nat)
    (h : o.length ≤ c') : lzfse_truncated c' (s, o) (s, o) := by
  unfold lzfse_truncated
  rw [if_pos h]

theorem lzfse_copy_literals_extends (cap : Nat) : ∀ (bs out : List Nat),
    out <+: (lzfse_copy_literals cap bs out).2
  | [], out => List.prefix_refl out
  | b :: bs, out => by
    unfold lzfse_copy_literals
    split
    · exact (List.prefix_append out [b]).trans (lzfse_copy_literals_extends cap bs _)
    · exact List.prefix_refl out

theorem lzfse_copy_match_extends (cap D : Nat) : ∀ (M : Nat) (out : List Nat),
    out <+: (lzfse_copy_match cap D M out).2
  | 0, out => List.prefix_refl out
  | M + 1, out => by
    unfold lzfse_copy_match
    split
    · exact (List.prefix_append out _).trans (lzfse_copy_match_extends cap D M _)
    · exact List.prefix_refl out

/-- A step that goes on to write past `c'` bytes when the room `c'` is used up. -/
theorem lzfse_truncated_full (c' : Nat) (out : List Nat) (b : Nat) (hlen : out.length = c')
    (r : lzfse_status × List Nat) (hp : (out ++ [b]) <+: r.2) :
    lzfse_truncated c' r (lzfse_status.dst_full, out) := by
  unfold lzfse_truncated
  obtain ⟨t, ht⟩ := hp
  have hl : ¬ r.2.length ≤ c' := by
    rw [← ht, List.length_append, List.length_append]
    simp only [List.length_cons, List.length_nil]
    omega
  rw [if_neg hl, ← ht, List.append_assoc, List.take_append_of_le_length (by omega),
    List.take_of_length_le (by omega)]

theorem lzfse_copy_literals_truncated (c c' : Nat) (hc : c' ≤ c) : ∀ (bs out : List Nat),
    out.length ≤ c' →
    lzfse_truncated c' (lzfse_copy_literals c bs out) (lzfse_copy_literals c' bs out)
  | [], out, h => lzfse_truncated_refl c' _ out h
  | b :: bs, out, h => by
    unfold lzfse_copy_literals
    by_cases h1 : out.length < c'
    · rw [if_pos h1, if_pos (by omega)]
      exact lzfse_copy_literals_truncated c c' hc bs _ (by simp; omega)
    · rw [if_neg h1]
      by_cases h2 : out.length < c
      · rw [if_pos h2]
        exact lzfse_truncated_full c' out b (by omega) _ (lzfse_copy_literals_extends c bs _)
      · rw [if_neg h2]
        exact lzfse_truncated_refl c' _ out h

theorem lzfse_copy_match_truncated (c c' D : Nat) (hc : c' ≤ c) : ∀ (M : Nat) (out : List Nat),
    out.length ≤ c' →
    lzfse_truncated c' (lzfse_copy_match c D M out) (lzfse_copy_match c' D M out)
  | 0, out, h => lzfse_truncated_refl c' _ out h
  | M + 1, out, h => by
    unfold lzfse_copy_match
    by_cases h1 : out.length < c'
    · rw [if_pos h1, if_pos (by omega)]
      exact lzfse_copy_match_truncated c c' D hc M _ (by simp; omega)
    · rw [if_neg h1]
      by_cases h2 : out.length < c
      · rw [if_pos h2]
        exact lzfse_truncated_full c' out _ (by omega) _ (lzfse_copy_match_extends c D M _)
      · rw [if_neg h2]
        exact lzfse_truncated_refl c' _ out h

theorem lzfse_execute_lmd_extends (cap : Nat) (literals : List Nat) (M D : Nat)
    (out : List Nat) : out <+: (lzfse_execute_lmd cap literals M D out).2 := by
  unfold lzfse_execute_lmd
  apply lzfse_then_extends out _ _ (lzfse_copy_literals_extends cap literals out)
  intro o
  split
  · exact List.prefix_refl o
  · split
    · exact List.prefix_refl o
    · exact lzfse_copy_match_extends cap D M o

theorem lzfse_execute_lmd_truncated (c c' : Nat) (hc : c' ≤ c) (literals : List Nat)
    (M D : Nat) (out : List Nat) (h : out.length ≤ c') :
    lzfse_truncated c' (lzfse_execute_lmd c literals M D out)
      (lzfse_execute_lmd c' literals M D out) := by
  unfold lzfse_execute_lmd
  apply lzfse_then_truncated c' _ _ _ _ (lzfse_copy_literals_truncated c c' hc literals out h)
  · intro o
    split
    · exact List.prefix_refl o
    · split
      · exact List.prefix_refl o
      · exact lzfse_copy_match_extends c D M o
  · intro o ho
    split
    · exact lzfse_truncated_refl c' _ o ho
    · split
      · exact lzfse_truncated_refl c' _ o ho
      · exact lzfse_copy_match_truncated c c' D hc M o ho

theorem lzfse_decode_triples_extends (cap : Nat) :
    ∀ (triples : List (Nat × Nat × Nat)) (literals out : List Nat),
      out <+: (lzfse_decode_triples cap triples literals out).2
  | [], _, out => List.prefix_refl out
  | (L, M, D) :: triples, literals, out => by
    unfold lzfse_decode_triples
    split
    · exact List.prefix_refl out
    · exact lzfse_then_extends out _ _ (lzfse_execute_lmd_extends cap _ M D out)
        (fun o => lzfse_decode_triples_extends cap triples _ o)

theorem lzfse_decode_triples_truncated (c c' : Nat) (hc : c' ≤ c) :
    ∀ (triples : List (Nat × Nat × Nat)) (literals out : List Nat), out.length ≤ c' →
      lzfse_truncated c' (lzfse_decode_triples c triples literals out)
        (lzfse_decode_triples c' triples literals out)
  | [], _, out, h => lzfse_truncated_refl c' _ out h
  | (L, M, D) :: triples, literals, out, h => by
    unfold lzfse_decode_triples
    split
    · exact lzfse_truncated_refl c' _ out h
    · exact lzfse_then_truncated c' _ _ _ _
        (lzfse_execute_lmd_truncated c c' hc _ M D out h)
        (fun o => lzfse_decode_triples_extends c triples _ o)
        (fun o ho => lzfse_decode_triples_truncated c c' hc triples _ o ho)

theorem lzfse_decode_fallback_extends (cap : Nat) :
    ∀ (ops : List (List Nat × Nat × Nat)) (d_prev : Nat) (out : List Nat),
      out <+: (lzfse_decode_fallback cap ops d_prev out).2
  | [], _, out => List.prefix_refl out
  | (literals, M, D) :: ops, d_prev, out => by
    unfold lzfse_decode_fallback
    exact lzfse_then_extends out _ _ (lzfse_execute_lmd_extends cap _ M _ out)
      (fun o => lzfse_decode_fallback_extends cap ops _ o)

theorem lzfse_decode_fallback_truncated (c c' : Nat) (hc : c' ≤ c) :
    ∀ (ops : List (List Nat × Nat × Nat)) (d_prev : Nat) (out : List Nat), out.length ≤ c' →
      lzfse_truncated c' (lzfse_decode_fallback c ops d_prev out)
        (lzfse_decode_fallback c' ops d_prev out)
  | [], _, out, h => lzfse_truncated_refl c' _ out h
  | (literals, M, D) :: ops, d_prev, out, h => by
    unfold lzfse_decode_fallback
    exact lzfse_then_truncated c' _ _ _ _
      (lzfse_execute_lmd_truncated c c' hc _ M _ out h)
      (fun o => lzfse_decode_fallback_extends c ops _ o)
      (fun o ho => lzfse_decode_fallback_truncated c c' hc ops _ o ho)

theorem lzfse_decode_block_extends (cap : Nat) (b : lzfse_block) (out : List Nat) :
    out <+: (lzfse_decode_block cap b out).2 := by
  cases b with
  | raw bytes => exact lzfse_copy_literals_extends cap bytes out
  | entropy_coded literals triples => exact lzfse_decode_triples_extends cap triples literals out
  | fallback ops => exact lzfse_decode_fallback_extends cap ops 0 out
  | end_of_stream => exact List.prefix_refl out
  | invalid => exact List.prefix_refl out

theorem lzfse_decode_block_truncated (c c' : Nat) (hc : c' ≤ c) (b : lzfse_block)
    (out : List Nat) (h : out.length ≤ c') :
    lzfse_truncated c' (lzfse_decode_block c b out) (lzfse_decode_block c' b out) := by
  cases b with
  | raw bytes => exact lzfse_copy_literals_truncated c c' hc bytes out h
  | entropy_coded literals triples =>
    exact lzfse_decode_triples_truncated c c' hc triples literals out h
  | fallback ops => exact lzfse_decode_fallback_truncated c c' hc ops 0 out h
  | end_of_stream => exact lzfse_truncated_refl c' _ out h
  | invalid => exact lzfse_truncated_refl c' _ out h

theorem lzfse_decode_blocks_extends (cap : Nat) : ∀ (blocks : List lzfse_block)
    (out : List Nat), out <+: (lzfse_decode_blocks cap blocks out).2
  | [], out => List.prefix_refl out
  | b :: blocks, out => by
    cases b with
    | end_of_stream => exact List.prefix_refl out
    | raw bytes =>
      exact lzfse_then_extends out _ _ (lzfse_decode_block_extends cap _ out)
        (fun o => lzfse_decode_blocks_extends cap blocks o)
    | entropy_coded literals triples =>
      exact lzfse_then_extends out _ _ (lzfse_decode_block_extends cap _ out)
        (fun o => lzfse_decode_blocks_extends cap blocks o)
    | fallback ops =>
      exact lzfse_then_extends out _ _ (lzfse_decode_block_extends cap _ out)
        (fun o => lzfse_decode_blocks_extends cap blocks o)
    | invalid =>
      exact lzfse_then_extends out _ _ (lzfse_decode_block_extends cap _ out)
        (fun o => lzfse_decode_blocks_extends cap blocks o)

theorem lzfse_decode_blocks_truncated (c c' : Nat) (hc : c' ≤ c) :
    ∀ (blocks : List lzfse_block) (out : List Nat), out.length ≤ c' →
      lzfse_truncated c' (lzfse_decode_blocks c blocks out) (lzfse_decode_blocks c' blocks out)
  | [], out, h => lzfse_truncated_refl c' _ out h
  | b :: blocks, out, h => by
    cases b with
    | end_of_stream => exact lzfse_truncated_refl c' _ out h
    | raw bytes =>
      exact lzfse_then_truncated c' _ _ _ _ (lzfse_decode_block_truncated c c' hc _ out h)
        (fun o => lzfse_decode_blocks_extends c blocks o)
        (fun o ho => lzfse_decode_blocks_truncated c c' hc blocks o ho)
    | entropy_coded literals triples =>
      exact lzfse_then_truncated c' _ _ _ _ (lzfse_decode_block_truncated c c' hc _ out h)
        (fun o => lzfse_decode_blocks_extends c blocks o)
        (fun o ho => lzfse_decode_blocks_truncated c c' hc blocks o ho)
    | fallback ops =>
      exact lzfse_then_truncated c' _ _ _ _ (lzfse_decode_block_truncated c c' hc _ out h)
        (fun o => lzfse_decode_blocks_extends c blocks o)
        (fun o ho => lzfse_decode_blocks_truncated c c' hc blocks o ho)
    | invalid =>
      exact lzfse_then_truncated c' _ _ _ _ (lzfse_decode_block_truncated c c' hc _ out h)
        (fun o => lzfse_decode_blocks_extends c blocks o)
        (fun o ho => lzfse_decode_blocks_truncated c c' hc blocks o ho)

/-- The truncation property of the block decoder of the specification: when the decoding is
done with some room and gives `full`, the decoding with room for fewer bytes than `full` has
ends with destination-full on the first bytes of `full`. -/
theorem lzfse_decode_blocks_truncation (blocks : List lzfse_block) (c dst_size : Nat)
    (full : List Nat) (hfull : lzfse_decode_blocks c blocks [] = (lzfse_status.ok, full))
    (hlt : dst_size < full.length) :
    lzfse_decode_blocks dst_size blocks [] = (lzfse_status.dst_full, full.take dst_size) := by
  rcases Nat.le_total dst_size c with hc | hc
  · have h := lzfse_decode_blocks_truncated c dst_size hc blocks [] (Nat.zero_le _)
    unfold lzfse_truncated at h
    rw [hfull] at h
    simp only at h
    rw [if_neg (by omega)] at h
    exact h
  · have h := lzfse_decode_blocks_truncated dst_size c hc blocks [] (Nat.zero_le _)
    unfold lzfse_truncated at h
    rw [hfull] at h
    by_cases hle : (lzfse_decode_blocks dst_size blocks []).2.length ≤ c
    · rw [if_pos hle] at h
      rw [← h] at hle
      simp only at hle
      omega
    · rw [if_neg hle] at h
      have h1 : lzfse_status.ok = lzfse_status.dst_full := congrArg Prod.fst h
      cases h1


/-! ## The normaliser on a histogram that is already normalised -/

theorem set_getD_self_nat : ∀ (l : List Nat) (i : Nat), l.set i (l.getD i 0) = l
  | [], _ => rfl
  | _ :: _, 0 => rfl
  | x :: l, i + 1 => by
    simp only [List.set_cons_succ, List.getD_cons_succ]
    rw [set_getD_self_nat l i]

/-- The step of the normaliser when the counts total `2^n`: it is `2^(31-n)`. -/
theorem highprec_step_two_pow (n : Nat) (hn : n ≤ 15) :
    (if ((2 ^ n : Nat) : Int) = 0 then (0 : Int) else 2147483648 / ((2 ^ n : Nat) : Int))
      = ((2 ^ (31 - n) : Nat) : Int) := by
  have hpos : 0 < 2 ^ n := Nat.pow_pos (by decide)
  have hne : ¬ ((2 ^ n : Nat) : Int) = 0 := by omega
  rw [if_neg hne]
  have h31 : (2147483648 : Int) = ((2 ^ 31 : Nat) : Int) := by norm_num
  rw [h31, ← Int.natCast_div, Nat.pow_div (by omega) (by decide)]

/-- With the step `2^(31-n)` and the shift `30 - n`, a count of at most `2^n` is its own
rounded frequency. -/
theorem round_exact (n : Nat) (hn : n ≤ 15) (ti : Nat) (hti : ti ≤ 2 ^ n) :
    fse_normalize_freq_round (30 - (n : Int)) ((2 ^ (31 - n) : Nat) : Int) ti = ti := by
  have hpn : 2 ^ n ≤ 2 ^ 15 := Nat.pow_le_pow_right (by decide) hn
  have hpos : 0 < 2 ^ (30 - n) := Nat.pow_pos (by decide)
  have hP : 2 ^ (31 - n) = 2 * 2 ^ (30 - n) := by
    have h : 31 - n = (30 - n) + 1 := by omega
    rw [h, Nat.pow_succ, Nat.mul_comm]
  have hprod : ti * 2 ^ (31 - n) ≤ 2147483648 := by
    have h1 : ti * 2 ^ (31 - n) ≤ 2 ^ n * 2 ^ (31 - n) := Nat.mul_le_mul_right _ hti
    have h2 : 2 ^ n * 2 ^ (31 - n) = 2 ^ 31 := by
      rw [← Nat.pow_add]
      have h : n + (31 - n) = 31 := by omega
      rw [h]
    have h3 : (2 : Nat) ^ 31 = 2147483648 := by norm_num
    omega
  have hdiv : ti * 2 ^ (31 - n) / 2 ^ (30 - n) = 2 * ti := by
    rw [hP, Nat.mul_comm 2, ← Nat.mul_assoc, Nat.mul_comm ti, Nat.mul_assoc,
      Nat.mul_div_cancel_left _ hpos, Nat.mul_comm]
  unfold fse_normalize_freq_round
  have hmul : ((ti : Int) * ((2 ^ (31 - n) : Nat) : Int)) = ((ti * 2 ^ (31 - n) : Nat) : Int) := by
    push_cast; rfl
  have hu1 : u32 ((ti * 2 ^ (31 - n) : Nat) : Int) = ((ti * 2 ^ (31 - n) : Nat) : Int) := by
    unfold u32; omega
  have hsh : (30 - (n : Int)) = ((30 - n : Nat) : Int) := by omega
  have hadd : (((2 * ti : Nat) : Int) + 1) = ((2 * ti + 1 : Nat) : Int) := by
    push_cast; rfl
  have hu2 : u32 ((2 * ti + 1 : Nat) : Int) = ((2 * ti + 1 : Nat) : Int) := by
    unfold u32; omega
  have hhalf : (2 * ti + 1) / 2 ^ 1 = ti := by
    rw [Nat.pow_one]; omega
  have hshr1 : shr ((2 * ti + 1 : Nat) : Int) 1 = ((ti : Nat) : Int) := by
    have h := shr_nat (2 * ti + 1) 1 (by omega)
    rw [hhalf] at h
    exact_mod_cast h
  rw [hmul, hu1, hsh, shr_nat _ _ (by omega), hdiv, hadd, hu2, hshr1]
  simp only []
  by_cases h0 : ti = 0
  · subst h0; simp
  · have hc : ¬ (((ti : Nat) : Int) = 0 ∧ ti ≠ 0) := by omega
    rw [if_neg hc]

/-- The normaliser returns a histogram that sums to `2^n`, `n ≤ 15`, as it is, whatever the
number of passes allowed to the adjustment loop (it makes none). -/
theorem normalize_exact (n : Nat) (hn : n ≤ 15) (t : List Nat) (hsum : t.sum = 2 ^ n)
    (fuel : Nat) : fse_normalize_freq fuel (2 ^ n) t = some t := by
  have hpn : 2 ^ n ≤ 2 ^ 15 := Nat.pow_le_pow_right (by decide) hn
  have hshift : clz ((2 : Int) ^ n) - 1 = 30 - (n : Int) := by
    rw [clz_two_pow n (by omega)]; omega
  have hsc := s_count_eq t (by omega)
  have hshl : u32 (shl 1 31) = 2147483648 := by decide
  have hcastP : (((2 ^ n : Nat)) : Int) = (2 : Int) ^ n := by push_cast; rfl
  have hle : ∀ ti ∈ t, ti ≤ 2 ^ n := by
    intro ti hti
    have := List.le_sum_of_mem hti
    omega
  unfold fse_normalize_freq
  simp only [hshift, hsc, hshl]
  rw [hsum, highprec_step_two_pow n hn]
  have hloop := normalize_loop_spec (30 - (n : Int)) ((2 ^ (31 - n) : Nat) : Int) t 0 (2 ^ n)
    0 0 (i32_of_range (by omega) (by omega)) _ rfl
  have hmap : (t.map fun ti => (u16 (fse_normalize_freq_round (30 - (n : Int))
      ((2 ^ (31 - n) : Nat) : Int) ti)).toNat) = t := by
    have h1 : (t.map fun ti => (u16 (fse_normalize_freq_round (30 - (n : Int))
        ((2 ^ (31 - n) : Nat) : Int) ti)).toNat) = t.map id := by
      apply List.map_congr_left
      intro ti hti
      rw [round_exact n hn ti (hle ti hti)]
      have := hle ti hti
      unfold u16
      simp only [id]
      omega
    rw [h1, List.map_id]
  have hrsum : (t.map (fse_normalize_freq_round (30 - (n : Int))
      ((2 ^ (31 - n) : Nat) : Int))).sum = (2 : Int) ^ n := by
    have h1 : t.map (fse_normalize_freq_round (30 - (n : Int)) ((2 ^ (31 - n) : Nat) : Int))
        = t.map (fun ti => ((ti : Nat) : Int)) := by
      apply List.map_congr_left
      intro ti hti
      exact round_exact n hn ti (hle ti hti)
    have h2 : ∀ l : List Nat, (l.map (fun ti => ((ti : Nat) : Int))).sum = ((l.sum : Nat) : Int) := by
      intro l
      induction l with
      | nil => rfl
      | cons x l ih => simp only [List.map_cons, List.sum_cons, Nat.cast_add, ih]
    rw [h1, h2, hsum, hcastP]
  rw [hmap, hrsum] at hloop
  generalize fse_normalize_freq_loop (30 - (n : Int)) ((2 ^ (31 - n) : Nat) : Int) 0 (2 ^ n)
    0 0 t = L at hloop ⊢
  obtain ⟨freq0, rem, mx, ms⟩ := L
  simp only at hloop ⊢
  obtain ⟨hfreq, hrem, hmax0, -, hcase⟩ := hloop
  have hrem0 : rem = 0 := by
    rw [hrem, sub_self]; rfl
  have hneg : i32 (-(0 : Int)) = 0 := by decide
  subst hfreq hrem0
  rw [hneg]
  by_cases hbr : (0 : Int) < shr mx 2
  · rw [if_pos hbr]
    have hms : ms < freq0.length := by
      rcases hcase with ⟨hm, -⟩ | ⟨-, -, hs, -⟩
      · rw [hm] at hbr
        exact absurd hbr (by decide)
      · omega
    rw [if_pos hms]
    have hb : freq0.getD ms 0 ≤ 2 ^ n := by
      have h1 : freq0.getD ms 0 ∈ freq0 := by
        rw [List.getD_eq_getElem _ _ hms]
        exact List.getElem_mem hms
      exact hle _ h1
    have hv : (u16 (((freq0.getD ms 0 : Nat) : Int) + 0)).toNat = freq0.getD ms 0 := by
      unfold u16; omega
    rw [hv, set_getD_self_nat]
  · rw [if_neg hbr]
    exact adjust_loop_zero fuel 3 freq0

/-! ## The claims -/

/-- Claim C1, amended: for every histogram whose frequencies sum to `nstates` (any state
count that fits an `int`, every power of two among them), `fse_init_decoder_table` returns 0
and writes the slots `0..nstates-1` once each; and when the histogram has at most 256 symbols,
the slots whose symbol field is `i` are the `freq[i]` consecutive slots starting at the sum of
the lower-indexed frequencies. -/
theorem decoder_table_complete_of_valid (nstates : Nat) (freq : List Nat)
    (hN : nstates < 2147483648) (hsum : freq.sum = nstates) :
    (fse_init_decoder_table nstates freq).1 = 0 ∧
    slots_written (fse_init_decoder_table nstates freq).2 = List.range nstates ∧
    (freq.length ≤ 256 → decoder_table_complete nstates freq) := by
  have hN2 : (nstates : Int) < 2147483648 := by exact_mod_cast hN
  have hs : (0 : Int) + (freq.sum : Nat) ≤ (nstates : Int) := by
    rw [hsum]; omega
  obtain ⟨h1, h2⟩ := decoder_loop_slots nstates (clz nstates) hN2 freq 0 0 0 le_rfl hs
  have h3 : slots_written (fse_init_decoder_table nstates freq).2 = List.range nstates := by
    unfold fse_init_decoder_table
    rw [h2, hsum, List.range_eq_range']
  refine ⟨h1, h3, fun hlen => ⟨h1, h3, ?_⟩⟩
  intro i _
  unfold fse_init_decoder_table
  rw [decoder_loop_symbol_slots nstates (clz nstates) hN2 freq 0 0 0 i le_rfl hs (by omega)]
  simp

/-- Witness of `decoder_table_complete_of_valid`: the histogram `[10, 5, 0, 1]` with 16 states. -/
theorem decoder_table_complete_of_valid_witness :
    (16 < 2147483648 ∧ [10, 5, 0, 1].sum = 16 ∧ [10, 5, 0, 1].length ≤ 256) ∧
      decoder_table_complete 16 [10, 5, 0, 1] :=
  ⟨by decide, (decoder_table_complete_of_valid 16 [10, 5, 0, 1] (by decide) (by decide)).2.2
    (by decide)⟩

set_option maxRecDepth 100000 in
/-- Claim C1 fails as stated: with 257 symbols, `freq[0] = freq[256] = 1` and 2 states, the
symbol field of symbol 256 is `(uint8_t)256 = 0`, so two slots carry symbol field 0 and none
carries 256. -/
theorem decoder_table_complete_fails_257_symbols :
    (1 :: List.replicate 255 0 ++ [1]).sum = 2 ∧
      slots_of_symbol (fse_init_decoder_table 2 (1 :: List.replicate 255 0 ++ [1])).2 0 = [0, 1] ∧
      ¬ decoder_table_complete 2 (1 :: List.replicate 255 0 ++ [1]) := by
  have h : slots_of_symbol
      (fse_init_decoder_table 2 (1 :: List.replicate 255 0 ++ [1])).2 0 = [0, 1] := by decide
  refine ⟨by decide, h, ?_⟩
  intro hc
  have h0 := hc.2.2 0 (by decide)
  simp only [Nat.cast_ofNat] at h0
  rw [h] at h0
  exact absurd h0 (by decide)

/-- Claim C2: for every histogram of `uint16_t` frequencies and every state count `nstates`
with `nstates + 65535` in the range of `int` (every power of two that an `int` holds),
`fse_init_decoder_table` returns -1 exactly when the sum of the frequencies exceeds `nstates`,
which is exactly when some partial sum does, and returns 0 exactly in every other case: the
running sum, reduced to `int` at each addition, never wraps. -/
theorem decoder_table_status (nstates : Int) (freq : List Nat) (h0 : 0 ≤ nstates)
    (hN : nstates + 65535 < 2147483648) (hf : ∀ f ∈ freq, f < 65536) :
    ((fse_init_decoder_table nstates freq).1 = -1 ↔ nstates < (freq.sum : Nat)) ∧
    ((fse_init_decoder_table nstates freq).1 = 0 ↔ ((freq.sum : Nat) : Int) ≤ nstates) ∧
    (nstates < (freq.sum : Nat) ↔
      ∃ m, m ≤ freq.length ∧ nstates < ((freq.take m).sum : Nat)) := by
  have h := decoder_loop_status nstates (clz nstates) hN freq 0 0 0 hf le_rfl h0
  rw [zero_add] at h
  unfold fse_init_decoder_table
  rw [h]
  refine ⟨?_, ?_, ?_⟩
  · by_cases hc : nstates < (freq.sum : Nat) <;> simp [hc]
  · by_cases hc : nstates < (freq.sum : Nat)
    · simp [hc]
    · simp only [hc, if_false, true_iff]; omega
  · constructor
    · intro hc
      exact ⟨freq.length, le_rfl, by simpa using hc⟩
    · rintro ⟨m, -, hm⟩
      have : (freq.take m).sum ≤ freq.sum := by
        have := List.sum_take_add_sum_drop freq m
        omega
      omega

/-- Witness of `decoder_table_status`: `[3, 2]` overflows 4 states at its second symbol. -/
theorem decoder_table_status_witness :
    ((0 : Int) ≤ 4 ∧ (4 : Int) + 65535 < 2147483648 ∧ ∀ f ∈ [3, 2], f < 65536) ∧
      (fse_init_decoder_table 4 [3, 2]).1 = -1 :=
  ⟨⟨by decide, by decide, by decide⟩,
    (decoder_table_status 4 [3, 2] (by decide) (by decide) (by decide)).1.2 (by decide)⟩
/-- Claim C3, amended: for `nstates = 2^n` with `n ≤ 15` and every nonempty histogram `t` whose
counts total less than `2^32` and that has at most `nstates` nonzero counts,
`fse_normalize_freq` returns (four passes of the adjustment loop suffice) and its output has
one frequency per symbol and sums to exactly `nstates`. -/
theorem normalize_sum_of_domain (n : Nat) (hn : n ≤ 15) (t : List Nat) (ht : t ≠ [])
    (hT : t.sum < 4294967296) (hused : used_symbols t ≤ 2 ^ n) (fuel : Nat) (hfuel : 4 ≤ fuel) :
    ∃ freq, fse_normalize_freq fuel (2 ^ n) t = some freq ∧ freq.length = t.length ∧
      freq.sum = 2 ^ n := by
  obtain ⟨freq, h1, h2, h3, -⟩ := normalize_spec n hn t fuel hfuel ht hT hused
  exact ⟨freq, h1, h2, h3⟩

/-- Witness of `normalize_sum_of_domain`: `t = [10, 5, 0, 1]` with 16 states. -/
theorem normalize_sum_of_domain_witness :
    (4 ≤ 15 ∧ [10, 5, 0, 1] ≠ [] ∧ [10, 5, 0, 1].sum < 4294967296 ∧
        used_symbols [10, 5, 0, 1] ≤ 2 ^ 4 ∧ 4 ≤ 4) ∧
      ∃ freq, fse_normalize_freq 4 (2 ^ 4) [10, 5, 0, 1] = some freq ∧
        freq.length = [10, 5, 0, 1].length ∧ freq.sum = 2 ^ 4 :=
  ⟨⟨by decide, by decide, by decide, by decide, by decide⟩,
    normalize_sum_of_domain 4 (by decide) [10, 5, 0, 1] (by decide) (by decide) (by decide) 4
      (by decide)⟩

/-- Claim C3 fails as stated, in each direction that the amended claim excludes. With
`nstates = 65536` and `t = [1]` the rounded frequency 65536 is stored as `(uint16_t)65536 = 0`,
so the output `[0]` sums to 0. With `nstates = 1` and `t = [1, 1]` both symbols round to 1, the
overrun is 1 and no frequency exceeds 1: the adjustment loop never ends, whatever the number
of passes. With no symbol at all `freq[max_freq_sym]` lies outside the array. With
`nstates = 32768` and `t = [2147483648, 4294967295]` the `uint32_t` total wraps to `2^31 - 1`,
the second symbol rounds to 65536 (stored as 0), and the overrun 65536 exceeds what
`fse_adjust_freqs` can remove from `[32768, 0]`: the loop never ends. -/
theorem normalize_sum_fails :
    (¬ ∃ fuel freq, fse_normalize_freq fuel 65536 [1] = some freq ∧ freq.sum = 65536) ∧
    (¬ ∃ fuel freq, fse_normalize_freq fuel 1 [1, 1] = some freq) ∧
    (¬ ∃ fuel freq, fse_normalize_freq fuel 16 [] = some freq) ∧
    (¬ ∃ fuel freq, fse_normalize_freq fuel 32768 [2147483648, 4294967295] = some freq) := by
  refine ⟨?_, ?_, ?_, ?_⟩
  · rintro ⟨fuel, freq, h, hs⟩
    have h0 : fse_normalize_freq fuel 65536 [1] = some [0] := rfl
    rw [h0] at h
    cases h
    exact absurd hs (by decide)
  · rintro ⟨fuel, freq, h⟩
    have h0 : fse_normalize_freq fuel 1 [1, 1] = fse_adjust_freqs_loop fuel 3 [1, 1] 1 := rfl
    rw [h0, adjust_loop_stuck [1, 1] 1 (by decide) (by decide)] at h
    cases h
  · rintro ⟨fuel, freq, h⟩
    have h0 : fse_normalize_freq fuel 16 [] = none := rfl
    rw [h0] at h
    cases h
  · rintro ⟨fuel, freq, h⟩
    have h0 : fse_normalize_freq fuel 32768 [2147483648, 4294967295]
        = fse_adjust_freqs_loop fuel 3 [32768, 0] 65536 := rfl
    rw [h0] at h
    have hnone : fse_adjust_freqs_loop fuel 3 [32768, 0] 65536 = none := by
      rcases Nat.lt_or_ge fuel 4 with hlt | hge
      · interval_cases fuel <;> rfl
      · obtain ⟨k, rfl⟩ : ∃ k, fuel = k + 4 := ⟨fuel - 4, by omega⟩
        have h1 : fse_adjust_freqs_loop (k + 4) 3 [32768, 0] 65536
            = fse_adjust_freqs_loop k (-1) [1, 0] 32769 := rfl
        rw [h1]
        exact adjust_loop_stuck [1, 0] 32769 (by decide) (by decide) k (-1)
    rw [hnone] at h
    cases h

/-- Claim C4, amended: for `nstates = 2^n` with `n ≤ 15` and every nonempty histogram `t` whose
counts total less than `2^32` and that has at most `nstates` nonzero counts,
`fse_normalize_freq` returns and every symbol with `t[i] > 0` has `freq[i] ≥ 1`. -/
theorem normalize_used_of_domain (n : Nat) (hn : n ≤ 15) (t : List Nat) (ht : t ≠ [])
    (hT : t.sum < 4294967296) (hused : used_symbols t ≤ 2 ^ n) (fuel : Nat) (hfuel : 4 ≤ fuel) :
    ∃ freq, fse_normalize_freq fuel (2 ^ n) t = some freq ∧ freq.length = t.length ∧
      ∀ i, 0 < t.getD i 0 → 1 ≤ freq.getD i 0 := by
  obtain ⟨freq, h1, h2, -, h4, -⟩ := normalize_spec n hn t fuel hfuel ht hT hused
  exact ⟨freq, h1, h2, fun i hi => h4 i (by omega)⟩

/-- Witness of `normalize_used_of_domain`: twelve used symbols on 16 states, a call that goes
through `fse_adjust_freqs`. -/
theorem normalize_used_of_domain_witness :
    (4 ≤ 15 ∧ [100, 100, 100, 1, 1, 1, 1, 1, 1, 1, 1, 1] ≠ [] ∧
        [100, 100, 100, 1, 1, 1, 1, 1, 1, 1, 1, 1].sum < 4294967296 ∧
        used_symbols [100, 100, 100, 1, 1, 1, 1, 1, 1, 1, 1, 1] ≤ 2 ^ 4 ∧ 4 ≤ 4) ∧
      ∃ freq, fse_normalize_freq 4 (2 ^ 4) [100, 100, 100, 1, 1, 1, 1, 1, 1, 1, 1, 1]
          = some freq ∧
        freq.length = [100, 100, 100, 1, 1, 1, 1, 1, 1, 1, 1, 1].length ∧
        ∀ i, 0 < [100, 100, 100, 1, 1, 1, 1, 1, 1, 1, 1, 1].getD i 0 → 1 ≤ freq.getD i 0 :=
  ⟨⟨by decide, by decide, by decide, by decide, by decide⟩,
    normalize_used_of_domain 4 (by decide) [100, 100, 100, 1, 1, 1, 1, 1, 1, 1, 1, 1]
      (by decide) (by decide) (by decide) 4 (by decide)⟩

/-- Claim C4 fails as stated. With `nstates = 65536` and `t = [4, 0]` the only used symbol
rounds to 65536, stored as 0: the output is `[0, 0]`. -/
theorem normalize_used_fails :
    ¬ ∃ fuel freq, fse_normalize_freq fuel 65536 [4, 0] = some freq ∧
      ∀ i, 0 < [4, 0].getD i 0 → 1 ≤ freq.getD i 0 := by
  rintro ⟨fuel, freq, h, hs⟩
  have h0 : fse_normalize_freq fuel 65536 [4, 0] = some [0, 0] := rfl
  rw [h0] at h
  cases h
  exact absurd (hs 0 (by decide)) (by decide)

/-- Claim C5, amended: whenever `fse_normalize_freq` returns on a histogram with some nonzero
count (any `nstates` that is an `int`), every symbol with `t[i] = 0` has `freq[i] = 0` in the
output; it does return (four passes of the adjustment loop suffice) for `nstates = 2^n` with
`n ≤ 15` and a nonempty histogram whose counts total less than `2^32` and that has at most
`nstates` nonzero counts; and on such a histogram with all counts 0, symbol 0 receives all
`nstates` states and every other symbol receives none. -/
theorem normalize_unused (n : Nat) (hn : n ≤ 15) (t : List Nat) (ht : t ≠ [])
    (hT : t.sum < 4294967296) (hused : used_symbols t ≤ 2 ^ n) (fuel : Nat) (hfuel : 4 ≤ fuel) :
    (∀ (nstates : Int) (u : List Nat) (passes : Nat) (freq : List Nat),
      -2147483648 ≤ nstates → nstates < 2147483648 →
      fse_normalize_freq passes nstates u = some freq → (∃ ui ∈ u, ui ≠ 0) →
      ∀ i, u.getD i 0 = 0 → freq.getD i 0 = 0) ∧
    ∃ freq, fse_normalize_freq fuel (2 ^ n) t = some freq ∧ freq.length = t.length ∧
      (t.sum ≠ 0 → ∀ i, t.getD i 0 = 0 → freq.getD i 0 = 0) ∧
      (t.sum = 0 → freq.getD 0 0 = 2 ^ n ∧ ∀ i, i ≠ 0 → freq.getD i 0 = 0) := by
  refine ⟨fun nstates u passes freq h0 h1 h hex =>
    normalize_unused_partial nstates h0 h1 u passes freq h hex, ?_⟩
  obtain ⟨freq, h1, h2, -, -, h5, h6⟩ := normalize_spec n hn t fuel hfuel ht hT hused
  exact ⟨freq, h1, h2, h5, h6⟩

/-- Witness of `normalize_unused`: `t = [10, 5, 0, 1]` with 16 states. -/
theorem normalize_unused_witness :
    (4 ≤ 15 ∧ [10, 5, 0, 1] ≠ [] ∧ [10, 5, 0, 1].sum < 4294967296 ∧
        used_symbols [10, 5, 0, 1] ≤ 2 ^ 4 ∧ 4 ≤ 4) ∧
      ∃ freq, fse_normalize_freq 4 (2 ^ 4) [10, 5, 0, 1] = some freq ∧
        freq.length = [10, 5, 0, 1].length ∧
        ([10, 5, 0, 1].sum ≠ 0 → ∀ i, [10, 5, 0, 1].getD i 0 = 0 → freq.getD i 0 = 0) ∧
        ([10, 5, 0, 1].sum = 0 → freq.getD 0 0 = 2 ^ 4 ∧ ∀ i, i ≠ 0 → freq.getD i 0 = 0) :=
  ⟨⟨by decide, by decide, by decide, by decide, by decide⟩,
    (normalize_unused 4 (by decide) [10, 5, 0, 1] (by decide) (by decide) (by decide)
      4 (by decide)).2⟩

/-- Claim C5 fails as stated. With `nstates = 16` and `t = [0, 0]` (total count 0) the whole
shortfall of 16 states goes to `max_freq_sym = 0`: the output is `[16, 0]`. -/
theorem normalize_unused_fails :
    ¬ ∃ fuel freq, fse_normalize_freq fuel 16 [0, 0] = some freq ∧
      ∀ i, [0, 0].getD i 0 = 0 → freq.getD i 0 = 0 := by
  rintro ⟨fuel, freq, h, hs⟩
  have h0 : fse_normalize_freq fuel 16 [0, 0] = some [16, 0] := rfl
  rw [h0] at h
  cases h
  exact absurd (hs 0 (by decide)) (by decide)
/-- Claim C6: `lzfse_decode_buffer` returns 0 when `scratch_buffer` is `NULL` and the
allocation fails; otherwise, with the block decoder run on the zeroed state whose cursors are
`src = src_begin = src_buffer`, `src_end = src_buffer + src_size`,
`dst = dst_begin = dst_buffer`, `dst_end = dst_buffer + dst_size`, it returns `dst_size` when
the decoder reports destination-full, 0 when it reports any other status than OK, and the
final `dst` minus `dst_buffer` (as a `size_t`) when it reports OK. The two status codes are
distinct. -/
theorem lzfse_decode_buffer_result (I : lzfse_internal)
    (hcodes : I.LZFSE_STATUS_OK ≠ I.LZFSE_STATUS_DST_FULL)
    (kmalloc : Option lzfse_decoder_state) (dst_buffer dst_size src_buffer src_size : Nat)
    (scratch_buffer : Option lzfse_decoder_state) (m : memory) :
    (scratch_buffer = none → kmalloc = none →
      (lzfse_decode_buffer I kmalloc dst_buffer dst_size src_buffer src_size scratch_buffer
        m).1 = 0) ∧
    (¬ (scratch_buffer = none ∧ kmalloc = none) →
      ∀ status s1 m1,
        I.lzfse_decode
          { src := src_buffer, src_begin := src_buffer, src_end := src_buffer + src_size,
            dst := dst_buffer, dst_begin := dst_buffer, dst_end := dst_buffer + dst_size,
            rest := fun _ => 0 } m = (status, s1, m1) →
        (status = I.LZFSE_STATUS_DST_FULL →
          (lzfse_decode_buffer I kmalloc dst_buffer dst_size src_buffer src_size
            scratch_buffer m).1 = dst_size) ∧
        (status ≠ I.LZFSE_STATUS_DST_FULL → status ≠ I.LZFSE_STATUS_OK →
          (lzfse_decode_buffer I kmalloc dst_buffer dst_size src_buffer src_size
            scratch_buffer m).1 = 0) ∧
        (status = I.LZFSE_STATUS_OK →
          (lzfse_decode_buffer I kmalloc dst_buffer dst_size src_buffer src_size
            scratch_buffer m).1 = size_t ((s1.dst : Int) - dst_buffer) ∧
          (dst_buffer ≤ s1.dst → s1.dst - dst_buffer < 18446744073709551616 →
            (lzfse_decode_buffer I kmalloc dst_buffer dst_size src_buffer src_size
              scratch_buffer m).1 = s1.dst - dst_buffer))) := by
  constructor
  · intro hs hk
    subst hs hk
    rfl
  · intro hne status s1 m1 hdec
    have hrun : ∃ g, lzfse_decode_buffer I kmalloc dst_buffer dst_size src_buffer src_size
        scratch_buffer m
        = lzfse_decode_buffer_with_scratch I dst_buffer dst_size src_buffer src_size g m := by
      cases scratch_buffer with
      | some g => exact ⟨g, rfl⟩
      | none =>
        cases kmalloc with
        | some g => exact ⟨g, rfl⟩
        | none => exact absurd ⟨rfl, rfl⟩ hne
    obtain ⟨g, hg⟩ := hrun
    have hinit : lzfse_decode_initial_state dst_buffer dst_size src_buffer src_size g
        = { src := src_buffer, src_begin := src_buffer, src_end := src_buffer + src_size,
            dst := dst_buffer, dst_begin := dst_buffer, dst_end := dst_buffer + dst_size,
            rest := fun _ => 0 } := rfl
    rw [hg]
    unfold lzfse_decode_buffer_with_scratch
    rw [hinit]
    simp only [hdec]
    refine ⟨?_, ?_, ?_⟩
    · intro h
      simp only [h, if_true]
    · intro h1 h2
      simp only [h1, if_false, ne_eq, h2, not_false_eq_true, if_true]
    · intro h
      have h1 : ¬ status = I.LZFSE_STATUS_DST_FULL := by rw [h]; exact hcodes
      have hret : (if status = I.LZFSE_STATUS_DST_FULL then (dst_size, m1)
          else if status ≠ I.LZFSE_STATUS_OK then (0, m1)
          else (size_t ((s1.dst : Int) - dst_buffer), m1)).1
          = size_t ((s1.dst : Int) - dst_buffer) := by
        rw [if_neg h1, if_neg (not_not.2 h)]
      refine ⟨hret, ?_⟩
      intro hle hlt
      rw [hret]
      unfold size_t
      omega

/-- Witness of `lzfse_decode_buffer_result`: with the example decoder, which reports OK after
advancing `dst` by 3, a call without scratch buffer whose allocation succeeds returns 3. -/
theorem lzfse_decode_buffer_result_witness :
    lzfse_internal_example.LZFSE_STATUS_OK ≠ lzfse_internal_example.LZFSE_STATUS_DST_FULL ∧
      (lzfse_decode_buffer lzfse_internal_example (some (memset_zero ⟨0, 0, 0, 0, 0, 0, fun _ => 0⟩))
        100 10 200 5 none (fun _ => 0)).1 = 103 - 100 :=
  ⟨by decide,
    ((((lzfse_decode_buffer_result lzfse_internal_example (by decide)
      (some (memset_zero ⟨0, 0, 0, 0, 0, 0, fun _ => 0⟩)) 100 10 200 5 none (fun _ => 0)).2
      (by simp)) 0 _ _ rfl).2.2 rfl).2 (by decide) (by decide)⟩

/-- Claim C7, amended: for every histogram of `uint16_t` frequencies whose sum is `nstates`
(a state count that fits an `int`), every slot below `nstates` holds a decoder entry, and
whenever `fse_init_decoder_table` records `{symbol, k, delta}` at a slot, the slot belongs to a
symbol index `i` with `symbol = i mod 256` (so `symbol = i` when there are at most 256
symbols) and `fse_init_value_decoder_table` records at that slot an entry with the same
`delta`, `value_bits = symbol_vbits[i]`, `vbase = symbol_vbase[i]` and
`total_bits = (k + symbol_vbits[i]) mod 256`, which is `k + symbol_vbits[i]` when that sum is
below 256. -/
theorem value_table_extends_decoder_table_of_valid (nstates : Int) (freq : List Nat)
    (symbol_vbits : Nat → Nat) (symbol_vbase : Nat → Int) (hN : nstates < 2147483648)
    (hf : ∀ f ∈ freq, f < 65536) (hsum : ((freq.sum : Nat) : Int) = nstates) :
    (∀ p : Nat, (p : Int) < nstates → ∃ e, (p, e) ∈ (fse_init_decoder_table nstates freq).2) ∧
    ∀ p e, (p, e) ∈ (fse_init_decoder_table nstates freq).2 →
      ∃ i v, i < freq.length ∧ e.symbol = i % 256 ∧ (freq.length ≤ 256 → e.symbol = i) ∧
        (p, v) ∈ fse_init_value_decoder_table nstates freq symbol_vbits symbol_vbase ∧
        v.delta = e.delta ∧ v.value_bits = symbol_vbits i ∧ v.vbase = symbol_vbase i ∧
        v.total_bits = u8 (e.k + symbol_vbits i) ∧
        (e.k + symbol_vbits i < 256 → v.total_bits = e.k + symbol_vbits i) := by
  have hs : (0 : Int) + (freq.sum : Nat) ≤ nstates := by omega
  constructor
  · intro p hp
    have h2 := (decoder_loop_slots nstates (clz nstates) hN freq 0 0 0 le_rfl hs).2
    have hmem : p ∈ slots_written
        (fse_init_decoder_table_loop nstates (clz nstates) 0 0 0 freq).2 := by
      rw [h2, List.mem_range']
      exact ⟨p, by omega, by omega⟩
    simp only [slots_written, List.mem_map] at hmem
    obtain ⟨⟨q, e⟩, hqe, rfl⟩ := hmem
    exact ⟨e, hqe⟩
  · intro p e hpe
    obtain ⟨i, v, -, hi, hv, hsym, h1, h2, h3, h4, h5, -⟩ :=
      value_loop_extends nstates symbol_vbits symbol_vbase hN freq 0 0 0 hf le_rfl hs p e hpe
    refine ⟨i, v, by omega, hsym, ?_, hv, h1, h2, h3, h4, ?_⟩
    · intro hlen
      rw [hsym]
      exact Nat.mod_eq_of_lt (by omega)
    · intro hlt
      rw [h4]
      unfold u8
      omega

/-- Witness of `value_table_extends_decoder_table_of_valid`: the histogram `[2, 0, 1, 1]` with
4 states, 3 value bits for every symbol. -/
theorem value_table_extends_decoder_table_of_valid_witness :
    ((4 : Int) < 2147483648 ∧ (∀ f ∈ [2, 0, 1, 1], f < 65536) ∧
        (([2, 0, 1, 1].sum : Nat) : Int) = 4) ∧
      (∀ p : Nat, (p : Int) < 4 → ∃ e, (p, e) ∈ (fse_init_decoder_table 4 [2, 0, 1, 1]).2) ∧
      ∀ p e, (p, e) ∈ (fse_init_decoder_table 4 [2, 0, 1, 1]).2 →
        ∃ i v, i < [2, 0, 1, 1].length ∧ e.symbol = i % 256 ∧
          ([2, 0, 1, 1].length ≤ 256 → e.symbol = i) ∧
          (p, v) ∈ fse_init_value_decoder_table 4 [2, 0, 1, 1] (fun _ => 3) (fun i => 10 * i) ∧
          v.delta = e.delta ∧ v.value_bits = (fun _ => 3) i ∧
          v.vbase = (fun i : Nat => 10 * (i : Int)) i ∧
          v.total_bits = u8 (e.k + ((fun _ => 3) i : Nat)) ∧
          (e.k + ((fun _ => 3) i : Nat) < 256 → v.total_bits = e.k + ((fun _ => 3) i : Nat)) :=
  ⟨⟨by decide, by decide, by decide⟩,
    value_table_extends_decoder_table_of_valid 4 [2, 0, 1, 1] (fun _ => 3) (fun i => 10 * i)
      (by decide) (by decide) (by decide)⟩

set_option maxRecDepth 100000 in
/-- Claim C7 fails as stated, in two ways. With 257 symbols the decoder entry of symbol 256
carries symbol field 0, so the value bits at its slot are those of symbol 256 and not those of
the symbol the decoder entry names. With 255 value bits the one-byte `total_bits` is
`(1 + 255) mod 256 = 0` and not `k + symbol_vbits[i] = 256`. -/
theorem value_table_extends_decoder_table_fails :
    ¬ value_table_extends_decoder_table 2 (1 :: List.replicate 255 0 ++ [1])
        (fun i => i / 256) (fun _ => 0) ∧
    ¬ value_table_extends_decoder_table 2 [1, 1] (fun _ => 255) (fun _ => 0) := by
  constructor
  · intro h
    obtain ⟨v, hv, -, h2, -⟩ := h 1 ⟨1, 0, 0⟩ (by decide)
    have hl : fse_init_value_decoder_table 2 (1 :: List.replicate 255 0 ++ [1])
        (fun i => i / 256) (fun _ => 0) = [(0, ⟨1, 0, 0, 0⟩), (1, ⟨2, 1, 0, 0⟩)] := by decide
    rw [hl] at hv
    simp only [List.mem_cons, Prod.mk.injEq, List.mem_singleton, List.not_mem_nil,
      or_false] at hv
    rcases hv with ⟨h0, -⟩ | ⟨-, rfl⟩
    · exact absurd h0 (by decide)
    · exact absurd h2 (by decide)
  · intro h
    obtain ⟨v, hv, -, -, -, h4⟩ := h 0 ⟨1, 0, 0⟩ (by decide)
    have hl : fse_init_value_decoder_table 2 [1, 1] (fun _ => 255) (fun _ => 0)
        = [(0, ⟨0, 255, 0, 0⟩), (1, ⟨0, 255, 0, 0⟩)] := by decide
    rw [hl] at hv
    simp only [List.mem_cons, Prod.mk.injEq, List.mem_singleton, List.not_mem_nil,
      or_false] at hv
    rcases hv with ⟨-, rfl⟩ | ⟨h0, -⟩
    · exact absurd h4 (by decide)
    · exact absurd h0 (by decide)

/-- Claim C8, amended: for every `nstates = 2^n` that an `int` holds (`n ≤ 30`) and every
symbol `i` with `1 ≤ freq[i] ≤ nstates`, `fse_init_encoder_table` stores
`k = clz(f) - clz(nstates)`, with `k ≥ 0` and `nstates ≤ (f << k) < 2 * nstates`, and stores
`s0 = (int16_t)((f << k) - nstates)`; when `n ≤ 15` this is `(f << k) - nstates` itself, with
`0 ≤ s0 < nstates`. The entry of a symbol of frequency 0 is left as it was. -/
theorem encoder_entry_shift_and_bias_of_pow (n : Nat) (hn : n ≤ 30) (freq : List Nat)
    (t : Nat → fse_encoder_entry) (i : Nat) :
    (1 ≤ freq.getD i 0 → (freq.getD i 0 : Int) ≤ 2 ^ n →
      (fse_init_encoder_table (2 ^ n) freq t i).k = clz (freq.getD i 0) - clz (2 ^ n) ∧
      0 ≤ (fse_init_encoder_table (2 ^ n) freq t i).k ∧
      2 ^ n ≤ shl (freq.getD i 0) (fse_init_encoder_table (2 ^ n) freq t i).k ∧
      shl (freq.getD i 0) (fse_init_encoder_table (2 ^ n) freq t i).k < 2 * 2 ^ n ∧
      (fse_init_encoder_table (2 ^ n) freq t i).s0
        = i16 (shl (freq.getD i 0) (fse_init_encoder_table (2 ^ n) freq t i).k - 2 ^ n)) ∧
    (freq.getD i 0 = 0 → fse_init_encoder_table (2 ^ n) freq t i = t i) ∧
    (n ≤ 15 → encoder_entry_shift_and_bias (2 ^ n) freq t i) := by
  have hzero : freq.getD i 0 = 0 → fse_init_encoder_table (2 ^ n) freq t i = t i := by
    intro hz
    unfold fse_init_encoder_table
    rw [encoder_loop_at]
    simp only [Nat.not_lt_zero, false_or, Nat.sub_zero]
    rw [if_pos hz]
  have hmain : 1 ≤ freq.getD i 0 → (freq.getD i 0 : Int) ≤ 2 ^ n →
      (fse_init_encoder_table (2 ^ n) freq t i).k = clz (freq.getD i 0) - clz (2 ^ n) ∧
      0 ≤ (fse_init_encoder_table (2 ^ n) freq t i).k ∧
      2 ^ n ≤ shl (freq.getD i 0) (fse_init_encoder_table (2 ^ n) freq t i).k ∧
      shl (freq.getD i 0) (fse_init_encoder_table (2 ^ n) freq t i).k < 2 * 2 ^ n ∧
      (fse_init_encoder_table (2 ^ n) freq t i).s0
        = i16 (shl (freq.getD i 0) (fse_init_encoder_table (2 ^ n) freq t i).k - 2 ^ n) := by
    intro hf1 hfN
    unfold fse_init_encoder_table
    rw [encoder_loop_at]
    simp only [Nat.not_lt_zero, false_or, Nat.sub_zero]
    generalize freq.getD i 0 = f at hf1 hfN
    have hcastN : ((2 : Int) ^ n) = ((2 ^ n : Nat) : Int) := by push_cast; rfl
    have hfN' : f ≤ 2 ^ n := by rw [hcastN] at hfN; exact_mod_cast hfN
    have hf0 : f ≠ 0 := by omega
    simp only [hf0, if_false, fse_init_encoder_table_entry]
    have hpn : 2 ^ n ≤ 2 ^ 30 := Nat.pow_le_pow_right (by decide) hn
    have hm1 : 2 ^ f.log2 ≤ f := Nat.log2_self_le hf0
    have hm2 : f < 2 ^ (f.log2 + 1) := Nat.lt_log2_self
    have hmn : f.log2 ≤ n := by
      by_contra hc
      have h1 : 2 ^ (n + 1) ≤ 2 ^ f.log2 := Nat.pow_le_pow_right (by decide) (by omega)
      have h2 : 2 ^ (n + 1) = 2 * 2 ^ n := by ring
      omega
    have hcf : clz (f : Int) = ((31 - f.log2 : Nat) : Int) := by
      rw [clz_of_nat f (by omega), clz32_of_log hm1 hm2 (by omega)]
    have hcn : clz ((2 : Int) ^ n) = ((31 - n : Nat) : Int) := by
      rw [clz_two_pow n hn]; omega
    rw [hcf, hcn]
    have hk : (((31 - f.log2 : Nat) : Int) - ((31 - n : Nat) : Int))
        = ((n - f.log2 : Nat) : Int) := by omega
    rw [hk]
    have hi16 : i16 ((n - f.log2 : Nat) : Int) = ((n - f.log2 : Nat) : Int) := by
      unfold i16; omega
    have hshl : shl (f : Int) ((n - f.log2 : Nat) : Int)
        = ((f * 2 ^ (n - f.log2) : Nat) : Int) := by
      unfold shl
      have : ((((n - f.log2 : Nat) : Int)) % 32).toNat = n - f.log2 := by omega
      rw [this]; push_cast; rfl
    have hsplit : 2 ^ n = 2 ^ f.log2 * 2 ^ (n - f.log2) := by
      have hadd : f.log2 + (n - f.log2) = n := by omega
      rw [← Nat.pow_add, hadd]
    have hpos : 0 < 2 ^ (n - f.log2) := Nat.pow_pos (by decide)
    have hlo : 2 ^ n ≤ f * 2 ^ (n - f.log2) :=
      le_of_eq_of_le hsplit (Nat.mul_le_mul_right _ hm1)
    have hhi : f * 2 ^ (n - f.log2) < 2 * 2 ^ n := by
      have h2 : 2 ^ (f.log2 + 1) * 2 ^ (n - f.log2) = 2 * 2 ^ n := by
        rw [Nat.pow_succ, Nat.mul_comm (2 ^ f.log2) 2, Nat.mul_assoc, ← hsplit]
      exact lt_of_lt_of_eq (Nat.mul_lt_mul_of_pos_right hm2 hpos) h2
    rw [hi16, hshl, hcastN]
    refine ⟨by omega, by omega, by omega, by omega, rfl⟩
  refine ⟨hmain, hzero, ?_⟩
  intro hn15
  refine ⟨?_, hzero⟩
  intro hf1 hfN
  obtain ⟨h1, h2, h3, h4, h5⟩ := hmain hf1 hfN
  have hP : (2 : Int) ^ n ≤ 32768 := by
    have := pow_le_pow_right₀ (show (1 : Int) ≤ 2 by norm_num) hn15
    norm_num at this
    exact this
  have hs0 : (fse_init_encoder_table (2 ^ n) freq t i).s0
      = shl (freq.getD i 0) (fse_init_encoder_table (2 ^ n) freq t i).k - 2 ^ n := by
    rw [h5]; unfold i16; omega
  exact ⟨h1, h2, h3, h4, hs0, by omega, by omega⟩

/-- Witness of `encoder_entry_shift_and_bias_of_pow`: symbol 0 of `[10, 5, 0, 1]` with 16
states has `k = 1` and `s0 = 4`. -/
theorem encoder_entry_shift_and_bias_of_pow_witness :
    (4 ≤ 30 ∧ 4 ≤ 15) ∧
      encoder_entry_shift_and_bias (2 ^ 4) [10, 5, 0, 1] (fun _ => ⟨0, 0, 0, 0⟩) 0 :=
  ⟨by decide, (encoder_entry_shift_and_bias_of_pow 4 (by decide) [10, 5, 0, 1]
    (fun _ => ⟨0, 0, 0, 0⟩) 0).2.2 (by decide)⟩

/-- Claim C8 fails as stated: with `nstates = 65536` and `f = 65535` the shift is `k = 1` and
`(f << k) - nstates = 65534`, which is stored as `(int16_t)65534 = -2`. -/
theorem encoder_entry_shift_and_bias_fails_65536 :
    (fse_init_encoder_table 65536 [65535] (fun _ => ⟨0, 0, 0, 0⟩) 0).s0 = -2 ∧
      ¬ encoder_entry_shift_and_bias 65536 [65535] (fun _ => ⟨0, 0, 0, 0⟩) 0 := by
  have h : (fse_init_encoder_table 65536 [65535] (fun _ => ⟨0, 0, 0, 0⟩) 0).s0 = -2 := by
    decide
  refine ⟨h, ?_⟩
  intro hc
  have h1 := (hc.1 (by decide) (by decide)).2.2.2.2.2.1
  rw [h] at h1
  exact absurd h1 (by decide)
/-- Claim C9: for every destination, source and memory, `lzfse_decode_buffer` called with a
caller-supplied scratch buffer, whatever record `g_caller` it holds, returns the same value and
leaves the same memory as the call with `scratch_buffer == NULL` whose allocation succeeds,
whatever the fresh block `g_alloc` holds: the state the block decoder starts from is the same
zeroed and re-initialised record in both calls. -/
theorem lzfse_decode_buffer_scratch_parity (I : lzfse_internal)
    (kmalloc : Option lzfse_decoder_state) (g_caller g_alloc : lzfse_decoder_state)
    (dst_buffer dst_size src_buffer src_size : Nat) (m : memory) :
    lzfse_decode_buffer I kmalloc dst_buffer dst_size src_buffer src_size (some g_caller) m
      = lzfse_decode_buffer I (some g_alloc) dst_buffer dst_size src_buffer src_size none m ∧
    lzfse_decode_initial_state dst_buffer dst_size src_buffer src_size g_caller
      = lzfse_decode_initial_state dst_buffer dst_size src_buffer src_size g_alloc := by
  have hinit : lzfse_decode_initial_state dst_buffer dst_size src_buffer src_size g_caller
      = lzfse_decode_initial_state dst_buffer dst_size src_buffer src_size g_alloc := by
    unfold lzfse_decode_initial_state memset_zero
    rfl
  refine ⟨?_, hinit⟩
  unfold lzfse_decode_buffer
  simp only
  unfold lzfse_decode_buffer_with_scratch
  rw [hinit]

/-- Claim C11, amended: with the block decoder of the specification, for every stream whose
decoding with enough room is done and gives the bytes `full`, and every `dst_size` below the
length of `full`, `lzfse_decode_buffer` called with a scratch buffer, or with none and a
successful allocation, returns exactly `dst_size`, and the `dst_size` bytes found at
`dst_buffer` are the first `dst_size` bytes of `full`. -/
theorem lzfse_decode_buffer_truncation (container : List Nat → List lzfse_block)
    (OK DST_FULL ERROR : Int) (kmalloc : Option lzfse_decoder_state)
    (dst_buffer dst_size src_buffer src_size : Nat)
    (scratch_buffer : Option lzfse_decoder_state) (m : memory)
    (halloc : ¬ (scratch_buffer = none ∧ kmalloc = none)) (c : Nat) (full : List Nat)
    (hfull : lzfse_decode_blocks c (container (memory_bytes m src_buffer src_size)) []
      = (lzfse_status.ok, full))
    (hlt : dst_size < full.length) :
    (lzfse_decode_buffer (lzfse_internal_from_spec container OK DST_FULL ERROR) kmalloc
      dst_buffer dst_size src_buffer src_size scratch_buffer m).1 = dst_size ∧
    ∀ k, k < dst_size →
      (lzfse_decode_buffer (lzfse_internal_from_spec container OK DST_FULL ERROR) kmalloc
        dst_buffer dst_size src_buffer src_size scratch_buffer m).2 (dst_buffer + k)
        = full.getD k 0 := by
  have hrun : ∃ g, lzfse_decode_buffer (lzfse_internal_from_spec container OK DST_FULL ERROR)
      kmalloc dst_buffer dst_size src_buffer src_size scratch_buffer m
      = lzfse_decode_buffer_with_scratch (lzfse_internal_from_spec container OK DST_FULL ERROR)
          dst_buffer dst_size src_buffer src_size g m := by
    cases scratch_buffer with
    | some g => exact ⟨g, rfl⟩
    | none =>
      cases kmalloc with
      | some g => exact ⟨g, rfl⟩
      | none => exact absurd ⟨rfl, rfl⟩ halloc
  obtain ⟨g, hg⟩ := hrun
  have htr := lzfse_decode_blocks_truncation _ c dst_size full hfull hlt
  have hdec : (lzfse_internal_from_spec container OK DST_FULL ERROR).lzfse_decode
      (lzfse_decode_initial_state dst_buffer dst_size src_buffer src_size g) m
      = (DST_FULL,
          { lzfse_decode_initial_state dst_buffer dst_size src_buffer src_size g with
            dst := dst_buffer + (full.take dst_size).length },
          fun a => if dst_buffer ≤ a ∧ a < dst_buffer + (full.take dst_size).length
            then (full.take dst_size).getD (a - dst_buffer) 0 else m a) := by
    show lzfse_decode_from_spec container OK DST_FULL ERROR
      (lzfse_decode_initial_state dst_buffer dst_size src_buffer src_size g) m = _
    unfold lzfse_decode_from_spec
    have h1 : (lzfse_decode_initial_state dst_buffer dst_size src_buffer src_size g).src
        = src_buffer := rfl
    have h2 : (lzfse_decode_initial_state dst_buffer dst_size src_buffer src_size g).src_end
        = src_buffer + src_size := rfl
    have h3 : (lzfse_decode_initial_state dst_buffer dst_size src_buffer src_size g).dst
        = dst_buffer := rfl
    have h4 : (lzfse_decode_initial_state dst_buffer dst_size src_buffer src_size g).dst_end
        = dst_buffer + dst_size := rfl
    simp only [h1, h2, h3, h4, Nat.add_sub_cancel_left, htr]
  rw [hg]
  unfold lzfse_decode_buffer_with_scratch
  simp only [hdec]
  have hcode : (lzfse_internal_from_spec container OK DST_FULL ERROR).LZFSE_STATUS_DST_FULL
      = DST_FULL := rfl
  rw [hcode, if_pos rfl]
  refine ⟨rfl, ?_⟩
  intro k hk
  have hlen : (full.take dst_size).length = dst_size := by
    rw [List.length_take]; omega
  simp only [hlen]
  rw [if_pos ⟨by omega, by omega⟩, Nat.add_sub_cancel_left]
  rw [List.getD_eq_getElem?_getD, List.getD_eq_getElem?_getD, List.getElem?_take_of_lt hk]

/-- Witness of `lzfse_decode_buffer_truncation`: a stream of one entropy-coded block with the
literal 7 and the triple `(1, 5, 1)`, which decodes to six bytes 7, read into 4 bytes. -/
theorem lzfse_decode_buffer_truncation_witness :
    (¬ ((some ⟨0, 0, 0, 0, 0, 0, fun _ => 0⟩ : Option lzfse_decoder_state) = none ∧
          (none : Option lzfse_decoder_state) = none) ∧
      lzfse_decode_blocks 6
          ((fun _ => [lzfse_block.entropy_coded [7] [(1, 5, 1)], lzfse_block.end_of_stream])
            (memory_bytes (fun _ => 0) 0 0)) []
        = (lzfse_status.ok, [7, 7, 7, 7, 7, 7]) ∧
      4 < [7, 7, 7, 7, 7, 7].length) ∧
    (lzfse_decode_buffer
      (lzfse_internal_from_spec
        (fun _ => [lzfse_block.entropy_coded [7] [(1, 5, 1)], lzfse_block.end_of_stream])
        0 (-2) (-3))
      none 100 4 0 0 (some ⟨0, 0, 0, 0, 0, 0, fun _ => 0⟩) (fun _ => 0)).1 = 4 :=
  ⟨⟨fun h => Option.noConfusion h.1, by decide, by decide⟩,
    (lzfse_decode_buffer_truncation
      (fun _ => [lzfse_block.entropy_coded [7] [(1, 5, 1)], lzfse_block.end_of_stream])
      0 (-2) (-3) none 100 4 0 0 (some ⟨0, 0, 0, 0, 0, 0, fun _ => 0⟩) (fun _ => 0)
      (fun h => Option.noConfusion h.1) 6 [7, 7, 7, 7, 7, 7] (by decide) (by decide)).1⟩

/-- Claim C11 fails as stated: for a stream that decodes to the three bytes `[1, 2, 3]` and
`dst_size = 2`, the call with no scratch buffer whose allocation fails returns 0, not 2. -/
theorem lzfse_decode_buffer_truncation_fails_without_scratch :
    lzfse_decode_blocks 3
        ((fun _ => [lzfse_block.raw [1, 2, 3], lzfse_block.end_of_stream])
          (memory_bytes (fun _ => 0) 0 0)) []
      = (lzfse_status.ok, [1, 2, 3]) ∧
    (lzfse_decode_buffer
      (lzfse_internal_from_spec
        (fun _ => [lzfse_block.raw [1, 2, 3], lzfse_block.end_of_stream]) 0 (-2) (-3))
      none 100 2 0 0 none (fun _ => 0)).1 = 0 :=
  ⟨by decide, rfl⟩

end Lzfse

namespace Apfs

/-! ## Extended attributes -/

/-- The two outcomes of `apfs_xattr_from_query`, by the checks it makes. -/
theorem apfs_xattr_from_query_cases (H : apfs_headers) (query : apfs_query)
    (xattr : apfs_xattr) :
    ((1 ≤ Lzfse.i32 (query.key_len - H.sizeof_apfs_xattr_key) ∧
        0 ≤ Lzfse.i32 (query.len - H.sizeof_apfs_xattr_val) ∧
        Lzfse.i32 (query.key_len - H.sizeof_apfs_xattr_key) = query.name_len ∧
        query.name (Lzfse.i32 (query.key_len - H.sizeof_apfs_xattr_key) - 1).toNat = 0 ∧
        Lzfse.i32 (query.len - H.sizeof_apfs_xattr_val)
          = (if query.flags &&& H.APFS_XATTR_DATA_STREAM ≠ 0
              then (H.sizeof_apfs_xattr_dstream : Int) else (query.xdata_len : Int))) →
      apfs_xattr_from_query H query xattr
        = (0, { name := query.name,
                name_len := Lzfse.i32 (query.key_len - H.sizeof_apfs_xattr_key) - 1,
                xdata := query.xdata,
                xdata_len := Lzfse.i32 (query.len - H.sizeof_apfs_xattr_val),
                has_dstream := decide (query.flags &&& H.APFS_XATTR_DATA_STREAM ≠ 0) })) ∧
    (¬ (1 ≤ Lzfse.i32 (query.key_len - H.sizeof_apfs_xattr_key) ∧
        0 ≤ Lzfse.i32 (query.len - H.sizeof_apfs_xattr_val) ∧
        Lzfse.i32 (query.key_len - H.sizeof_apfs_xattr_key) = query.name_len ∧
        query.name (Lzfse.i32 (query.key_len - H.sizeof_apfs_xattr_key) - 1).toNat = 0 ∧
        Lzfse.i32 (query.len - H.sizeof_apfs_xattr_val)
          = (if query.flags &&& H.APFS_XATTR_DATA_STREAM ≠ 0
              then (H.sizeof_apfs_xattr_dstream : Int) else (query.xdata_len : Int))) →
      (apfs_xattr_from_query H query xattr).1 = -H.EFSCORRUPTED) := by
  unfold apfs_xattr_from_query
  generalize Lzfse.i32 (query.key_len - H.sizeof_apfs_xattr_key) = namelen
  have hdl : Lzfse.i32 (query.len - H.sizeof_apfs_xattr_val) < 2147483648 := by
    unfold Lzfse.i32; omega
  generalize Lzfse.i32 (query.len - H.sizeof_apfs_xattr_val) = datalen at hdl ⊢
  by_cases h1 : namelen < 1 ∨ datalen < 0
  · rw [if_pos h1]
    exact ⟨fun hv => by omega, fun _ => rfl⟩
  rw [if_neg h1]
  by_cases h2 : namelen ≠ query.name_len
  · rw [if_pos h2]
    exact ⟨fun hv => absurd hv.2.2.1 h2, fun _ => rfl⟩
  rw [if_neg h2]
  by_cases h3 : query.name (namelen - 1).toNat ≠ 0
  · rw [if_pos h3]
    exact ⟨fun hv => absurd hv.2.2.2.1 h3, fun _ => rfl⟩
  rw [if_neg h3]
  have hst : Lzfse.size_t datalen = datalen.toNat := by
    unfold Lzfse.size_t
    have : datalen % 18446744073709551616 = datalen := by omega
    rw [this]
  rw [hst]
  by_cases hflag : query.flags &&& H.APFS_XATTR_DATA_STREAM ≠ 0
  · have hd : decide (query.flags &&& H.APFS_XATTR_DATA_STREAM ≠ 0) = true :=
      decide_eq_true hflag
    rw [if_pos hflag]
    simp only [hd]
    by_cases h4 : datalen.toNat ≠ H.sizeof_apfs_xattr_dstream
    · rw [if_pos ⟨by trivial, h4⟩]
      exact ⟨fun hv => by omega, fun _ => rfl⟩
    · rw [if_neg (fun h => h4 h.2), if_neg (fun h => by cases h.1)]
      exact ⟨fun _ => rfl, fun hv => absurd ⟨by omega, by omega, by omega,
        not_not.1 h3, by omega⟩ hv⟩
  · have hd : decide (query.flags &&& H.APFS_XATTR_DATA_STREAM ≠ 0) = false :=
      decide_eq_false hflag
    rw [if_neg hflag]
    simp only [hd]
    rw [if_neg (fun h => by cases h.1)]
    by_cases h4 : datalen ≠ query.xdata_len
    · rw [if_pos ⟨by trivial, h4⟩]
      exact ⟨fun hv => absurd hv.2.2.2.2 h4, fun _ => rfl⟩
    · rw [if_neg (fun h => h4 h.2)]
      exact ⟨fun _ => rfl, fun hv => absurd ⟨by omega, by omega, by omega,
        not_not.1 h3, by omega⟩ hv⟩

/-! ## The claims on extended attributes -/

/-- Claim C12: `apfs_xattr_from_query` returns 0 if and only if `namelen` (the `int`
`key_len - sizeof(struct apfs_xattr_key)`) is at least 1, `datalen` (the `int`
`len - sizeof(struct apfs_xattr_val)`) is at least 0, `namelen` equals the on-disk `name_len`,
the name byte at index `namelen - 1` is 0, and `datalen` equals
`sizeof(struct apfs_xattr_dstream)` when the flag `APFS_XATTR_DATA_STREAM` is set, or the
on-disk `xdata_len` when it is not; it returns `-EFSCORRUPTED` otherwise. On success the
record has `name_len = namelen - 1` and `xdata_len = datalen`. The two `int`s are the plain
differences whenever these fit an `int`. -/
theorem apfs_xattr_from_query_valid (H : apfs_headers) (hE : H.EFSCORRUPTED ≠ 0)
    (query : apfs_query) (xattr : apfs_xattr) :
    ((apfs_xattr_from_query H query xattr).1 = 0 ↔
      1 ≤ Lzfse.i32 (query.key_len - H.sizeof_apfs_xattr_key) ∧
      0 ≤ Lzfse.i32 (query.len - H.sizeof_apfs_xattr_val) ∧
      Lzfse.i32 (query.key_len - H.sizeof_apfs_xattr_key) = query.name_len ∧
      query.name (Lzfse.i32 (query.key_len - H.sizeof_apfs_xattr_key) - 1).toNat = 0 ∧
      Lzfse.i32 (query.len - H.sizeof_apfs_xattr_val)
        = (if query.flags &&& H.APFS_XATTR_DATA_STREAM ≠ 0
            then (H.sizeof_apfs_xattr_dstream : Int) else (query.xdata_len : Int))) ∧
    ((apfs_xattr_from_query H query xattr).1 ≠ 0 →
      (apfs_xattr_from_query H query xattr).1 = -H.EFSCORRUPTED) ∧
    ((apfs_xattr_from_query H query xattr).1 = 0 →
      (apfs_xattr_from_query H query xattr).2.name_len
        = Lzfse.i32 (query.key_len - H.sizeof_apfs_xattr_key) - 1 ∧
      (apfs_xattr_from_query H query xattr).2.xdata_len
        = Lzfse.i32 (query.len - H.sizeof_apfs_xattr_val)) ∧
    (-2147483648 ≤ query.key_len - H.sizeof_apfs_xattr_key →
      query.key_len - H.sizeof_apfs_xattr_key < 2147483648 →
      Lzfse.i32 (query.key_len - H.sizeof_apfs_xattr_key)
        = query.key_len - H.sizeof_apfs_xattr_key) ∧
    (-2147483648 ≤ query.len - H.sizeof_apfs_xattr_val →
      query.len - H.sizeof_apfs_xattr_val < 2147483648 →
      Lzfse.i32 (query.len - H.sizeof_apfs_xattr_val)
        = query.len - H.sizeof_apfs_xattr_val) := by
  have hneg : -H.EFSCORRUPTED ≠ 0 := by omega
  obtain ⟨hok, hbad⟩ := apfs_xattr_from_query_cases H query xattr
  refine ⟨?_, ?_, ?_, fun h1 h2 => Lzfse.i32_of_range h1 h2,
    fun h1 h2 => Lzfse.i32_of_range h1 h2⟩
  · constructor
    · intro h0
      by_contra hv
      rw [hbad hv] at h0
      exact hneg h0
    · intro hv
      rw [hok hv]
  · intro hne
    by_cases hv : (1 ≤ Lzfse.i32 (query.key_len - H.sizeof_apfs_xattr_key) ∧
        0 ≤ Lzfse.i32 (query.len - H.sizeof_apfs_xattr_val) ∧
        Lzfse.i32 (query.key_len - H.sizeof_apfs_xattr_key) = query.name_len ∧
        query.name (Lzfse.i32 (query.key_len - H.sizeof_apfs_xattr_key) - 1).toNat = 0 ∧
        Lzfse.i32 (query.len - H.sizeof_apfs_xattr_val)
          = (if query.flags &&& H.APFS_XATTR_DATA_STREAM ≠ 0
              then (H.sizeof_apfs_xattr_dstream : Int) else (query.xdata_len : Int)))
    · rw [hok hv] at hne
      exact absurd rfl hne
    · exact hbad hv
  · intro h0
    by_cases hv : (1 ≤ Lzfse.i32 (query.key_len - H.sizeof_apfs_xattr_key) ∧
        0 ≤ Lzfse.i32 (query.len - H.sizeof_apfs_xattr_val) ∧
        Lzfse.i32 (query.key_len - H.sizeof_apfs_xattr_key) = query.name_len ∧
        query.name (Lzfse.i32 (query.key_len - H.sizeof_apfs_xattr_key) - 1).toNat = 0 ∧
        Lzfse.i32 (query.len - H.sizeof_apfs_xattr_val)
          = (if query.flags &&& H.APFS_XATTR_DATA_STREAM ≠ 0
              then (H.sizeof_apfs_xattr_dstream : Int) else (query.xdata_len : Int)))
    · rw [hok hv]
      exact ⟨rfl, rfl⟩
    · rw [hbad hv] at h0
      exact absurd h0 hneg

/-- Witness of `apfs_xattr_from_query_valid`: the record named `"ab"` with three inline
bytes is read with status 0. -/
theorem apfs_xattr_from_query_valid_witness :
    apfs_headers_example.EFSCORRUPTED ≠ 0 ∧
      (apfs_xattr_from_query apfs_headers_example apfs_query_example apfs_xattr_zero).1 = 0 ∧
      (apfs_xattr_from_query apfs_headers_example apfs_query_example apfs_xattr_zero).2.name_len
        = 2 :=
  ⟨by decide,
    (apfs_xattr_from_query_valid apfs_headers_example (by decide) apfs_query_example
      apfs_xattr_zero).1.2 (by decide),
    by decide⟩

/-- Claim C13: for every record with `xdata_len = n`, `0 ≤ n` (an `int`), and every `size`,
`apfs_xattr_inline_read` returns `n` and copies nothing when `buffer` is `NULL`; with a
buffer and `only_whole` set it returns `-ERANGE` and copies nothing when `n > size`, and
otherwise copies exactly the `n` value bytes and returns `n`; with `only_whole` clear it
copies exactly the first `min(n, size)` value bytes and returns `min(n, size)`. The bytes of
the buffer from index `size` on are never written. -/
theorem apfs_xattr_inline_read_result (H : apfs_headers) (xattr : apfs_xattr)
    (buffer : Option (Nat → Nat)) (size : Nat) (only_whole : Bool)
    (h0 : 0 ≤ xattr.xdata_len) (h1 : xattr.xdata_len < 2147483648) :
    (buffer = none →
      apfs_xattr_inline_read H xattr buffer size only_whole = (xattr.xdata_len, none)) ∧
    (∀ buf, buffer = some buf → only_whole = true →
      ((size : Int) < xattr.xdata_len →
        apfs_xattr_inline_read H xattr buffer size only_whole = (-H.ERANGE, some buf)) ∧
      (xattr.xdata_len ≤ size →
        (apfs_xattr_inline_read H xattr buffer size only_whole).1 = xattr.xdata_len ∧
        ∃ out, (apfs_xattr_inline_read H xattr buffer size only_whole).2 = some out ∧
          (∀ k : Nat, (k : Int) < xattr.xdata_len → out k = xattr.xdata k) ∧
          (∀ k : Nat, xattr.xdata_len ≤ k → out k = buf k))) ∧
    (∀ buf, buffer = some buf → only_whole = false →
      (apfs_xattr_inline_read H xattr buffer size only_whole).1
        = min xattr.xdata_len (size : Int) ∧
      ∃ out, (apfs_xattr_inline_read H xattr buffer size only_whole).2 = some out ∧
        (∀ k : Nat, (k : Int) < min xattr.xdata_len (size : Int) → out k = xattr.xdata k) ∧
        (∀ k : Nat, min xattr.xdata_len (size : Int) ≤ k → out k = buf k)) ∧
    (∀ buf, buffer = some buf →
      ∃ out, (apfs_xattr_inline_read H xattr buffer size only_whole).2 = some out ∧
        ∀ k : Nat, size ≤ k → out k = buf k) := by
  have hst : Lzfse.size_t xattr.xdata_len = xattr.xdata_len.toNat := by
    unfold Lzfse.size_t
    have : xattr.xdata_len % 18446744073709551616 = xattr.xdata_len := by omega
    rw [this]
  have hsz : xattr.xdata_len.toNat > size → Lzfse.size_t (Lzfse.i32 size) = size := by
    intro h
    have hi : Lzfse.i32 (size : Int) = size := Lzfse.i32_of_range (by omega) (by omega)
    rw [hi]
    unfold Lzfse.size_t
    have : (size : Int) % 18446744073709551616 = size := by omega
    rw [this]
    omega
  refine ⟨?_, ?_, ?_, ?_⟩
  · intro hb
    subst hb
    rfl
  · intro buf hb how
    subst hb how
    unfold apfs_xattr_inline_read
    simp only [if_true, hst]
    constructor
    · intro hlt
      rw [if_pos (by omega)]
    · intro hle
      rw [if_neg (by omega)]
      refine ⟨rfl, _, rfl, ?_, ?_⟩
      · intro k hk
        unfold memcpy
        rw [if_pos (by omega)]
      · intro k hk
        unfold memcpy
        rw [if_neg (by omega)]
  · intro buf hb how
    subst hb how
    unfold apfs_xattr_inline_read
    simp only [Bool.false_eq_true, if_false, hst]
    by_cases hgt : xattr.xdata_len.toNat > size
    · simp only [if_pos hgt, hsz hgt]
      have hi : Lzfse.i32 (size : Int) = size := Lzfse.i32_of_range (by omega) (by omega)
      have hmin : min xattr.xdata_len (size : Int) = size := by omega
      rw [hi, hmin]
      refine ⟨rfl, _, rfl, ?_, ?_⟩
      · intro k hk
        unfold memcpy
        rw [if_pos (by omega)]
      · intro k hk
        unfold memcpy
        rw [if_neg (by omega)]
    · simp only [if_neg hgt, hst]
      have hmin : min xattr.xdata_len (size : Int) = xattr.xdata_len := by omega
      rw [hmin]
      refine ⟨rfl, _, rfl, ?_, ?_⟩
      · intro k hk
        unfold memcpy
        rw [if_pos (by omega)]
      · intro k hk
        unfold memcpy
        rw [if_neg (by omega)]
  · intro buf hb
    subst hb
    unfold apfs_xattr_inline_read
    simp only [hst]
    cases only_whole with
    | true =>
      simp only [if_true]
      by_cases hgt : xattr.xdata_len.toNat > size
      · rw [if_pos hgt]
        exact ⟨buf, rfl, fun _ _ => rfl⟩
      · rw [if_neg hgt]
        refine ⟨_, rfl, ?_⟩
        intro k hk
        unfold memcpy
        rw [if_neg (by omega)]
    | false =>
      simp only [Bool.false_eq_true, if_false]
      by_cases hgt : xattr.xdata_len.toNat > size
      · simp only [if_pos hgt, hsz hgt]
        refine ⟨_, rfl, ?_⟩
        intro k hk
        unfold memcpy
        rw [if_neg (by omega)]
      · simp only [if_neg hgt, hst]
        refine ⟨_, rfl, ?_⟩
        intro k hk
        unfold memcpy
        rw [if_neg (by omega)]

/-- Witness of `apfs_xattr_inline_read_result`: a value of 3 bytes read whole into a buffer
of 2 bytes gives `-ERANGE`. -/
theorem apfs_xattr_inline_read_result_witness :
    ((0 : Int) ≤ 3 ∧ (3 : Int) < 2147483648 ∧ ((2 : Nat) : Int) < 3) ∧
      apfs_xattr_inline_read apfs_headers_example
          { apfs_xattr_zero with xdata_len := 3 } (some fun _ => 0) 2 true
        = (-apfs_headers_example.ERANGE, some fun _ => 0) :=
  ⟨by decide,
    ((apfs_xattr_inline_read_result apfs_headers_example { apfs_xattr_zero with xdata_len := 3 }
      (some fun _ => 0) 2 true (by decide) (by decide)).2.1 (fun _ => 0) rfl rfl).1
      (by decide)⟩

/-- Claim C14, amended: `apfs_xattr_set` returns `-ERANGE` before any lookup when
`size > APFS_XATTR_MAX_EMBEDDED_SIZE`, and `-ENOMEM` before any lookup when the query cannot
be allocated. Otherwise, after the lookup: when it finds the attribute and `XATTR_CREATE` is
set the result is `-EEXIST` with no insert, replace or delete; when it reports `-ENODATA` and
`XATTR_REPLACE` is set the result is `-ENODATA` with no insert; any other lookup error is
returned unchanged with no modification; when the attribute exists, `XATTR_CREATE` is clear
and `value` is `NULL`, the record is validated and then removed, unless it is corrupted (the
validation error is returned) or keeps its value in a data stream (`-EOPNOTSUPP`), and
nothing is removed in these two cases; in the remaining cases, when the new key and value
can be allocated, a new record is inserted if the attribute was absent and the existing
record is replaced if it was present, and when an allocation fails the result is `-ENOMEM`
with no modification. -/
theorem apfs_xattr_set_result (H : apfs_headers) (E : apfs_collaborators) (name : List Nat)
    (value : Option (Nat → Nat)) (size : Nat) (flags : Int)
    (hdata : H.ENODATA ≠ 0) (hmem : 0 < H.ENOMEM)
    (hkey : (H.sizeof_apfs_xattr_key : Int) + 65535 < 2147483648)
    (hval : (H.sizeof_apfs_xattr_val : Int) + H.APFS_XATTR_MAX_EMBEDDED_SIZE < 2147483648) :
    (size > H.APFS_XATTR_MAX_EMBEDDED_SIZE →
      apfs_xattr_set H E name value size flags = (-H.ERANGE, [])) ∧
    (size ≤ H.APFS_XATTR_MAX_EMBEDDED_SIZE → E.apfs_alloc_query = false →
      apfs_xattr_set H E name value size flags = (-H.ENOMEM, [])) ∧
    (size ≤ H.APFS_XATTR_MAX_EMBEDDED_SIZE → E.apfs_alloc_query = true →
      (E.apfs_btree_query = 0 → Int.land flags H.XATTR_CREATE ≠ 0 →
        apfs_xattr_set H E name value size flags = (-H.EEXIST, [apfs_btree_op.query])) ∧
      (E.apfs_btree_query = -H.ENODATA → Int.land flags H.XATTR_REPLACE ≠ 0 →
        apfs_xattr_set H E name value size flags = (-H.ENODATA, [apfs_btree_op.query])) ∧
      (E.apfs_btree_query ≠ 0 → E.apfs_btree_query ≠ -H.ENODATA →
        apfs_xattr_set H E name value size flags
          = (E.apfs_btree_query, [apfs_btree_op.query])) ∧
      (E.apfs_btree_query = 0 → Int.land flags H.XATTR_CREATE = 0 → value = none →
        ((apfs_xattr_from_query H E.query E.xattr).1 = 0 →
          (apfs_xattr_from_query H E.query E.xattr).2.has_dstream = false →
          apfs_xattr_set H E name value size flags
            = (E.apfs_btree_remove, [apfs_btree_op.query, apfs_btree_op.remove])) ∧
        ((apfs_xattr_from_query H E.query E.xattr).1 = 0 →
          (apfs_xattr_from_query H E.query E.xattr).2.has_dstream = true →
          apfs_xattr_set H E name value size flags
            = (-H.EOPNOTSUPP, [apfs_btree_op.query])) ∧
        ((apfs_xattr_from_query H E.query E.xattr).1 ≠ 0 →
          apfs_xattr_set H E name value size flags
            = ((apfs_xattr_from_query H E.query E.xattr).1, [apfs_btree_op.query]))) ∧
      (E.apfs_btree_query = -H.ENODATA → Int.land flags H.XATTR_REPLACE = 0 →
        (E.kmalloc_key = true → E.kmalloc_val = true →
          apfs_xattr_set H E name value size flags
            = (E.apfs_btree_insert,
                [apfs_btree_op.query,
                  apfs_btree_op.insert
                    ((H.sizeof_apfs_xattr_key : Int) + Lzfse.u16 ((name.length : Int) + 1))
                    ((H.sizeof_apfs_xattr_val : Int) + size)])) ∧
        (E.kmalloc_key = false ∨ E.kmalloc_val = false →
          apfs_xattr_set H E name value size flags = (-H.ENOMEM, [apfs_btree_op.query]))) ∧
      (E.apfs_btree_query = 0 → Int.land flags H.XATTR_CREATE = 0 → value ≠ none →
        (E.kmalloc_key = true → E.kmalloc_val = true →
          apfs_xattr_set H E name value size flags
            = (E.apfs_btree_replace,
                [apfs_btree_op.query,
                  apfs_btree_op.replace
                    ((H.sizeof_apfs_xattr_key : Int) + Lzfse.u16 ((name.length : Int) + 1))
                    ((H.sizeof_apfs_xattr_val : Int) + size)])) ∧
        (E.kmalloc_key = false ∨ E.kmalloc_val = false →
          apfs_xattr_set H E name value size flags
            = (-H.ENOMEM, [apfs_btree_op.query])))) := by
  have hneg : -H.ENODATA ≠ 0 := by omega
  have hu : 0 ≤ Lzfse.u16 ((name.length : Int) + 1) ∧
      Lzfse.u16 ((name.length : Int) + 1) ≤ 65535 := by
    unfold Lzfse.u16; omega
  have hkl : Lzfse.i32 ((H.sizeof_apfs_xattr_key : Int) + Lzfse.u16 ((name.length : Int) + 1))
      = (H.sizeof_apfs_xattr_key : Int) + Lzfse.u16 ((name.length : Int) + 1) :=
    Lzfse.i32_of_range (by omega) (by omega)
  have hkey0 : ∀ hk : E.kmalloc_key = true, ¬ (apfs_build_xattr_key H E name < 0) ∧
      apfs_build_xattr_key H E name
        = (H.sizeof_apfs_xattr_key : Int) + Lzfse.u16 ((name.length : Int) + 1) := by
    intro hk
    unfold apfs_build_xattr_key
    simp only [hk, Bool.true_eq_false, if_false, hkl]
    exact ⟨by omega, trivial⟩
  have hkey1 : E.kmalloc_key = false → apfs_build_xattr_key H E name < 0 ∧
      apfs_build_xattr_key H E name = -H.ENOMEM := by
    intro hk
    unfold apfs_build_xattr_key
    simp only [hk, if_true]
    exact ⟨by omega, trivial⟩
  have hval0 : size ≤ H.APFS_XATTR_MAX_EMBEDDED_SIZE → E.kmalloc_val = true →
      ¬ (apfs_build_xattr_val H E size < 0) ∧
      apfs_build_xattr_val H E size = (H.sizeof_apfs_xattr_val : Int) + size := by
    intro hs hk
    have hvl : Lzfse.i32 ((H.sizeof_apfs_xattr_val : Int) + size)
        = (H.sizeof_apfs_xattr_val : Int) + size :=
      Lzfse.i32_of_range (by omega) (by omega)
    unfold apfs_build_xattr_val
    simp only [hk, Bool.true_eq_false, if_false, hvl]
    exact ⟨by omega, trivial⟩
  have hval1 : E.kmalloc_val = false → apfs_build_xattr_val H E size < 0 ∧
      apfs_build_xattr_val H E size = -H.ENOMEM := by
    intro hk
    unfold apfs_build_xattr_val
    simp only [hk, if_true]
    exact ⟨by omega, trivial⟩
  have hbuild_ok : size ≤ H.APFS_XATTR_MAX_EMBEDDED_SIZE → E.kmalloc_key = true →
      E.kmalloc_val = true → ∀ (a : Int × List apfs_btree_op),
      (if apfs_build_xattr_key H E name < 0 then
          (apfs_build_xattr_key H E name, [apfs_btree_op.query])
        else if apfs_build_xattr_val H E size < 0 then
          (apfs_build_xattr_val H E size, [apfs_btree_op.query]) else a) = a := by
    intro hs hk hv a
    rw [if_neg (hkey0 hk).1, if_neg (hval0 hs hv).1]
  have hbuild_fail : E.kmalloc_key = false ∨ E.kmalloc_val = false →
      ∀ (a : Int × List apfs_btree_op),
      (if apfs_build_xattr_key H E name < 0 then
          (apfs_build_xattr_key H E name, [apfs_btree_op.query])
        else if apfs_build_xattr_val H E size < 0 then
          (apfs_build_xattr_val H E size, [apfs_btree_op.query]) else a)
        = (-H.ENOMEM, [apfs_btree_op.query]) := by
    intro hf a
    by_cases hk : E.kmalloc_key = false
    · rw [if_pos (hkey1 hk).1, (hkey1 hk).2]
    · have hk' : E.kmalloc_key = true := by
        cases h : E.kmalloc_key with
        | true => rfl
        | false => exact absurd h hk
      have hv : E.kmalloc_val = false := by
        rcases hf with h | h
        · exact absurd h hk
        · exact h
      rw [if_neg (hkey0 hk').1, if_pos (hval1 hv).1, (hval1 hv).2]
  refine ⟨?_, ?_, ?_⟩
  · intro hs
    unfold apfs_xattr_set
    rw [if_pos hs]
  · intro hs ha
    unfold apfs_xattr_set
    rw [if_neg (by omega), if_pos ha]
  · intro hs ha
    have hstart : apfs_xattr_set H E name value size flags
        = (if E.apfs_btree_query ≠ 0 then
            if E.apfs_btree_query ≠ -H.ENODATA then
              (E.apfs_btree_query, [apfs_btree_op.query])
            else if Int.land flags H.XATTR_REPLACE ≠ 0 then
              (E.apfs_btree_query, [apfs_btree_op.query])
            else
              (if apfs_build_xattr_key H E name < 0 then
                (apfs_build_xattr_key H E name, [apfs_btree_op.query])
              else if apfs_build_xattr_val H E size < 0 then
                (apfs_build_xattr_val H E size, [apfs_btree_op.query])
              else if E.apfs_btree_query ≠ 0 then
                (E.apfs_btree_insert,
                  [apfs_btree_op.query,
                    apfs_btree_op.insert (apfs_build_xattr_key H E name)
                      (apfs_build_xattr_val H E size)])
              else
                (E.apfs_btree_replace,
                  [apfs_btree_op.query,
                    apfs_btree_op.replace (apfs_build_xattr_key H E name)
                      (apfs_build_xattr_val H E size)]))
          else if Int.land flags H.XATTR_CREATE ≠ 0 then (-H.EEXIST, [apfs_btree_op.query])
          else if value.isNone = true then
            ((apfs_delete_xattr H E E.query).1,
              apfs_btree_op.query :: (apfs_delete_xattr H E E.query).2)
          else
            (if apfs_build_xattr_key H E name < 0 then
              (apfs_build_xattr_key H E name, [apfs_btree_op.query])
            else if apfs_build_xattr_val H E size < 0 then
              (apfs_build_xattr_val H E size, [apfs_btree_op.query])
            else if E.apfs_btree_query ≠ 0 then
              (E.apfs_btree_insert,
                [apfs_btree_op.query,
                  apfs_btree_op.insert (apfs_build_xattr_key H E name)
                    (apfs_build_xattr_val H E size)])
            else
              (E.apfs_btree_replace,
                [apfs_btree_op.query,
                  apfs_btree_op.replace (apfs_build_xattr_key H E name)
                    (apfs_build_xattr_val H E size)]))) := by
      unfold apfs_xattr_set
      rw [if_neg (by omega), if_neg (by rw [ha]; decide)]
    rw [hstart]
    refine ⟨?_, ?_, ?_, ?_, ?_, ?_⟩
    · intro hq hc
      rw [if_neg (not_not.2 hq), if_pos hc]
    · intro hq hr
      rw [if_pos (by rw [hq]; exact hneg), if_neg (not_not.2 hq), if_pos hr, hq]
    · intro hq hq2
      rw [if_pos hq, if_pos hq2]
    · intro hq hc hv
      subst hv
      rw [if_neg (not_not.2 hq), if_neg (not_not.2 hc),
        if_pos (show (none : Option (Nat → Nat)).isNone = true from rfl)]
      unfold apfs_delete_xattr
      refine ⟨?_, ?_, ?_⟩
      · intro h0 hd
        simp only [h0, hd, ne_eq, not_true_eq_false, if_false, Bool.false_eq_true]
      · intro h0 hd
        simp only [h0, hd, ne_eq, not_true_eq_false, if_false, if_true]
      · intro h0
        simp only [ne_eq, h0, not_false_eq_true, if_true]
    · intro hq hr
      have hq0 : E.apfs_btree_query ≠ 0 := by rw [hq]; exact hneg
      rw [if_pos hq0, if_neg (not_not.2 hq), if_neg (not_not.2 hr)]
      constructor
      · intro hk hv
        rw [hbuild_ok hs hk hv _, if_pos hq0, (hkey0 hk).2, (hval0 hs hv).2]
      · intro hf
        exact hbuild_fail hf _
    · intro hq hc hv
      have hvn : ¬ (value.isNone = true) := by
        cases value with
        | none => exact absurd rfl hv
        | some v => simp
      rw [if_neg (not_not.2 hq), if_neg (not_not.2 hc), if_neg hvn]
      constructor
      · intro hk hvv
        rw [hbuild_ok hs hk hvv _, if_neg (not_not.2 hq), (hkey0 hk).2,
          (hval0 hs hvv).2]
      · intro hf
        exact hbuild_fail hf _

/-- Witness of `apfs_xattr_set_result`: with the example constants, a lookup that finds an
inline record, no flag and a `NULL` value, the record is removed. -/
theorem apfs_xattr_set_result_witness :
    (apfs_headers_example.ENODATA ≠ 0 ∧ 0 < apfs_headers_example.ENOMEM ∧
      (apfs_headers_example.sizeof_apfs_xattr_key : Int) + 65535 < 2147483648 ∧
      (apfs_headers_example.sizeof_apfs_xattr_val : Int)
        + apfs_headers_example.APFS_XATTR_MAX_EMBEDDED_SIZE < 2147483648) ∧
    apfs_xattr_set apfs_headers_example apfs_collaborators_example [97, 98] none 0 0
      = (apfs_collaborators_example.apfs_btree_remove,
          [apfs_btree_op.query, apfs_btree_op.remove]) :=
  ⟨by decide,
    ((((apfs_xattr_set_result apfs_headers_example apfs_collaborators_example [97, 98] none 0 0
      (by decide) (by decide) (by decide) (by decide)).2.2 (by decide) rfl).2.2.2.1
      rfl (by decide) rfl).1 (by decide) (by decide))⟩

/-- Claim C14 fails as stated. When the lookup finds a record that keeps its value in a data
stream, `XATTR_CREATE` is clear and `value` is `NULL`, the result is `-EOPNOTSUPP` and
nothing is deleted. When the lookup reports `-ENODATA`, `XATTR_REPLACE` is clear and the key
cannot be allocated, the result is `-ENOMEM` and nothing is inserted. -/
theorem apfs_xattr_set_keeps_record :
    ((apfs_xattr_from_query apfs_headers_example apfs_query_dstream_example apfs_xattr_zero).1
        = 0 ∧
      Int.land 0 apfs_headers_example.XATTR_CREATE = 0 ∧
      apfs_xattr_set apfs_headers_example
          { apfs_collaborators_example with query := apfs_query_dstream_example }
          [97, 98] none 0 0
        = (-95, [apfs_btree_op.query])) ∧
    (Int.land 0 apfs_headers_example.XATTR_REPLACE = 0 ∧
      apfs_xattr_set apfs_headers_example
          { apfs_collaborators_example with apfs_btree_query := -61, kmalloc_key := false }
          [97, 98] (some fun _ => 0) 0 0
        = (-12, [apfs_btree_op.query])) := by
  refine ⟨⟨by decide, by decide, by decide⟩, by decide, by decide⟩

end Apfs

namespace Lzfse
/-- Claim C15, amended: for `uint16_t` frequencies and an overrun that is not negative, the
loop of `fse_adjust_freqs` ends exactly when the overrun does not exceed the number of states
the histogram can give without emptying a symbol (the sum of `freq[sym] - 1` over the nonzero
frequencies); it then ends within the four passes `shift = 3, 2, 1, 0`, with the overrun
removed from the frequencies, and otherwise no number of passes ends it. Every call made by
`fse_normalize_freq` for `nstates = 2^n`, `n ≤ 15`, on a nonempty histogram whose counts total
less than `2^32` and that uses at most `nstates` symbols ends within these four passes. -/
theorem adjust_freqs_terminates (freq : List Nat) (overrun : Int)
    (hf : ∀ f ∈ freq, f < 65536) (h0 : 0 ≤ overrun) :
    (overrun ≤ freq_slack freq →
      ∃ out, fse_adjust_freqs 4 freq overrun = some out ∧ out.length = freq.length ∧
        ((out.sum : Nat) : Int) = (freq.sum : Nat) - overrun) ∧
    (freq_slack freq < overrun → ∀ fuel, fse_adjust_freqs fuel freq overrun = none) ∧
    (∀ (n : Nat) (t : List Nat), n ≤ 15 → t ≠ [] → t.sum < 4294967296 →
      used_symbols t ≤ 2 ^ n → ∃ out, fse_normalize_freq 4 (2 ^ n) t = some out) := by
  refine ⟨?_, ?_, ?_⟩
  · intro hs
    obtain ⟨out, h1, h2, h3⟩ := adjust_freqs_spec 4 le_rfl freq overrun hf h0 hs
    exact ⟨out, h1, h2.length_eq.symm, h3⟩
  · intro hs fuel
    exact adjust_loop_diverges fuel 3 freq overrun hf h0 hs
  · intro n t hn ht hT hused
    obtain ⟨out, h1, -⟩ := normalize_spec n hn t 4 le_rfl ht hT hused
    exact ⟨out, h1⟩

/-- Witness of `adjust_freqs_terminates`: an overrun of 5 on `[9, 1, 4]`, whose slack is 11. -/
theorem adjust_freqs_terminates_witness :
    ((∀ f ∈ [9, 1, 4], f < 65536) ∧ (0 : Int) ≤ 5 ∧ (5 : Int) ≤ freq_slack [9, 1, 4]) ∧
      ∃ out, fse_adjust_freqs 4 [9, 1, 4] 5 = some out ∧ out.length = [9, 1, 4].length ∧
        ((out.sum : Nat) : Int) = ([9, 1, 4].sum : Nat) - 5 :=
  ⟨⟨by decide, by decide, by decide⟩,
    (adjust_freqs_terminates [9, 1, 4] 5 (by decide) (by decide)).1 (by decide)⟩

/-- Claim C15 fails as stated. With `freq = [1, 1]` and an overrun of 1 no frequency exceeds 1,
so no pass changes anything and the loop never ends; `fse_normalize_freq` makes such a call
for `nstates = 2` and `t = [1, 1, 1]`, where every symbol rounds to 1. -/
theorem adjust_freqs_never_ends :
    (¬ ∃ fuel out, fse_adjust_freqs fuel [1, 1] 1 = some out) ∧
    (¬ ∃ fuel out, fse_normalize_freq fuel 2 [1, 1, 1] = some out) := by
  constructor
  · rintro ⟨fuel, out, h⟩
    unfold fse_adjust_freqs at h
    rw [adjust_loop_stuck [1, 1] 1 (by decide) (by decide)] at h
    cases h
  · rintro ⟨fuel, out, h⟩
    have h0 : fse_normalize_freq fuel 2 [1, 1, 1]
        = fse_adjust_freqs_loop fuel 3 [1, 1, 1] 1 := rfl
    rw [h0, adjust_loop_stuck [1, 1, 1] 1 (by decide) (by decide)] at h
    cases h


/-- Claim C16, amended: for `nstates = 2^n` with `n ≤ 15` and every histogram whose
frequencies sum to `nstates`, every slot below `nstates` holds a decoder entry, and every
decoder slot `p` holding `{symbol, k', delta}` belongs to a symbol index `i` with
`symbol = i mod 256` (so `symbol = i` when there are at most 256 symbols), whose accumulated
offset is the same in both tables, such that for every `b` with `0 ≤ b < 2^k'` the state
`s = delta + b` satisfies `s ≥ s0_i` exactly when `k' = k_i`, and the encoder entry of symbol
`i` maps `s` back to `p`: `delta0_i + (s >> k_i) = p` when `s ≥ s0_i`, and
`delta1_i + (s >> (k_i - 1)) = p` when `s < s0_i`. -/
theorem encoder_inverts_decoder (n : Nat) (hn : n ≤ 15) (freq : List Nat)
    (hsum : freq.sum = 2 ^ n) (t : Nat → fse_encoder_entry) :
    (∀ p : Nat, p < 2 ^ n → ∃ e, (p, e) ∈ (fse_init_decoder_table (2 ^ n) freq).2) ∧
    ∀ p e, (p, e) ∈ (fse_init_decoder_table (2 ^ n) freq).2 →
      ∃ i, i < freq.length ∧ e.symbol = i % 256 ∧ (freq.length ≤ 256 → e.symbol = i) ∧
        fse_init_encoder_table_offset 0 freq i = ((freq.take i).sum : Nat) ∧
        (freq.take i).sum ≤ p ∧ p < (freq.take i).sum + freq.getD i 0 ∧
        ∀ b : Int, 0 ≤ b → b < 2 ^ e.k.toNat →
          ((fse_init_encoder_table (2 ^ n) freq t i).s0 ≤ e.delta + b ↔
            e.k = (fse_init_encoder_table (2 ^ n) freq t i).k) ∧
          ((fse_init_encoder_table (2 ^ n) freq t i).s0 ≤ e.delta + b →
            (fse_init_encoder_table (2 ^ n) freq t i).delta0
              + shr (e.delta + b) (fse_init_encoder_table (2 ^ n) freq t i).k = p) ∧
          (e.delta + b < (fse_init_encoder_table (2 ^ n) freq t i).s0 →
            (fse_init_encoder_table (2 ^ n) freq t i).delta1
              + shr (e.delta + b) ((fse_init_encoder_table (2 ^ n) freq t i).k - 1) = p) := by
  have hpn : 2 ^ n ≤ 2 ^ 15 := Nat.pow_le_pow_right (by decide) hn
  have hN : ((2 : Int) ^ n) < 2147483648 := by rw [two_pow_cast]; omega
  have hs : ((freq.sum : Nat) : Int) ≤ (2 : Int) ^ n := by rw [two_pow_cast, hsum]
  constructor
  · intro p hp
    have h2 := (decoder_loop_slots (2 ^ n) (clz (2 ^ n)) hN freq 0 0 0 le_rfl (by omega)).2
    have hmem : p ∈ slots_written
        (fse_init_decoder_table_loop (2 ^ n) (clz (2 ^ n)) 0 0 0 freq).2 := by
      rw [h2, List.mem_range']
      exact ⟨p, by omega, by omega⟩
    simp only [slots_written, List.mem_map] at hmem
    obtain ⟨⟨q, e⟩, hqe, rfl⟩ := hmem
    exact ⟨e, hqe⟩
  · intro p e hpe
    obtain ⟨d, j, hd, hj, hw⟩ := (decoder_table_mem _ hN freq hs (p, e)).1 hpe
    have hp : p = (freq.take d).sum + j := congrArg Prod.fst hw
    have he : e = fse_init_decoder_table_entry (2 ^ n) (clz (2 ^ n)) d (freq.getD d 0) j :=
      congrArg Prod.snd hw
    have hle := take_sum_add_getD_le freq d
    rw [hsum] at hle
    have hf0 : freq.getD d 0 ≠ 0 := by omega
    have hsym := (decoder_entry_range n hn d (freq.getD d 0) j hf0 (by omega) hj).2.2.1
    have hoff := encoder_offset_sum freq 0 d le_rfl (by omega)
    rw [Int.zero_add] at hoff
    refine ⟨d, hd, by rw [he, hsym], ?_, hoff, by omega, by omega, ?_⟩
    · intro hlen
      rw [he, hsym]
      exact Nat.mod_eq_of_lt (by omega)
    · intro b hb0 hb
      rw [encoder_table_at n hn freq (by omega) t d hf0, hp, he]
      rw [he] at hb
      exact encoder_inverts_entry n hn d _ _ j hf0 hle hj b hb0 hb

/-- Witness of `encoder_inverts_decoder`: the histogram `[2, 0, 1, 1]` with 4 states. -/
theorem encoder_inverts_decoder_witness :
    (2 ≤ 15 ∧ [2, 0, 1, 1].sum = 2 ^ 2) ∧
      ∀ p : Nat, p < 2 ^ 2 → ∃ e, (p, e) ∈ (fse_init_decoder_table (2 ^ 2) [2, 0, 1, 1]).2 :=
  ⟨by decide, (encoder_inverts_decoder 2 (by decide) [2, 0, 1, 1] (by decide)
    (fun _ => ⟨0, 0, 0, 0⟩)).1⟩

set_option maxRecDepth 100000 in
/-- Claim C16 fails as stated. With 257 symbols, `freq[0] = freq[256] = 1` and 2 states,
slot 1 holds `{symbol 0, k' = 1, delta = 0}` and the encoder entry of symbol 0 maps the state
`s = 0 ≥ s0` to slot 0, not 1. With 65536 states and the histogram `[65535, 1]`, slot 0 holds
`{symbol 0, k' = 1, delta = -2}`, the encoder entry of symbol 0 has `s0 = -2`, and it maps
the state `s = -2` to `-32768`, not 0. -/
theorem encoder_inverts_decoder_fails :
    ((1 :: List.replicate 255 0 ++ [1]).sum = 2 ∧
      (1, ({ k := 1, symbol := 0, delta := 0 } : fse_decoder_entry))
        ∈ (fse_init_decoder_table 2 (1 :: List.replicate 255 0 ++ [1])).2 ∧
      (fse_init_encoder_table 2 (1 :: List.replicate 255 0 ++ [1])
        (fun _ => ⟨0, 0, 0, 0⟩) 0).s0 ≤ 0 + 0 ∧
      (fse_init_encoder_table 2 (1 :: List.replicate 255 0 ++ [1])
          (fun _ => ⟨0, 0, 0, 0⟩) 0).delta0
        + shr (0 + 0) (fse_init_encoder_table 2 (1 :: List.replicate 255 0 ++ [1])
          (fun _ => ⟨0, 0, 0, 0⟩) 0).k ≠ 1) ∧
    ([65535, 1].sum = 65536 ∧
      (0, ({ k := 1, symbol := 0, delta := -2 } : fse_decoder_entry))
        ∈ (fse_init_decoder_table 65536 [65535, 1]).2 ∧
      (fse_init_encoder_table 65536 [65535, 1] (fun _ => ⟨0, 0, 0, 0⟩) 0).s0 ≤ -2 + 0 ∧
      (fse_init_encoder_table 65536 [65535, 1] (fun _ => ⟨0, 0, 0, 0⟩) 0).delta0
        + shr (-2 + 0) (fse_init_encoder_table 65536 [65535, 1] (fun _ => ⟨0, 0, 0, 0⟩) 0).k
        ≠ 0) := by
  refine ⟨⟨by decide, by decide, by decide, by decide⟩, by decide, ?_, by decide, by decide⟩
  rw [decoder_table_mem 65536 (by decide) [65535, 1] (by decide)]
  exact ⟨0, 0, by decide, by decide, by decide⟩


/-- Claim C17, amended: for `nstates = 2^n` with `n ≤ 15`, every histogram whose frequencies
sum to `nstates` and every symbol `i` with `freq[i] = f > 0`, the `f` entries that
`fse_init_decoder_table` writes for symbol `i` (at the slots that follow the sum of the
lower-indexed frequencies) have bit count `k` for `j < j0` and `k - 1` for `j ≥ j0`, where
`k = clz(f) - clz(nstates)` and `j0 = ((2*nstates) >> k) - f`; their intervals
`[delta_j, delta_j + 2^k_j)` lie in `[0, nstates)`, are pairwise disjoint and cover
`[0, nstates)`; hence every state is `delta_j + b` for exactly one pair of an entry `j` of
the symbol and a bit value `b` with `0 ≤ b < 2^k_j`. -/
theorem decoder_state_partition (n : Nat) (hn : n ≤ 15) (freq : List Nat)
    (hsum : freq.sum = 2 ^ n) (i : Nat) (hf : 0 < freq.getD i 0) :
    (∀ j, j < freq.getD i 0 →
      ((freq.take i).sum + j,
          fse_init_decoder_table_entry (2 ^ n) (clz (2 ^ n)) i (freq.getD i 0) j)
        ∈ (fse_init_decoder_table (2 ^ n) freq).2 ∧
      (fse_init_decoder_table_entry (2 ^ n) (clz (2 ^ n)) i (freq.getD i 0) j).k
        = (if (j : Int) < shr (i32 (2 * 2 ^ n)) (clz (freq.getD i 0) - clz (2 ^ n))
              - freq.getD i 0
            then clz (freq.getD i 0) - clz (2 ^ n)
            else clz (freq.getD i 0) - clz (2 ^ n) - 1) ∧
      0 ≤ (fse_init_decoder_table_entry (2 ^ n) (clz (2 ^ n)) i (freq.getD i 0) j).k ∧
      ∀ s, in_state_interval
          (fse_init_decoder_table_entry (2 ^ n) (clz (2 ^ n)) i (freq.getD i 0) j) s →
        0 ≤ s ∧ s < 2 ^ n) ∧
    (∀ j1 j2, j1 < freq.getD i 0 → j2 < freq.getD i 0 → ∀ s,
      in_state_interval
          (fse_init_decoder_table_entry (2 ^ n) (clz (2 ^ n)) i (freq.getD i 0) j1) s →
      in_state_interval
          (fse_init_decoder_table_entry (2 ^ n) (clz (2 ^ n)) i (freq.getD i 0) j2) s →
      j1 = j2) ∧
    (∀ s : Int, 0 ≤ s → s < 2 ^ n → ∃ j, j < freq.getD i 0 ∧
      in_state_interval
        (fse_init_decoder_table_entry (2 ^ n) (clz (2 ^ n)) i (freq.getD i 0) j) s) ∧
    (∀ s : Int, 0 ≤ s → s < 2 ^ n → ∃! jb : Nat × Int, jb.1 < freq.getD i 0 ∧ 0 ≤ jb.2 ∧
      jb.2 < 2 ^ (fse_init_decoder_table_entry (2 ^ n) (clz (2 ^ n)) i
        (freq.getD i 0) jb.1).k.toNat ∧
      (fse_init_decoder_table_entry (2 ^ n) (clz (2 ^ n)) i (freq.getD i 0) jb.1).delta + jb.2
        = s) := by
  have hpn : 2 ^ n ≤ 2 ^ 15 := Nat.pow_le_pow_right (by decide) hn
  have hN : ((2 : Int) ^ n) < 2147483648 := by rw [two_pow_cast]; omega
  have hs : ((freq.sum : Nat) : Int) ≤ (2 : Int) ^ n := by rw [two_pow_cast, hsum]
  have hfN := getD_le_sum freq i
  rw [hsum] at hfN
  have hf0 : freq.getD i 0 ≠ 0 := by omega
  have hi : i < freq.length := by
    by_contra hc
    exact hf0 (List.getD_eq_default freq 0 (by omega))
  have hdis := decoder_entry_disjoint n hn i (freq.getD i 0) hf0 hfN
  have hcov : ∀ s : Int, 0 ≤ s → s < 2 ^ n → ∃ j, j < freq.getD i 0 ∧
      in_state_interval
        (fse_init_decoder_table_entry (2 ^ n) (clz (2 ^ n)) i (freq.getD i 0) j) s := by
    intro s hs0 hsN
    obtain ⟨sn, rfl⟩ : ∃ sn : Nat, s = sn := ⟨s.toNat, by omega⟩
    rw [two_pow_cast] at hsN
    exact decoder_entry_covers n hn i (freq.getD i 0) hf0 hfN sn (by omega)
  refine ⟨?_, hdis, hcov, ?_⟩
  · intro j hj
    obtain ⟨hk0, hk15, -, hr⟩ := decoder_entry_range n hn i (freq.getD i 0) j hf0 hfN hj
    refine ⟨?_, ?_, hk0, ?_⟩
    · rw [decoder_table_mem _ hN freq hs]
      exact ⟨i, j, hi, hj, rfl⟩
    · have hk := (decoder_shift_threshold n hn (freq.getD i 0) hf0 hfN).1
      unfold fse_init_decoder_table_entry
      simp only [hk]
      split
      · exact i8_nat _ (by omega)
      · simp only []
        unfold i8; omega
    · intro s hs
      unfold in_state_interval at hs
      have := hr (s - (fse_init_decoder_table_entry (2 ^ n) (clz (2 ^ n)) i
        (freq.getD i 0) j).delta) (by omega) (by omega)
      omega
  · intro s hs0 hsN
    obtain ⟨j, hj, hlo, hhi⟩ := hcov s hs0 hsN
    refine ⟨(j, s - (fse_init_decoder_table_entry (2 ^ n) (clz (2 ^ n)) i
      (freq.getD i 0) j).delta), ⟨hj, by simp only []; omega, by simp only []; omega,
      by simp only []; omega⟩, ?_⟩
    rintro ⟨j2, b2⟩ ⟨h1, h2, h3, h4⟩
    simp only [] at h1 h2 h3 h4
    have hjj : j2 = j := hdis j2 j h1 hj s ⟨by omega, by omega⟩ ⟨hlo, hhi⟩
    subst hjj
    have hb : b2 = s - (fse_init_decoder_table_entry (2 ^ n) (clz (2 ^ n)) i
      (freq.getD i 0) j2).delta := by omega
    rw [hb]

/-- Witness of `decoder_state_partition`: symbol 0 of the histogram `[2, 0, 1, 1]` with 4
states. -/
theorem decoder_state_partition_witness :
    (2 ≤ 15 ∧ [2, 0, 1, 1].sum = 2 ^ 2 ∧ 0 < [2, 0, 1, 1].getD 0 0) ∧
      ∀ s : Int, 0 ≤ s → s < 2 ^ 2 → ∃ j, j < [2, 0, 1, 1].getD 0 0 ∧
        in_state_interval
          (fse_init_decoder_table_entry (2 ^ 2) (clz (2 ^ 2)) 0 ([2, 0, 1, 1].getD 0 0) j) s :=
  ⟨by decide, (decoder_state_partition 2 (by decide) [2, 0, 1, 1] (by decide) 0
    (by decide)).2.2.1⟩

/-- Claim C17 fails as stated: with 65536 states the histogram `[65535, 1]` is valid, and
the first entry written for symbol 0 has `k_0 = 1` and `delta_0 = (int16_t)65534 = -2`, so
its interval is `[-2, 0)`, outside `[0, 65536)`. -/
theorem decoder_state_partition_fails :
    [65535, 1].sum = 65536 ∧
      (0, fse_init_decoder_table_entry 65536 (clz 65536) 0 65535 0)
        ∈ (fse_init_decoder_table 65536 [65535, 1]).2 ∧
      fse_init_decoder_table_entry 65536 (clz 65536) 0 65535 0
        = { k := 1, symbol := 0, delta := -2 } ∧
      in_state_interval (fse_init_decoder_table_entry 65536 (clz 65536) 0 65535 0) (-2) := by
  have he : fse_init_decoder_table_entry 65536 (clz 65536) 0 65535 0
      = { k := 1, symbol := 0, delta := -2 } := by decide
  refine ⟨by decide, ?_, he, ?_⟩
  · rw [decoder_table_mem 65536 (by decide) [65535, 1] (by decide)]
    exact ⟨0, 0, by decide, by decide, rfl⟩
  · rw [he]
    exact ⟨by decide, by decide⟩


/-- Claim C18, amended: for `nstates = 2^n` with `n ≤ 15` and every histogram whose
frequencies sum to `nstates`, every entry `{k', delta}` written by `fse_init_decoder_table`
has `k' ≥ 0` and every next state `delta + b` with `0 ≤ b < 2^k'` lies in `[0, nstates)`; the
entries written by `fse_init_value_decoder_table` carry state bits and a `delta` with the same
property; and the branch that shifts by `k - 1` is taken only when `k ≥ 1`. -/
theorem decoder_next_state_in_range (n : Nat) (hn : n ≤ 15) (freq : List Nat)
    (hsum : freq.sum = 2 ^ n) (symbol_vbits : Nat → Nat) (symbol_vbase : Nat → Int) :
    (∀ w ∈ (fse_init_decoder_table (2 ^ n) freq).2, 0 ≤ w.2.k ∧
      ∀ b : Int, 0 ≤ b → b < 2 ^ w.2.k.toNat →
        0 ≤ w.2.delta + b ∧ w.2.delta + b < 2 ^ n) ∧
    (∀ v ∈ fse_init_value_decoder_table (2 ^ n) freq symbol_vbits symbol_vbase,
      ∃ k : Int, 0 ≤ k ∧ v.2.total_bits = u8 (k + v.2.value_bits) ∧
        ∀ b : Int, 0 ≤ b → b < 2 ^ k.toNat →
          0 ≤ v.2.delta + b ∧ v.2.delta + b < 2 ^ n) ∧
    (∀ d j : Nat, j < freq.getD d 0 →
      ¬ ((j : Int) < shr (i32 (2 * 2 ^ n)) (clz (freq.getD d 0) - clz (2 ^ n)) - freq.getD d 0) →
      1 ≤ clz (freq.getD d 0) - clz (2 ^ n)) := by
  have hpn : 2 ^ n ≤ 2 ^ 15 := Nat.pow_le_pow_right (by decide) hn
  have hN : ((2 : Int) ^ n) < 2147483648 := by rw [two_pow_cast]; omega
  have hs : ((freq.sum : Nat) : Int) ≤ (2 : Int) ^ n := by rw [two_pow_cast, hsum]
  have hdec : ∀ w ∈ (fse_init_decoder_table (2 ^ n) freq).2, 0 ≤ w.2.k ∧
      ∀ b : Int, 0 ≤ b → b < 2 ^ w.2.k.toNat →
        0 ≤ w.2.delta + b ∧ w.2.delta + b < 2 ^ n := by
    intro w hw
    obtain ⟨d, j, -, hj, rfl⟩ := (decoder_table_mem _ hN freq hs w).1 hw
    have hle := getD_le_sum freq d
    rw [hsum] at hle
    obtain ⟨h1, -, -, h2⟩ := decoder_entry_range n hn d (freq.getD d 0) j (by omega) hle hj
    exact ⟨h1, h2⟩
  refine ⟨hdec, ?_, ?_⟩
  · intro v hv
    have hm := value_loop_matches (2 ^ n) (clz (2 ^ n)) symbol_vbits symbol_vbase hN freq 0 0 0
      le_rfl (by omega)
    obtain ⟨e, he, -, hd, ht⟩ := forall₂_mem_left hm v hv
    obtain ⟨h1, h2⟩ := hdec e he
    refine ⟨e.2.k, h1, ht, ?_⟩
    rw [hd]
    exact h2
  · intro d j hj
    have hle := getD_le_sum freq d
    rw [hsum] at hle
    have hfN : ((freq.getD d 0 : Nat) : Int) ≤ (2 : Int) ^ n := by rw [two_pow_cast]; omega
    exact (decoder_shift_range (2 ^ n) (freq.getD d 0) hN (by omega) (by omega) hfN).2.2 j hj

/-- Witness of `decoder_next_state_in_range`: the histogram `[2, 0, 1, 1]` with 4 states. -/
theorem decoder_next_state_in_range_witness :
    (2 ≤ 15 ∧ [2, 0, 1, 1].sum = 2 ^ 2) ∧
      ∀ w ∈ (fse_init_decoder_table (2 ^ 2) [2, 0, 1, 1]).2, 0 ≤ w.2.k ∧
        ∀ b : Int, 0 ≤ b → b < 2 ^ w.2.k.toNat →
          0 ≤ w.2.delta + b ∧ w.2.delta + b < 2 ^ 2 :=
  ⟨by decide, (decoder_next_state_in_range 2 (by decide) [2, 0, 1, 1] (by decide)
    (fun _ => 0) (fun _ => 0)).1⟩

/-- Claim C18 fails as stated: with 3 states (not a power of two) the histogram `[1, 2]` is
valid and its first entry has `k' = 1` and `delta = (1 << 1) - 3 = -1`; with 65536 states the
histogram `[65535, 1]` is valid and its first entry has `k' = 1` and
`delta = (int16_t)65534 = -2`. In both the next state for `b = 0` is negative. -/
theorem decoder_next_state_escapes :
    ([1, 2].sum = 3 ∧
      (0, ({ k := 1, symbol := 0, delta := -1 } : fse_decoder_entry))
        ∈ (fse_init_decoder_table 3 [1, 2]).2) ∧
    ([65535, 1].sum = 65536 ∧
      (0, ({ k := 1, symbol := 0, delta := -2 } : fse_decoder_entry))
        ∈ (fse_init_decoder_table 65536 [65535, 1]).2) := by
  refine ⟨⟨by decide, by decide⟩, by decide, ?_⟩
  rw [decoder_table_mem 65536 (by decide) [65535, 1] (by decide)]
  exact ⟨0, 0, by decide, by decide, by decide⟩

/-- Claim C19: for every histogram of `uint16_t` frequencies, valid or not, and every state
count `nstates` with `nstates + 65535` in the range of `int`, `fse_init_decoder_table` writes
the slots `0..w-1` once each for some `w ≤ nstates`; when it returns 0 these are the slots
below the sum of the frequencies, and when it returns -1 there is a first symbol `m` whose
running sum exceeds `nstates`, and the writes are exactly those of the call on the `m` symbols
before it, which fill the slots below the sum of their frequencies. -/
theorem decoder_table_writes_bounded (nstates : Int) (freq : List Nat) (h0 : 0 ≤ nstates)
    (hN : nstates + 65535 < 2147483648) (hf : ∀ f ∈ freq, f < 65536) :
    (∃ w : Nat, (w : Int) ≤ nstates ∧
      slots_written (fse_init_decoder_table nstates freq).2 = List.range w ∧
      (fse_init_decoder_table nstates freq).2.length = w) ∧
    ((fse_init_decoder_table nstates freq).1 = 0 →
      slots_written (fse_init_decoder_table nstates freq).2 = List.range freq.sum) ∧
    ((fse_init_decoder_table nstates freq).1 = -1 →
      ∃ m, m < freq.length ∧ ((freq.take m).sum : Int) ≤ nstates ∧
        nstates < ((freq.take (m + 1)).sum : Nat) ∧
        (fse_init_decoder_table nstates freq).2
          = (fse_init_decoder_table nstates (freq.take m)).2 ∧
        (fse_init_decoder_table nstates (freq.take m)).1 = 0 ∧
        slots_written (fse_init_decoder_table nstates freq).2
          = List.range (freq.take m).sum) := by
  obtain ⟨m, hm1, hm2, hm3, hm4, hm5, hm6⟩ :=
    decoder_loop_prefix nstates (clz nstates) hN freq 0 0 0 hf le_rfl h0
  have hslots := (decoder_loop_slots nstates (clz nstates) (by omega) (freq.take m) 0 0 0
    le_rfl hm2).2
  rw [← List.range_eq_range'] at hslots
  have hw : slots_written (fse_init_decoder_table nstates freq).2
      = List.range (freq.take m).sum := by
    unfold fse_init_decoder_table
    rw [hm4]
    exact hslots
  refine ⟨⟨(freq.take m).sum, by push_cast at hm2 ⊢; omega, hw, ?_⟩, ?_, ?_⟩
  · have := congrArg List.length hw
    simpa [slots_written] using this
  · intro hret
    unfold fse_init_decoder_table at hret
    rw [hm6] at hret
    have hml : m = freq.length := by
      by_contra hc
      have : m < freq.length := by omega
      simp [this] at hret
    rw [hw, hml, List.take_length]
  · intro hret
    unfold fse_init_decoder_table at hret
    rw [hm6] at hret
    have hml : m < freq.length := by
      by_contra hc
      simp [hc] at hret
    refine ⟨m, hml, by push_cast at hm2 ⊢; omega, by have := hm3 hml; omega, ?_, ?_, hw⟩
    · unfold fse_init_decoder_table
      exact hm4
    · unfold fse_init_decoder_table
      exact hm5

/-- Witness of `decoder_table_writes_bounded`: on `[3, 2, 1]` with 4 states the call fails at
symbol 1 after the 3 writes of symbol 0. -/
theorem decoder_table_writes_bounded_witness :
    ((0 : Int) ≤ 4 ∧ (4 : Int) + 65535 < 2147483648 ∧ ∀ f ∈ [3, 2, 1], f < 65536) ∧
      slots_written (fse_init_decoder_table 4 [3, 2, 1]).2 = List.range 3 :=
  ⟨⟨by decide, by decide, by decide⟩, by
    obtain ⟨w, -, hw, hl⟩ :=
      (decoder_table_writes_bounded 4 [3, 2, 1] (by decide) (by decide) (by decide)).1
    have h3 : (fse_init_decoder_table 4 [3, 2, 1]).2.length = 3 := by decide
    rw [hw, ← hl, h3]⟩


/-- Claim C20, amended: for `nstates = 2^n` with `n ≤ 15` and every nonempty histogram `t`
whose counts total less than `2^32` and that has at most `nstates` nonzero counts, let `r[i]`
be the rounded frequency of symbol `i`, `m` the lowest index attaining the maximum of `r`,
and `remaining = nstates - sum(r)`. `fse_normalize_freq` returns (four passes of the
adjustment loop suffice). Whenever `-remaining < (r[m] >> 2)` its output has
`freq[m] = r[m] + remaining` and `freq[i] = r[i]` for every `i ≠ m`; otherwise its output is
that of `fse_adjust_freqs` on the stored frequencies with overrun `-remaining`, and
`freq[i] ≤ r[i]` for every `i`. -/
theorem normalize_drift (n : Nat) (hn : n ≤ 15) (t : List Nat) (ht : t ≠ [])
    (hT : t.sum < 4294967296) (hused : used_symbols t ≤ 2 ^ n) (fuel : Nat) (hfuel : 4 ≤ fuel) :
    ∃ m freq, fse_normalize_freq fuel (2 ^ n) t = some freq ∧ freq.length = t.length ∧
      m < t.length ∧
      (∀ i, (fse_normalize_freq_rounded (2 ^ n) t).getD i 0
        ≤ (fse_normalize_freq_rounded (2 ^ n) t).getD m 0) ∧
      (∀ i, i < m → (fse_normalize_freq_rounded (2 ^ n) t).getD i 0
        < (fse_normalize_freq_rounded (2 ^ n) t).getD m 0) ∧
      (-(2 ^ n - (fse_normalize_freq_rounded (2 ^ n) t).sum)
          < shr ((fse_normalize_freq_rounded (2 ^ n) t).getD m 0) 2 →
        (freq.getD m 0 : Int) = (fse_normalize_freq_rounded (2 ^ n) t).getD m 0
          + (2 ^ n - (fse_normalize_freq_rounded (2 ^ n) t).sum) ∧
        ∀ i, i ≠ m → (freq.getD i 0 : Int) = (fse_normalize_freq_rounded (2 ^ n) t).getD i 0) ∧
      (¬ (-(2 ^ n - (fse_normalize_freq_rounded (2 ^ n) t).sum)
          < shr ((fse_normalize_freq_rounded (2 ^ n) t).getD m 0) 2) →
        fse_adjust_freqs fuel
            ((fse_normalize_freq_rounded (2 ^ n) t).map fun f => (u16 f).toNat)
            ((fse_normalize_freq_rounded (2 ^ n) t).sum - 2 ^ n) = some freq ∧
        ∀ i, (freq.getD i 0 : Int) ≤ (fse_normalize_freq_rounded (2 ^ n) t).getD i 0) := by
  have hshift : clz ((2 : Int) ^ n) - 1 = 30 - (n : Int) := by
    rw [clz_two_pow n (by omega)]; omega
  have hsc := s_count_eq t hT
  have hshl : u32 (shl 1 31) = 2147483648 := by decide
  have hP : (2 : Int) ^ n ≤ 32768 := by
    have := pow_le_pow_right₀ (show (1 : Int) ≤ 2 by norm_num) hn
    norm_num at this
    exact this
  have hP0 : (0 : Int) < 2 ^ n := by positivity
  have hcastP : (((2 ^ n : Nat)) : Int) = (2 : Int) ^ n := by push_cast; rfl
  have husedI : (used_symbols t : Int) ≤ (2 : Int) ^ n := by
    rw [← hcastP]; exact_mod_cast hused
  unfold fse_normalize_freq fse_normalize_freq_rounded fse_normalize_freq_highprec_step
  simp only [hshift, hsc, hshl]
  obtain ⟨hstep0, hstepx⟩ := highprec_step_spec t
  generalize (if ((t.sum : Nat) : Int) = 0 then (0 : Int)
    else 2147483648 / ((t.sum : Nat) : Int)) = step at hstep0 hstepx ⊢
  have hround : ∀ ti, ti ∈ t ∨ ti = 0 →
      0 ≤ fse_normalize_freq_round (30 - (n : Int)) step ti ∧
      fse_normalize_freq_round (30 - (n : Int)) step ti ≤ 2 ^ n ∧
      (ti = 0 → fse_normalize_freq_round (30 - (n : Int)) step ti = 0) ∧
      (ti ≠ 0 → 1 ≤ fse_normalize_freq_round (30 - (n : Int)) step ti) :=
    fun ti hti => round_spec n (by omega) step ti hstep0 (hstepx ti hti)
  have hloop := normalize_loop_spec (30 - (n : Int)) step t 0 (2 ^ n) 0 0
    (i32_of_range (by omega) (by omega)) _ rfl
  have hlow := normalize_loop_lowest (30 - (n : Int)) step t 0 (2 ^ n) 0 0
  have hu16 : (t.map fun ti => (u16 (fse_normalize_freq_round (30 - (n : Int)) step ti)).toNat)
      = t.map fun ti => (fse_normalize_freq_round (30 - (n : Int)) step ti).toNat := by
    apply List.map_congr_left
    intro ti hti
    have h1 := (hround ti (Or.inl hti)).1
    have h2 := (hround ti (Or.inl hti)).2.1
    unfold u16; omega
  rw [List.map_map]
  have hcomp : ((fun f => (u16 f).toNat) ∘ fse_normalize_freq_round (30 - (n : Int)) step)
      = fun ti => (u16 (fse_normalize_freq_round (30 - (n : Int)) step ti)).toNat := rfl
  rw [hcomp, hu16]
  rw [hu16] at hloop
  generalize fse_normalize_freq_loop (30 - (n : Int)) step 0 (2 ^ n) 0 0 t = L at hloop hlow ⊢
  generalize fse_normalize_freq_round (30 - (n : Int)) step = g at hloop hround hlow ⊢
  obtain ⟨freq0, rem, mx, ms⟩ := L
  simp only at hloop hlow ⊢
  obtain ⟨hfreq, hrem, hmax0, hmaxle, hcase⟩ := hloop
  have hg0 : g 0 = 0 := (hround 0 (Or.inr rfl)).2.2.1 rfl
  have hR := sum_map_le_used g (2 ^ n) t
    (fun ti hti => ⟨(hround ti (Or.inl hti)).1, (hround ti (Or.inl hti)).2.1,
      (hround ti (Or.inl hti)).2.2.1⟩)
  have hsumfreq : ((freq0.sum : Nat) : Int) = (t.map g).sum := by
    rw [hfreq]
    exact sum_map_toNat g t (fun ti hti => (hround ti (Or.inl hti)).1)
  have husedfreq : used_symbols freq0 = used_symbols t := by
    rw [hfreq]
    exact used_map_toNat g t (fun ti hti =>
      ⟨(hround ti (Or.inl hti)).2.2.1, (hround ti (Or.inl hti)).2.2.2⟩)
  have hgetD : ∀ j, freq0.getD j 0 = (g (t.getD j 0)).toNat := by
    intro j; rw [hfreq]; exact getD_map_toNat g hg0 t j
  have hlen : freq0.length = t.length := by rw [hfreq, List.length_map]
  have hbound : ∀ f ∈ freq0, f < 65536 := by
    intro f hf
    rw [hfreq, List.mem_map] at hf
    obtain ⟨ti, hti, rfl⟩ := hf
    have := (hround ti (Or.inl hti)).2.1
    omega
  have htpos : 0 < t.length := List.length_pos.2 ht
  have hmem : ∀ j, j < t.length → t.getD j 0 ∈ t := by
    intro j hj
    rw [List.getD_eq_getElem _ _ hj]
    exact List.getElem_mem hj
  have hgall : ∀ j, 0 ≤ g (t.getD j 0) ∧ g (t.getD j 0) ≤ mx := by
    intro j
    by_cases hj : j < t.length
    · exact ⟨(hround _ (Or.inl (hmem j hj))).1, hmaxle _ (hmem j hj)⟩
    · rw [List.getD_eq_default _ _ (by omega), hg0]
      exact ⟨le_rfl, hmax0⟩
  have hms : ms < t.length ∧ g (t.getD ms 0) = mx := by
    rcases hcase with ⟨hm, hs⟩ | ⟨-, -, hs, hgm⟩
    · subst hs
      refine ⟨htpos, ?_⟩
      have h1 := hmaxle _ (hmem 0 htpos)
      have h2 := (hround _ (Or.inl (hmem 0 htpos))).1
      omega
    · simp only [Nat.sub_zero, zero_add] at hgm hs
      exact ⟨hs, hgm⟩
  obtain ⟨hms1, hms2⟩ := hms
  have hmslow : ∀ i, i < ms → g (t.getD i 0) < mx := by
    intro i hi
    rcases hlow with ⟨-, hs⟩ | ⟨-, -, h3⟩
    · omega
    · exact h3 i (by omega)
  have hmaxR : mx ≤ (t.map g).sum := by
    rw [← hms2]
    exact List.single_le_sum (fun x hx => by
      rw [List.mem_map] at hx
      obtain ⟨ti, hti, rfl⟩ := hx
      exact (hround ti (Or.inl hti)).1) _ (List.mem_map_of_mem g (hmem ms hms1))
  have hRget : ∀ j, (t.map g).getD j 0 = g (t.getD j 0) := getD_map_int g hg0 t
  simp only [hRget]
  generalize (t.map g).sum = R at hR hsumfreq hmaxR hrem ⊢
  obtain ⟨hR0, hR1⟩ := hR
  have hRb : R ≤ 1073741824 := by
    have h1 : (used_symbols t : Int) * 2 ^ n ≤ 2 ^ n * 2 ^ n :=
      mul_le_mul_of_nonneg_right husedI (le_of_lt hP0)
    have h2 : (2 : Int) ^ n * 2 ^ n ≤ 32768 * 32768 :=
      mul_le_mul hP hP (le_of_lt hP0) (by norm_num)
    omega
  have hrem2 : rem = 2 ^ n - R := by
    rw [hrem]; exact i32_of_range (by omega) (by omega)
  have hneg : i32 (-rem) = R - 2 ^ n := by
    rw [hrem2]
    have : -((2 : Int) ^ n - R) = R - 2 ^ n := by ring
    rw [this]
    exact i32_of_range (by omega) (by omega)
  have hneg2 : -((2 : Int) ^ n - R) = R - 2 ^ n := by ring
  have hshr : shr mx 2 = mx / 4 := by simp [shr]
  have hmsval : ((freq0.getD ms 0 : Nat) : Int) = mx := by
    rw [hgetD ms, hms2]; omega
  refine ⟨ms, ?_⟩
  rw [hneg, hshr, hms2, hneg2, hshr]
  by_cases hbr : R - 2 ^ n < mx / 4
  · simp only [hbr, if_true, hlen, hms1]
    have hv : ((u16 (((freq0.getD ms 0 : Nat) : Int) + rem)).toNat : Int) = mx + 2 ^ n - R := by
      rw [hmsval, hrem2]
      unfold u16; omega
    refine ⟨_, rfl, by rw [List.length_set, hlen], trivial, fun i => (hgall i).2, hmslow,
      fun _ => ⟨?_, ?_⟩, fun hc => absurd trivial hc⟩
    · rw [getD_set_nat _ _ _ _ (by omega)]
      simp only [if_true]
      omega
    · intro i hi
      rw [getD_set_nat _ _ _ _ (by omega)]
      simp only [hi, if_false]
      rw [hgetD i]
      have := (hgall i).1
      omega
  · simp only [hbr, if_false]
    have hmx4 : 0 ≤ mx / 4 := Int.ediv_nonneg hmax0 (by norm_num)
    have hslack : R - 2 ^ n ≤ freq_slack freq0 := by
      unfold freq_slack
      rw [hsumfreq, husedfreq]
      omega
    obtain ⟨out, ho1, ho2, ho3⟩ := adjust_freqs_spec fuel hfuel freq0 (R - 2 ^ n) hbound
      (by omega) hslack
    rw [← hfreq]
    refine ⟨out, ho1, by rw [← ho2.length_eq, hlen], hms1, fun i => (hgall i).2, hmslow,
      fun hc => hc.elim, fun _ => ⟨ho1, ?_⟩⟩
    intro i
    have hk := (forall₂_freq_kept_getD ho2 i).1
    have h1 := hgetD i
    have h2 := (hgall i).1
    omega

/-- Witness of `normalize_drift`: `t = [10, 5, 0, 1]` with 16 states. -/
theorem normalize_drift_witness :
    (4 ≤ 15 ∧ [10, 5, 0, 1] ≠ [] ∧ [10, 5, 0, 1].sum < 4294967296 ∧
        used_symbols [10, 5, 0, 1] ≤ 2 ^ 4 ∧ 4 ≤ 4) ∧
      ∃ m freq, fse_normalize_freq 4 (2 ^ 4) [10, 5, 0, 1] = some freq ∧
        freq.length = [10, 5, 0, 1].length ∧ m < [10, 5, 0, 1].length :=
  ⟨⟨by decide, by decide, by decide, by decide, by decide⟩,
    (normalize_drift 4 (by decide) [10, 5, 0, 1] (by decide) (by decide) (by decide) 4
      (by decide)).imp fun _ h => h.imp fun _ h => ⟨h.1, h.2.1, h.2.2.1⟩⟩

/-- Claim C20 fails as stated. With `nstates = 65536` and `t = [1]` the rounded frequency is
`r[0] = 65536` and `remaining = 0`, so `-remaining < (r[0] >> 2)`, but the output is
`freq[0] = (uint16_t)65536 = 0`, not `r[0] + remaining`. With `nstates = 4` and
`t = [1, 1, 1, 1, 1]` every rounded frequency is 1 and `remaining = -1`, so
`fse_adjust_freqs` is used, and it never ends: there is no output. -/
theorem normalize_drift_fails :
    (fse_normalize_freq_rounded 65536 [1] = [65536] ∧
      -(65536 - (fse_normalize_freq_rounded 65536 [1]).sum)
        < shr ((fse_normalize_freq_rounded 65536 [1]).getD 0 0) 2 ∧
      ∀ fuel, fse_normalize_freq fuel 65536 [1] = some [0]) ∧
    (fse_normalize_freq_rounded 4 [1, 1, 1, 1, 1] = [1, 1, 1, 1, 1] ∧
      ¬ (-(4 - (fse_normalize_freq_rounded 4 [1, 1, 1, 1, 1]).sum)
        < shr ((fse_normalize_freq_rounded 4 [1, 1, 1, 1, 1]).getD 0 0) 2) ∧
      ∀ fuel, fse_normalize_freq fuel 4 [1, 1, 1, 1, 1] = none) := by
  refine ⟨⟨by decide, by decide, fun fuel => rfl⟩, by decide, by decide, fun fuel => ?_⟩
  have h0 : fse_normalize_freq fuel 4 [1, 1, 1, 1, 1]
      = fse_adjust_freqs_loop fuel 3 [1, 1, 1, 1, 1] 1 := rfl
  rw [h0]
  exact adjust_loop_stuck [1, 1, 1, 1, 1] 1 (by decide) (by decide) fuel 3


/-- Claim C21: for every `nstates = 2^n` with `0 ≤ n ≤ 15` and every histogram `t` whose
counts sum to exactly `nstates`, `fse_normalize_freq` returns (with no pass of the adjustment
loop) and outputs `freq[i] = t[i]` for every `i`. Consequently, whenever a first
normalisation gives a result that sums to `nstates`, normalising that result gives it back;
and a first normalisation of a nonempty histogram whose counts total less than `2^32` and
that uses at most `nstates` symbols gives such a result. -/
theorem normalize_identity (n : Nat) (hn : n ≤ 15) (t : List Nat) (hsum : t.sum = 2 ^ n) :
    (∀ fuel, fse_normalize_freq fuel (2 ^ n) t = some t) ∧
    (∀ (t0 : List Nat) (fuel0 : Nat) (freq : List Nat),
      fse_normalize_freq fuel0 (2 ^ n) t0 = some freq → freq.sum = 2 ^ n →
      ∀ fuel, fse_normalize_freq fuel (2 ^ n) freq = some freq) ∧
    (∀ t0 : List Nat, t0 ≠ [] → t0.sum < 4294967296 → used_symbols t0 ≤ 2 ^ n →
      ∃ freq, fse_normalize_freq 4 (2 ^ n) t0 = some freq ∧
        ∀ fuel, fse_normalize_freq fuel (2 ^ n) freq = some freq) := by
  refine ⟨fun fuel => normalize_exact n hn t hsum fuel, ?_, ?_⟩
  · intro t0 fuel0 freq _ hfs fuel
    exact normalize_exact n hn freq hfs fuel
  · intro t0 ht0 hT0 hused
    obtain ⟨freq, h1, -, h3, -⟩ := normalize_spec n hn t0 4 le_rfl ht0 hT0 hused
    exact ⟨freq, h1, fun fuel => normalize_exact n hn freq h3 fuel⟩

/-- Witness of `normalize_identity`: `t = [10, 5, 0, 1]` with 16 states is returned
unchanged. -/
theorem normalize_identity_witness :
    (4 ≤ 15 ∧ [10, 5, 0, 1].sum = 2 ^ 4) ∧
      ∀ fuel, fse_normalize_freq fuel (2 ^ 4) [10, 5, 0, 1] = some [10, 5, 0, 1] :=
  ⟨by decide, (normalize_identity 4 (by decide) [10, 5, 0, 1] (by decide)).1⟩

end Lzfse
